import Mathlib

/-!
# nblink: non-blocking GPIO blinking (components/nblink/nblink.c)

A shallow embedding of the blink scheduler.  The C globals become an explicit
state record, the GPIO driver becomes a log of `gpio_set_level` calls (newest
first), unsigned 32-bit arithmetic is `Nat` arithmetic reduced modulo `2^32`,
and behaviour the C standard leaves undefined (division by zero, an array
access outside the registry) is an explicit `Fault`.

The model is sequential: `xSemaphoreTake` / `xSemaphoreGive` pairs have no
effect on the data and are not represented; only the existence of the mutex
handle (`smpr_list_modify`) is, because the code branches on it.

The registry `nblk_list` is a Lean list; the C counter `nblk_active` is its
length (the C code keeps the allocation exactly `nblk_active` elements long).
A `NULL` registry is the empty list.
-/

namespace Nblink

/-! ## Constants and machine arithmetic -/

def UINT8_MAX : Nat := 255

def UINT32_MAX : Nat := 4294967295

/-- `#define NBLK_FOREVER UINT32_MAX` (nblink.h). -/
def NBLK_FOREVER : Nat := UINT32_MAX

/-- `static const uint32_t NBLK_MINIMUM_PERIOD = 2*portTICK_PERIOD_MS;`
`portTICK_PERIOD_MS` comes from the FreeRTOS configuration and is a parameter. -/
def NBLK_MINIMUM_PERIOD (portTICK_PERIOD_MS : Nat) : Nat :=
  (2 * portTICK_PERIOD_MS) % 4294967296

/-- Unsigned 32-bit subtraction `a - b`. -/
def u32_sub (a b : Nat) : Nat := (a + 4294967296 - b % 4294967296) % 4294967296

/-- Unsigned 32-bit addition `a + b`. -/
def u32_add (a b : Nat) : Nat := (a + b) % 4294967296

/-- Behaviour that is undefined in C, made observable. -/
inductive Fault where
  | div_by_zero
  | out_of_bounds
  deriving DecidableEq, Repr

/-! ## Data model -/

/-- `nblink_t` (nblink.h).  `tmr_blinker` is `none` for a `NULL` handle and
`some us` for a created periodic timer running with interval `us` microseconds. -/
structure nblink_t where
  gpio : Int
  period_ms : Nat
  remaining_ms : Nat
  level : Bool
  stop_level : Bool
  priority : Nat
  tmr_blinker : Option Nat
  deriving DecidableEq, Repr

/-- The file-level statics of the independent blinker together with the GPIO
write log. -/
structure nblk_state where
  smpr_list_modify : Bool
  nblk_list : List nblink_t
  gpio_writes : List (Int × Bool)
  deriving DecidableEq, Repr

/-- `nblk_mgr_t` (nblink.h); `nblk_active` is `nblk_list.length`. -/
structure nblk_mgr_t where
  nblk_list : List nblink_t
  sync_tbase_ms : Nat
  sync_level : Bool
  smpr_list_modify : Bool
  tmr_blinker : Option Nat
  deleting : Bool
  deriving DecidableEq, Repr

/-- A sync manager together with the GPIO write log. -/
structure sync_state where
  mgr : nblk_mgr_t
  gpio_writes : List (Int × Bool)
  deriving DecidableEq, Repr

/-! ## GPIO driver -/

/-- `gpio_set_level(gpio, level)`: record the write. -/
def gpio_set_level (w : List (Int × Bool)) (gpio : Int) (level : Bool) : List (Int × Bool) :=
  (gpio, level) :: w

/-- The level an output currently has: the most recent write to it, if any. -/
def gpio_get_level : List (Int × Bool) → Int → Option Bool
  | [], _ => none
  | (g, v) :: rest, gpio => if g = gpio then some v else gpio_get_level rest gpio

/-! ## Regular non-blocking blinking -/

/-- The loop of `get_nblk_idx_in_list`, started at index `i`; the result is
returned through a `uint8_t`. -/
def get_nblk_idx_from (gpio : Int) : List nblink_t → Nat → Nat
  | [], _ => UINT8_MAX
  | e :: rest, i => if e.gpio = gpio then i % 256 else get_nblk_idx_from gpio rest (i + 1)

/-- `get_nblk_idx_in_list` (nblink.c:12). -/
def get_nblk_idx_in_list (l : List nblink_t) (gpio : Int) : Nat :=
  get_nblk_idx_from gpio l 0

/-- `add_nblk_to_list` (nblink.c:22).  When the `uint8_t` counter wraps to 0 the
`memcpy` targets `nblk_list[-1]`. -/
def add_nblk_to_list (s : nblk_state) (nblk : nblink_t) : Except Fault nblk_state :=
  if get_nblk_idx_in_list s.nblk_list nblk.gpio = UINT8_MAX then
    if (s.nblk_list.length + 1) % 256 = 0 then .error .out_of_bounds
    else .ok { s with nblk_list := s.nblk_list ++ [nblk] }
  else .ok s

/-- `del_nblk_from_list` (nblink.c:36): force the stored stop level, release
the timer, erase the entry and compact the array. -/
def del_nblk_from_list (s : nblk_state) (gpio : Int) : Except Fault nblk_state :=
  let idx := get_nblk_idx_in_list s.nblk_list gpio
  if idx ≠ UINT8_MAX then
    match s.nblk_list[idx]? with
    | none => .error .out_of_bounds
    | some e =>
      .ok { s with gpio_writes := gpio_set_level s.gpio_writes gpio e.stop_level,
                   nblk_list := s.nblk_list.eraseIdx idx }
  else .ok s

/-- `nblk_cb` (nblink.c:58): the per-entry timer tick. -/
def nblk_cb (s : nblk_state) (gpio : Int) : Except Fault nblk_state :=
  let idx := get_nblk_idx_in_list s.nblk_list gpio
  match s.nblk_list[idx]? with
  | none => .error .out_of_bounds
  | some e =>
    if e.period_ms / 2 < e.remaining_ms then
      let rem := if e.remaining_ms ≠ NBLK_FOREVER then u32_sub e.remaining_ms (e.period_ms / 2)
                 else e.remaining_ms
      let lvl := if e.level then false else true
      .ok { s with nblk_list := s.nblk_list.set idx { e with remaining_ms := rem, level := lvl },
                   gpio_writes := gpio_set_level s.gpio_writes e.gpio lvl }
    else del_nblk_from_list s gpio

/-- Lines 119-138 of `nblk_start`: build the entry, append it, create and start
its timer with interval `(pd_ms/2)*1e3` microseconds. -/
def nblk_start_insert (s : nblk_state) (gpio : Int) (pd_ms dr_ms : Nat) (sl : Bool)
    (prio : Nat) : Except Fault (Bool × nblk_state) :=
  let nblk : nblink_t :=
    { gpio := gpio, period_ms := pd_ms, remaining_ms := dr_ms, level := false,
      stop_level := sl, priority := prio, tmr_blinker := none }
  match add_nblk_to_list s nblk with
  | .error f => .error f
  | .ok s1 =>
    let idx := get_nblk_idx_in_list s1.nblk_list gpio
    match s1.nblk_list[idx]? with
    | none => .error .out_of_bounds
    | some e =>
      .ok (true, { s1 with
        nblk_list := s1.nblk_list.set idx { e with tmr_blinker := some ((pd_ms / 2) * 1000) } })

/-- `nblk_start` (nblink.c:91). -/
def nblk_start (portTICK_PERIOD_MS : Nat) (s : nblk_state) (gpio : Int) (pd_ms dr_ms : Nat)
    (sl : Bool) (prio : Nat) : Except Fault (Bool × nblk_state) :=
  if pd_ms < NBLK_MINIMUM_PERIOD portTICK_PERIOD_MS then .ok (false, s)
  else if pd_ms = 0 then .error .div_by_zero
  else if dr_ms % pd_ms ≠ 0 ∧ dr_ms ≠ NBLK_FOREVER then .ok (false, s)
  else
    let s0 : nblk_state := { s with smpr_list_modify := true }
    let idx := get_nblk_idx_in_list s0.nblk_list gpio
    if idx ≠ UINT8_MAX then
      match s0.nblk_list[idx]? with
      | none => .error .out_of_bounds
      | some e =>
        if prio > e.priority then
          match del_nblk_from_list s0 gpio with
          | .error f => .error f
          | .ok s1 => nblk_start_insert s1 gpio pd_ms dr_ms sl prio
        else if prio = e.priority ∧ dr_ms > e.remaining_ms then
          match del_nblk_from_list s0 gpio with
          | .error f => .error f
          | .ok s1 => nblk_start_insert s1 gpio pd_ms dr_ms sl prio
        else .ok (false, s0)
    else nblk_start_insert s0 gpio pd_ms dr_ms sl prio

/-- `nblk_is_blinking` (nblink.c:146). -/
def nblk_is_blinking (s : nblk_state) (gpio : Int) : Bool :=
  if get_nblk_idx_in_list s.nblk_list gpio ≠ UINT8_MAX then true else false

/-- `nblk_stop` (nblink.c:159). -/
def nblk_stop (s : nblk_state) (gpio : Int) (sl : Bool) : Except Fault (Bool × nblk_state) :=
  if s.smpr_list_modify = false then .ok (false, s)
  else if get_nblk_idx_in_list s.nblk_list gpio = UINT8_MAX then .ok (false, s)
  else
    match del_nblk_from_list s gpio with
    | .error f => .error f
    | .ok s1 => .ok (true, { s1 with gpio_writes := gpio_set_level s1.gpio_writes gpio sl })

/-! ## Synchronized non-blocking blinking -/

/-- `get_nblk_idx_in_list_s` (nblink.c:179). -/
def get_nblk_idx_in_list_s (mgr : nblk_mgr_t) (gpio : Int) : Nat :=
  get_nblk_idx_from gpio mgr.nblk_list 0

/-- One iteration of the `// Synchronize` loop (nblink.c:202-209) on the entry
itself: level forced to the sync level, remaining time rounded up to a multiple
of the entry's own period in 32-bit arithmetic. -/
def sync_entry (sync_level : Bool) (e : nblink_t) : Except Fault nblink_t :=
  if e.period_ms = 0 then .error .div_by_zero
  else
    let correction := e.remaining_ms % e.period_ms
    let r1 := u32_sub e.remaining_ms correction
    let r2 := if correction ≠ 0 then u32_add r1 e.period_ms else r1
    .ok { e with level := sync_level, remaining_ms := r2 }

/-- The `// Synchronize` loop of `add_nblk_to_list_s` (nblink.c:201-210) over the
whole registry: each output is written with the sync level, then its entry is
re-aligned. -/
def synchronize (sync_level : Bool) :
    List nblink_t → List (Int × Bool) → Except Fault (List nblink_t × List (Int × Bool))
  | [], w => .ok ([], w)
  | e :: rest, w =>
    match sync_entry sync_level e with
    | .error f => .error f
    | .ok e1 =>
      match synchronize sync_level rest (gpio_set_level w e.gpio sync_level) with
      | .error f => .error f
      | .ok (rest1, w1) => .ok (e1 :: rest1, w1)

/-- `add_nblk_to_list_s` (nblink.c:189). -/
def add_nblk_to_list_s (st : sync_state) (nblk : nblink_t) : Except Fault sync_state :=
  if get_nblk_idx_in_list_s st.mgr nblk.gpio = UINT8_MAX then
    if (st.mgr.nblk_list.length + 1) % 256 = 0 then .error .out_of_bounds
    else
      match synchronize st.mgr.sync_level (st.mgr.nblk_list ++ [nblk]) st.gpio_writes with
      | .error f => .error f
      | .ok (l1, w1) => .ok { mgr := { st.mgr with nblk_list := l1 }, gpio_writes := w1 }
  else .ok st

/-- `del_nblk_from_list_s` (nblink.c:215). -/
def del_nblk_from_list_s (st : sync_state) (gpio : Int) : Except Fault sync_state :=
  let idx := get_nblk_idx_in_list_s st.mgr gpio
  if idx ≠ UINT8_MAX then
    match st.mgr.nblk_list[idx]? with
    | none => .error .out_of_bounds
    | some e =>
      .ok { mgr := { st.mgr with nblk_list := st.mgr.nblk_list.eraseIdx idx },
            gpio_writes := gpio_set_level st.gpio_writes gpio e.stop_level }
  else .ok st

/-- First loop of `nblk_sync_cb` (nblink.c:242-252): decrement, then toggle the
members whose remaining time is a multiple of their half period. -/
def nblk_sync_cb_update (sync_tbase_ms : Nat) :
    List nblink_t → List (Int × Bool) → Except Fault (List nblink_t × List (Int × Bool))
  | [], w => .ok ([], w)
  | e :: rest, w =>
    let rem := if e.remaining_ms ≠ NBLK_FOREVER then u32_sub e.remaining_ms (sync_tbase_ms / 2)
               else e.remaining_ms
    if e.period_ms / 2 = 0 then .error .div_by_zero
    else
      let lvl := if rem % (e.period_ms / 2) = 0 then (if e.level then false else true)
                 else e.level
      let w1 := if rem % (e.period_ms / 2) = 0 then gpio_set_level w e.gpio lvl else w
      match nblk_sync_cb_update sync_tbase_ms rest w1 with
      | .error f => .error f
      | .ok (rest1, w2) => .ok ({ e with remaining_ms := rem, level := lvl } :: rest1, w2)

/-- Second loop of `nblk_sync_cb` (nblink.c:255-258), from index `idx`.  The
first argument bounds the number of iterations; the index grows by one per
iteration and the registry never grows, so `nblk_list.length` iterations
always reach the loop exit. -/
def nblk_sync_cb_expire : Nat → Nat → sync_state → Except Fault sync_state
  | 0, _, st => .ok st
  | fuel + 1, idx, st =>
    if idx < st.mgr.nblk_list.length then
      match st.mgr.nblk_list[idx]? with
      | none => .error .out_of_bounds
      | some e =>
        if e.period_ms / 2 > e.remaining_ms then
          match del_nblk_from_list_s st e.gpio with
          | .error f => .error f
          | .ok st1 => nblk_sync_cb_expire fuel ((idx + 1) % 256) st1
        else nblk_sync_cb_expire fuel ((idx + 1) % 256) st
    else .ok st

/-- `nblk_sync_cb` (nblink.c:235): the shared timer tick. -/
def nblk_sync_cb (st : sync_state) : Except Fault sync_state :=
  if st.mgr.nblk_list.length = 0 then .ok st
  else
    match nblk_sync_cb_update st.mgr.sync_tbase_ms st.mgr.nblk_list st.gpio_writes with
    | .error f => .error f
    | .ok (l1, w1) =>
      nblk_sync_cb_expire l1.length 0 { mgr := { st.mgr with nblk_list := l1 }, gpio_writes := w1 }

/-- `nblk_sync_create_mgr` (nblink.c:271).  The `deleting` field is not
written. -/
def nblk_sync_create_mgr (portTICK_PERIOD_MS : Nat) (st : sync_state) (tbase_ms : Nat)
    (sync_level : Bool) : Bool × sync_state :=
  if tbase_ms < NBLK_MINIMUM_PERIOD portTICK_PERIOD_MS then (false, st)
  else
    (true, { st with mgr := { st.mgr with
      nblk_list := [], smpr_list_modify := true, sync_tbase_ms := tbase_ms,
      sync_level := sync_level, tmr_blinker := some ((tbase_ms / 2) * 1000) } })

/-- `nblk_sync_stop` (nblink.c:396). -/
def nblk_sync_stop (st : sync_state) (gpio : Int) (sl : Bool) : Except Fault (Bool × sync_state) :=
  if st.mgr.smpr_list_modify = false then .ok (false, st)
  else if get_nblk_idx_in_list_s st.mgr gpio = UINT8_MAX then .ok (false, st)
  else
    match del_nblk_from_list_s st gpio with
    | .error f => .error f
    | .ok st1 => .ok (true, { st1 with gpio_writes := gpio_set_level st1.gpio_writes gpio sl })

/-- The loop of `nblk_sync_delete_mgr` (nblink.c:307-308): `n` times stop the
first registry entry at its own stop level. -/
def nblk_sync_delete_loop : Nat → sync_state → Except Fault sync_state
  | 0, st => .ok st
  | n + 1, st =>
    match st.mgr.nblk_list with
    | [] => .error .out_of_bounds
    | e :: _ =>
      match nblk_sync_stop st e.gpio e.stop_level with
      | .error f => .error f
      | .ok (_, st1) => nblk_sync_delete_loop n st1

/-- `nblk_sync_delete_mgr` (nblink.c:299).  The timer handle is released and the
mutex handle is set to `NULL`; `free` of the registry changes no field. -/
def nblk_sync_delete_mgr (st : sync_state) : Except Fault sync_state :=
  let st0 : sync_state := { st with mgr := { st.mgr with deleting := true, tmr_blinker := none } }
  match nblk_sync_delete_loop st0.mgr.nblk_list.length st0 with
  | .error f => .error f
  | .ok st1 => .ok { st1 with mgr := { st1.mgr with smpr_list_modify := false } }

/-- Lines 332-335 of `nblk_sync_start`: the duration normalisation, in 32-bit
arithmetic. -/
def sync_normalize_dr (pd_ms dr_ms : Nat) : Except Fault Nat :=
  let dr1 := if dr_ms = NBLK_FOREVER then u32_sub dr_ms pd_ms else dr_ms
  if pd_ms = 0 then .error .div_by_zero
  else
    let correction := dr1 % pd_ms
    let dr2 := u32_sub dr1 correction
    .ok (if correction ≠ 0 then u32_add dr2 pd_ms else dr2)

/-- Lines 364-373 of `nblk_sync_start`: build the entry and join the group. -/
def nblk_sync_start_insert (st : sync_state) (gpio : Int) (pd_ms dr_ms : Nat) (sl : Bool)
    (prio : Nat) : Except Fault (Bool × sync_state) :=
  let nblk : nblink_t :=
    { gpio := gpio, period_ms := pd_ms, remaining_ms := dr_ms, level := false,
      stop_level := sl, priority := prio, tmr_blinker := none }
  if st.mgr.deleting = false then
    match add_nblk_to_list_s st nblk with
    | .error f => .error f
    | .ok st1 => .ok (true, st1)
  else .ok (true, st)

/-- `nblk_sync_start` (nblink.c:327). -/
def nblk_sync_start (portTICK_PERIOD_MS : Nat) (st : sync_state) (gpio : Int) (pd_ms dr_ms : Nat)
    (sl : Bool) (prio : Nat) : Except Fault (Bool × sync_state) :=
  if st.mgr.smpr_list_modify = false then .ok (false, st)
  else if st.mgr.deleting = true then .ok (false, st)
  else
    match sync_normalize_dr pd_ms dr_ms with
    | .error f => .error f
    | .ok dr =>
      if pd_ms < NBLK_MINIMUM_PERIOD portTICK_PERIOD_MS then .ok (false, st)
      else if st.mgr.sync_tbase_ms = 0 then .error .div_by_zero
      else if pd_ms % st.mgr.sync_tbase_ms ≠ 0 then .ok (false, st)
      else if st.mgr.smpr_list_modify = false then .ok (false, st)
      else
        let idx := get_nblk_idx_in_list_s st.mgr gpio
        if idx ≠ UINT8_MAX then
          match st.mgr.nblk_list[idx]? with
          | none => .error .out_of_bounds
          | some e =>
            if prio > e.priority then
              match del_nblk_from_list_s st gpio with
              | .error f => .error f
              | .ok st1 => nblk_sync_start_insert st1 gpio pd_ms dr sl prio
            else if prio = e.priority ∧ dr > e.remaining_ms then
              match del_nblk_from_list_s st gpio with
              | .error f => .error f
              | .ok st1 => nblk_sync_start_insert st1 gpio pd_ms dr sl prio
            else .ok (false, st)
        else nblk_sync_start_insert st gpio pd_ms dr sl prio

/-- `nblk_is_sync_blinking` (nblink.c:382). -/
def nblk_is_sync_blinking (st : sync_state) (gpio : Int) : Bool :=
  if get_nblk_idx_in_list_s st.mgr gpio ≠ UINT8_MAX then true else false

/-! ## Traces of operations -/

/-- The independent blinker before any call. -/
def nblk_init : nblk_state :=
  { smpr_list_modify := false, nblk_list := [], gpio_writes := [] }

/-- An event on a sync group after its creation: an API call or a tick of the
shared timer. -/
inductive sync_op where
  | start (gpio : Int) (pd_ms dr_ms : Nat) (sl : Bool) (prio : Nat)
  | stop (gpio : Int) (sl : Bool)
  | tick
  deriving DecidableEq, Repr

/-- Run one event.  The shared timer only fires while it exists. -/
def sync_step (portTICK_PERIOD_MS : Nat) (st : sync_state) : sync_op → Except Fault sync_state
  | .start gpio pd_ms dr_ms sl prio =>
    match nblk_sync_start portTICK_PERIOD_MS st gpio pd_ms dr_ms sl prio with
    | .error f => .error f
    | .ok (_, st1) => .ok st1
  | .stop gpio sl =>
    match nblk_sync_stop st gpio sl with
    | .error f => .error f
    | .ok (_, st1) => .ok st1
  | .tick => if st.mgr.tmr_blinker = none then .ok st else nblk_sync_cb st

/-- Run a sequence of events, oldest first. -/
def sync_run (portTICK_PERIOD_MS : Nat) : sync_state → List sync_op → Except Fault sync_state
  | st, [] => .ok st
  | st, op :: ops =>
    match sync_step portTICK_PERIOD_MS st op with
    | .error f => .error f
    | .ok st1 => sync_run portTICK_PERIOD_MS st1 ops

/-- An event on the independent blinker: an API call or a tick of the timer that
belongs to one output. -/
inductive nblk_op where
  | start (gpio : Int) (pd_ms dr_ms : Nat) (sl : Bool) (prio : Nat)
  | stop (gpio : Int) (sl : Bool)
  | tick (gpio : Int)
  deriving DecidableEq, Repr

/-- Run one event.  The timer of an output exists exactly while the output has an
entry, so a tick for an output without entry cannot occur and is skipped. -/
def nblk_step (portTICK_PERIOD_MS : Nat) (s : nblk_state) : nblk_op → Except Fault nblk_state
  | .start gpio pd_ms dr_ms sl prio =>
    match nblk_start portTICK_PERIOD_MS s gpio pd_ms dr_ms sl prio with
    | .error f => .error f
    | .ok (_, s1) => .ok s1
  | .stop gpio sl =>
    match nblk_stop s gpio sl with
    | .error f => .error f
    | .ok (_, s1) => .ok s1
  | .tick gpio => if nblk_is_blinking s gpio = true then nblk_cb s gpio else .ok s

/-- Run a sequence of events, oldest first. -/
def nblk_run (portTICK_PERIOD_MS : Nat) : nblk_state → List nblk_op → Except Fault nblk_state
  | s, [] => .ok s
  | s, op :: ops =>
    match nblk_step portTICK_PERIOD_MS s op with
    | .error f => .error f
    | .ok s1 => nblk_run portTICK_PERIOD_MS s1 ops

/-- A zero-initialised manager (a C `static nblk_mgr_t`) and untouched outputs. -/
def sync_zero : sync_state :=
  { mgr := { nblk_list := [], sync_tbase_ms := 0, sync_level := false, smpr_list_modify := false,
             tmr_blinker := none, deleting := false },
    gpio_writes := [] }

/-- The states a group can be in: created on a zero-initialised manager, then
driven by any sequence of events. -/
def sync_reachable (portTICK_PERIOD_MS : Nat) (st : sync_state) : Prop :=
  ∃ (tbase_ms : Nat) (sync_level : Bool) (ops : List sync_op),
    (nblk_sync_create_mgr portTICK_PERIOD_MS sync_zero tbase_ms sync_level).1 = true ∧
    sync_run portTICK_PERIOD_MS
      (nblk_sync_create_mgr portTICK_PERIOD_MS sync_zero tbase_ms sync_level).2 ops = .ok st

/-- The states the independent blinker can be in. -/
def nblk_reachable (portTICK_PERIOD_MS : Nat) (s : nblk_state) : Prop :=
  ∃ ops : List nblk_op, nblk_run portTICK_PERIOD_MS nblk_init ops = .ok s

/-! ## Well-formed registries -/

/-- The registry invariant: one entry per output, a counter that fits `uint8_t`,
and non-zero periods. -/
def reg_inv (l : List nblink_t) : Prop :=
  (l.map (fun e => e.gpio)).Nodup ∧ l.length ≤ 255 ∧ ∀ e ∈ l, 0 < e.period_ms

/-- The first registry entry for an output, if any: the entry the index search
selects. -/
def find_entry (l : List nblink_t) (gpio : Int) : Option nblink_t :=
  l.find? (fun e => decide (e.gpio = gpio))

/-- The entry `sync_entry` yields when the period is non-zero. -/
def sync_entry_val (sync_level : Bool) (e : nblink_t) : nblink_t :=
  { e with
    level := sync_level,
    remaining_ms :=
      if e.remaining_ms % e.period_ms ≠ 0 then
        u32_add (u32_sub e.remaining_ms (e.remaining_ms % e.period_ms)) e.period_ms
      else u32_sub e.remaining_ms (e.remaining_ms % e.period_ms) }

/-- The rounding both `nblk_sync_start` (nblink.c:333-335) and the synchronize
loop (nblink.c:206-209) perform on a time `r` for a period `p`, in 32-bit
arithmetic: `correction = r % p; r -= correction; if (correction) r += p;`. -/
def round_up32 (r p : Nat) : Nat :=
  if r % p ≠ 0 then u32_add (u32_sub r (r % p)) p else u32_sub r (r % p)

/-! ## Example states (main/app_main.c) -/


/-- `example_blink_params` 15000 ms after its first call
`nblk_start(NBLK_LED1, 2000, 60000, 0, 1)`: fifteen ticks of 1000 ms have run. -/
def example_blink_params_state : nblk_state :=
  { smpr_list_modify := true,
    nblk_list := [{ gpio := 21, period_ms := 2000, remaining_ms := 45000, level := true,
                    stop_level := false, priority := 1, tmr_blinker := some 1000000 }],
    gpio_writes := [(21, true), (21, false), (21, true), (21, false), (21, true), (21, false),
                    (21, true), (21, false), (21, true), (21, false), (21, true), (21, false),
                    (21, true), (21, false), (21, true)] }

/-- `example_with_sync` after `nblk_sync_create_mgr(&mgr, 1000, 1)` and the first
`nblk_sync_start(&mgr, NBLK_LED1, 2000, NBLK_FOREVER, 0, 0)`. -/
def example_with_sync_state : sync_state :=
  { mgr := { nblk_list := [{ gpio := 21, period_ms := 2000, remaining_ms := 4294966000,
                             level := true, stop_level := false, priority := 0,
                             tmr_blinker := none }],
             sync_tbase_ms := 1000, sync_level := true, smpr_list_modify := true,
             tmr_blinker := some 500000, deleting := false },
    gpio_writes := [(21, true)] }

/-- `example_with_sync` after its second call
`nblk_sync_start(&mgr, NBLK_LED2, 2000, NBLK_FOREVER, 0, 0)`, with no tick in
between. -/
def example_with_sync_joined : sync_state :=
  { mgr := { nblk_list := [{ gpio := 21, period_ms := 2000, remaining_ms := 4294966000,
                             level := true, stop_level := false, priority := 0,
                             tmr_blinker := none },
                           { gpio := 22, period_ms := 2000, remaining_ms := 4294966000,
                             level := true, stop_level := false, priority := 0,
                             tmr_blinker := none }],
             sync_tbase_ms := 1000, sync_level := true, smpr_list_modify := true,
             tmr_blinker := some 500000, deleting := false },
    gpio_writes := [(22, true), (21, true), (21, true)] }

/-- A group with timebase 3000 ms in which outputs 1 and 2 were started together
(period 3000 ms, duration 3000 ms) and three ticks have run: the second tick
removed output 1 only, the third one decremented output 2 below zero. -/
def wrapped_group_state : sync_state :=
  { mgr := { nblk_list := [{ gpio := 2, period_ms := 3000, remaining_ms := 4294965796,
                             level := false, stop_level := false, priority := 0,
                             tmr_blinker := none }],
             sync_tbase_ms := 3000, sync_level := false, smpr_list_modify := true,
             tmr_blinker := some 1500000, deleting := false },
    gpio_writes := [(1, false), (2, false), (1, false), (2, true), (1, true), (2, false),
                    (1, false), (1, false)] }

/-! ## Repeated ticks -/

/-- `n` consecutive ticks of the timer that belongs to one output. -/
def nblk_ticks (gpio : Int) : Nat → nblk_state → Except Fault nblk_state
  | 0, s => .ok s
  | n + 1, s =>
    match nblk_cb s gpio with
    | .error f => .error f
    | .ok s1 => nblk_ticks gpio n s1

/-- `n` consecutive ticks of the shared timer of a group. -/
def sync_ticks : Nat → sync_state → Except Fault sync_state
  | 0, st => .ok st
  | n + 1, st =>
    match nblk_sync_cb st with
    | .error f => .error f
    | .ok st1 => sync_ticks n st1

/-- The writes of `n` successive toggles of an output whose entry starts at
level 0, newest first: 1, 0, 1, ... in time order. -/
def toggle_writes (gpio : Int) : Nat → List (Int × Bool)
  | 0 => []
  | n + 1 => (gpio, decide (n % 2 = 0)) :: toggle_writes gpio n

/-- The output an event of the independent blinker addresses. -/
def nblk_op_gpio : nblk_op → Int
  | .start gpio _ _ _ _ => gpio
  | .stop gpio _ => gpio
  | .tick gpio => gpio

/-- The arguments of an event fit their C types (`uint32_t` period and duration,
`uint8_t` priority). -/
def nblk_op_wf : nblk_op → Prop
  | .start _ pd_ms dr_ms _ prio => pd_ms ≤ UINT32_MAX ∧ dr_ms ≤ UINT32_MAX ∧ prio ≤ UINT8_MAX
  | .stop _ _ => True
  | .tick _ => True

/-- The entry `nblk_cb` leaves when it toggles `e` (nblink.c:66-69). -/
def nblk_cb_entry (e : nblink_t) : nblink_t :=
  { e with
    remaining_ms := if e.remaining_ms ≠ NBLK_FOREVER
      then u32_sub e.remaining_ms (e.period_ms / 2) else e.remaining_ms,
    level := if e.level then false else true }

/-- The entry the first loop of `nblk_sync_cb` leaves for `e` (nblink.c:243-248). -/
def sync_cb_entry (sync_tbase_ms : Nat) (e : nblink_t) : nblink_t :=
  { e with
    remaining_ms := if e.remaining_ms ≠ NBLK_FOREVER
      then u32_sub e.remaining_ms (sync_tbase_ms / 2) else e.remaining_ms,
    level :=
      if (if e.remaining_ms ≠ NBLK_FOREVER
          then u32_sub e.remaining_ms (sync_tbase_ms / 2) else e.remaining_ms)
          % (e.period_ms / 2) = 0
      then (if e.level then false else true) else e.level }

/-- The output of an entry is at the entry's `level`: the last value written
with `gpio_set_level` to its GPIO equals the `level` field. -/
def level_ok (w : List (Int × Bool)) (e : nblink_t) : Prop :=
  gpio_get_level w e.gpio = some e.level

/-- The invariant of a sync group: a well-formed registry whose entries all have
their output at their `level`. -/
def sync_inv (st : sync_state) : Prop :=
  reg_inv st.mgr.nblk_list ∧ ∀ e ∈ st.mgr.nblk_list, level_ok st.gpio_writes e

/-- How one event, run in state `s`, changes whether the entry of an output still
waits for its first tick: an accepted `nblk_start` on the output sets the flag, a
tick of its timer clears it, every other event (a rejected start included)
leaves it. -/
def fresh_step (tick : Nat) (s : nblk_state) (gpio : Int) (b : Bool) : nblk_op → Bool
  | .start g pd_ms dr_ms sl prio =>
    if g = gpio then
      match nblk_start tick s g pd_ms dr_ms sl prio with
      | .ok (true, _) => true
      | _ => b
    else b
  | .stop _ _ => b
  | .tick g => if g = gpio then false else b

/-- The flag of `fresh_step` after a sequence of events (oldest first) run from
state `s`. -/
def fresh_run (tick : Nat) (gpio : Int) : nblk_state → Bool → List nblk_op → Bool
  | _, b, [] => b
  | s, b, op :: ops =>
    match nblk_step tick s op with
    | .error _ => b
    | .ok s1 => fresh_run tick gpio s1 (fresh_step tick s gpio b op) ops

/-- After a sequence of events from the idle state, the last accepted
`nblk_start` on the output has not been followed by a tick of its timer. -/
def awaits_first_tick (tick : Nat) (ops : List nblk_op) (gpio : Int) : Bool :=
  fresh_run tick gpio nblk_init false ops

/-- The entry `n` group ticks leave for `e`, as long as it stays a member. -/
def sync_cb_entries (sync_tbase_ms : Nat) : Nat → nblink_t → nblink_t
  | 0, e => e
  | n + 1, e => sync_cb_entries sync_tbase_ms n (sync_cb_entry sync_tbase_ms e)

/-! ## A full registry -/

/-- The entry `nblk_start(i, 2000, NBLK_FOREVER, 0, 0)` creates. -/
def fill_entry (i : Nat) : nblink_t :=
  { gpio := Int.ofNat i, period_ms := 2000, remaining_ms := NBLK_FOREVER, level := false,
    stop_level := false, priority := 0, tmr_blinker := some 1000000 }

/-- The calls `nblk_start(i, 2000, NBLK_FOREVER, 0, 0)` for the `n` outputs
`i = start, ..., start + n - 1`. -/
def fill_ops (start n : Nat) : List nblk_op :=
  (List.range' start n).map (fun i => nblk_op.start (Int.ofNat i) 2000 NBLK_FOREVER false 0)

/-- The independent blinker with `n` entries, on the outputs `0, ..., n - 1`,
none of them ticked yet. -/
def fill_state (n : Nat) : nblk_state :=
  { smpr_list_modify := true, nblk_list := (List.range' 0 n).map fill_entry, gpio_writes := [] }

/-- The calls `nblk_sync_start(&mgr, i, 2000, NBLK_FOREVER, 0, 0)` for the `n`
outputs `i = start, ..., start + n - 1`. -/
def fill_sync_ops (start n : Nat) : List sync_op :=
  (List.range' start n).map (fun i => sync_op.start (Int.ofNat i) 2000 NBLK_FOREVER false 0)

/-- A group with timebase 1000 ms and sync level 1 right after
`nblk_sync_start(&mgr, 21, 2000, 6000, 0, 0)`. -/
def finite_member_state : sync_state :=
  { mgr := { nblk_list := [{ gpio := 21, period_ms := 2000, remaining_ms := 6000,
                             level := true, stop_level := false, priority := 0,
                             tmr_blinker := none }],
             sync_tbase_ms := 1000, sync_level := true, smpr_list_modify := true,
             tmr_blinker := some 500000, deleting := false },
    gpio_writes := [(21, true)] }

/-! ## The normalised duration in exact arithmetic -/

/-- The duration a group start is specified to work with, in exact arithmetic:
`NBLK_FOREVER` becomes one period short of `NBLK_FOREVER`, then the value is
rounded up to the next whole multiple of the period. -/
def normalised_duration (pd_ms dr_ms : Nat) : Nat :=
  ((if dr_ms = NBLK_FOREVER then NBLK_FOREVER - pd_ms else dr_ms) + pd_ms - 1) / pd_ms * pd_ms

/-! ## One output among interleaved events -/

/-- The event is an API call (`nblk_start` or `nblk_stop`) on the given output. -/
def nblk_op_touches (gpio : Int) : nblk_op → Bool
  | .start g _ _ _ _ => decide (g = gpio)
  | .stop g _ => decide (g = gpio)
  | .tick _ => false

/-- The number of ticks of the timer of an output in a sequence of events. -/
def tick_count (gpio : Int) : List nblk_op → Nat
  | [] => 0
  | .tick g :: ops => (if g = gpio then 1 else 0) + tick_count gpio ops
  | _ :: ops => tick_count gpio ops

/-- The number of `nblk_start` calls in a sequence of events. -/
def start_count : List nblk_op → Nat
  | [] => 0
  | .start _ _ _ _ _ :: ops => 1 + start_count ops
  | _ :: ops => start_count ops

/-- The writes to one output in a log of `gpio_set_level` calls, newest first. -/
def writes_of (w : List (Int × Bool)) (gpio : Int) : List (Int × Bool) :=
  w.filter (fun p => decide (p.1 = gpio))

/-- What one tick of the timer of an output does to the entry of that output and
to the writes to that output (`nblk_cb`, nblink.c:65-76): toggle, or remove at
the stop level.  Without an entry there is no timer and nothing happens. -/
def own_tick (gpio : Int) :
    Option nblink_t × List (Int × Bool) → Option nblink_t × List (Int × Bool)
  | (none, w) => (none, w)
  | (some e, w) =>
    if e.period_ms / 2 < e.remaining_ms then
      (some (nblk_cb_entry e), (gpio, if e.level then false else true) :: w)
    else (none, (gpio, e.stop_level) :: w)

/-- `n` ticks of the timer of an output, seen from its entry and its writes. -/
def own_ticks (gpio : Int) :
    Nat → Option nblink_t × List (Int × Bool) → Option nblink_t × List (Int × Bool)
  | 0, v => v
  | n + 1, v => own_ticks gpio n (own_tick gpio v)

/-! ## The example states are reached -/

theorem example_blink_params_reached :
    nblk_run 1 nblk_init
      [.start 21 2000 60000 false 1, .tick 21, .tick 21, .tick 21, .tick 21, .tick 21, .tick 21,
       .tick 21, .tick 21, .tick 21, .tick 21, .tick 21, .tick 21, .tick 21, .tick 21, .tick 21] =
      .ok example_blink_params_state := rfl

theorem example_with_sync_reached :
    sync_run 1 (nblk_sync_create_mgr 1 sync_zero 1000 true).2
      [.start 21 2000 NBLK_FOREVER false 0] = .ok example_with_sync_state := rfl

/-! ## Registry lemmas -/

theorem idx_from_absent (gpio : Int) (l : List nblink_t) (i : Nat)
    (h : ∀ e ∈ l, e.gpio ≠ gpio) : get_nblk_idx_from gpio l i = UINT8_MAX := by
  induction l generalizing i with
  | nil => rfl
  | cons x rest ih =>
    have hx : x.gpio ≠ gpio := h x (List.mem_cons_self _ _)
    simp only [get_nblk_idx_from, hx, if_false]
    exact ih (i + 1) (fun e he => h e (List.mem_cons_of_mem _ he))

theorem idx_from_split (gpio : Int) (pre : List nblink_t) (e : nblink_t) (post : List nblink_t)
    (i : Nat) (hpre : ∀ x ∈ pre, x.gpio ≠ gpio) (he : e.gpio = gpio) :
    get_nblk_idx_from gpio (pre ++ e :: post) i = (i + pre.length) % 256 := by
  induction pre generalizing i with
  | nil => simp [get_nblk_idx_from, he]
  | cons x rest ih =>
    have hx : x.gpio ≠ gpio := hpre x (List.mem_cons_self _ _)
    have h1 := ih (i + 1) (fun y hy => hpre y (List.mem_cons_of_mem _ hy))
    show get_nblk_idx_from gpio (x :: (rest ++ e :: post)) i = _
    simp only [get_nblk_idx_from, hx, if_false, List.length_cons]
    rw [h1]
    congr 1
    omega

/-- Every registry either has no entry for an output or splits at the first one. -/
theorem registry_split (gpio : Int) (l : List nblink_t) :
    (∀ e ∈ l, e.gpio ≠ gpio) ∨
    ∃ pre e post, l = pre ++ e :: post ∧ (∀ x ∈ pre, x.gpio ≠ gpio) ∧ e.gpio = gpio := by
  induction l with
  | nil => left; intro e he; cases he
  | cons x rest ih =>
    by_cases hx : x.gpio = gpio
    · right
      refine ⟨[], x, rest, rfl, ?_, hx⟩
      intro y hy
      cases hy
    · rcases ih with h | ⟨pre, e, post, hl, hpre, he⟩
      · left
        intro e he
        rcases List.mem_cons.mp he with h1 | h1
        · rw [h1]; exact hx
        · exact h e h1
      · right
        refine ⟨x :: pre, e, post, by rw [hl]; rfl, ?_, he⟩
        intro y hy
        rcases List.mem_cons.mp hy with h1 | h1
        · rw [h1]; exact hx
        · exact hpre y h1

theorem idx_absent (gpio : Int) (l : List nblink_t) (h : ∀ e ∈ l, e.gpio ≠ gpio) :
    get_nblk_idx_in_list l gpio = UINT8_MAX :=
  idx_from_absent gpio l 0 h

theorem idx_split (gpio : Int) (pre : List nblink_t) (e : nblink_t) (post : List nblink_t)
    (hpre : ∀ x ∈ pre, x.gpio ≠ gpio) (he : e.gpio = gpio)
    (hlen : (pre ++ e :: post).length ≤ 255) :
    get_nblk_idx_in_list (pre ++ e :: post) gpio = pre.length := by
  unfold get_nblk_idx_in_list
  rw [idx_from_split gpio pre e post 0 hpre he]
  simp only [List.length_append, List.length_cons] at hlen
  omega

theorem split_get (pre : List nblink_t) (e : nblink_t) (post : List nblink_t) :
    (pre ++ e :: post)[pre.length]? = some e := by
  induction pre with
  | nil => simp
  | cons x rest ih => simpa using ih

theorem split_erase (pre : List nblink_t) (e : nblink_t) (post : List nblink_t) :
    (pre ++ e :: post).eraseIdx pre.length = pre ++ post := by
  rw [List.eraseIdx_append_of_length_le (Nat.le_refl _)]
  simp

theorem split_set (pre : List nblink_t) (e e1 : nblink_t) (post : List nblink_t) :
    (pre ++ e :: post).set pre.length e1 = pre ++ e1 :: post := by
  induction pre with
  | nil => rfl
  | cons x rest ih => simp [ih]

theorem find_entry_absent (gpio : Int) (l : List nblink_t) (h : ∀ e ∈ l, e.gpio ≠ gpio) :
    find_entry l gpio = none := by
  unfold find_entry
  rw [List.find?_eq_none]
  intro x hx
  simpa using h x hx

theorem find_entry_split (gpio : Int) (pre : List nblink_t) (e : nblink_t) (post : List nblink_t)
    (hpre : ∀ x ∈ pre, x.gpio ≠ gpio) (he : e.gpio = gpio) :
    find_entry (pre ++ e :: post) gpio = some e := by
  unfold find_entry
  induction pre with
  | nil => simp [he]
  | cons x rest ih =>
    have hx : x.gpio ≠ gpio := hpre x (List.mem_cons_self _ _)
    simp only [List.cons_append, List.find?_cons, hx, decide_False]
    exact ih (fun y hy => hpre y (List.mem_cons_of_mem _ hy))

theorem get_level_set (w : List (Int × Bool)) (gpio : Int) (v : Bool) :
    gpio_get_level (gpio_set_level w gpio v) gpio = some v := by
  simp [gpio_set_level, gpio_get_level]

theorem del_absent (s : nblk_state) (gpio : Int) (h : ∀ e ∈ s.nblk_list, e.gpio ≠ gpio) :
    del_nblk_from_list s gpio = .ok s := by
  simp [del_nblk_from_list, idx_absent gpio s.nblk_list h]

theorem del_split (s : nblk_state) (gpio : Int) (pre : List nblink_t) (e : nblink_t)
    (post : List nblink_t) (hl : s.nblk_list = pre ++ e :: post)
    (hpre : ∀ x ∈ pre, x.gpio ≠ gpio) (he : e.gpio = gpio) (hlen : s.nblk_list.length ≤ 255) :
    del_nblk_from_list s gpio =
      .ok { s with gpio_writes := gpio_set_level s.gpio_writes gpio e.stop_level,
                   nblk_list := pre ++ post } := by
  have hidx : get_nblk_idx_in_list s.nblk_list gpio = pre.length := by
    rw [hl]; exact idx_split gpio pre e post hpre he (hl ▸ hlen)
  have hlt : pre.length ≠ UINT8_MAX := by
    rw [hl] at hlen
    simp only [List.length_append, List.length_cons] at hlen
    unfold UINT8_MAX
    omega
  unfold del_nblk_from_list
  simp only [hidx, hlt, ne_eq, not_false_eq_true, if_true]
  rw [hl, split_get, split_erase]

theorem insert_absent (s : nblk_state) (gpio : Int) (pd_ms dr_ms : Nat) (sl : Bool) (prio : Nat)
    (h : ∀ e ∈ s.nblk_list, e.gpio ≠ gpio) (hlen : s.nblk_list.length < 255) :
    nblk_start_insert s gpio pd_ms dr_ms sl prio =
      .ok (true, { s with nblk_list := s.nblk_list ++
        [{ gpio := gpio, period_ms := pd_ms, remaining_ms := dr_ms, level := false,
           stop_level := sl, priority := prio, tmr_blinker := some ((pd_ms / 2) * 1000) }] }) := by
  have hmod : ¬ (s.nblk_list.length + 1) % 256 = 0 := by omega
  have hidx := idx_split gpio s.nblk_list
    { gpio := gpio, period_ms := pd_ms, remaining_ms := dr_ms, level := false,
      stop_level := sl, priority := prio, tmr_blinker := none } [] h rfl
    (by simp only [List.length_append, List.length_cons, List.length_nil]; omega)
  unfold nblk_start_insert add_nblk_to_list
  simp only [idx_absent gpio s.nblk_list h, if_true, hmod, if_false, hidx, split_get, split_set]

theorem insert_present (s : nblk_state) (gpio : Int) (pd_ms dr_ms : Nat) (sl : Bool) (prio : Nat)
    (pre : List nblink_t) (e : nblink_t) (post : List nblink_t)
    (hl : s.nblk_list = pre ++ e :: post)
    (hpre : ∀ x ∈ pre, x.gpio ≠ gpio) (he : e.gpio = gpio) (hlen : s.nblk_list.length ≤ 255) :
    nblk_start_insert s gpio pd_ms dr_ms sl prio =
      .ok (true, { s with nblk_list :=
        pre ++ { e with tmr_blinker := some ((pd_ms / 2) * 1000) } :: post }) := by
  have hidx : get_nblk_idx_in_list s.nblk_list gpio = pre.length := by
    rw [hl]; exact idx_split gpio pre e post hpre he (hl ▸ hlen)
  have hlt : pre.length ≠ UINT8_MAX := by
    rw [hl] at hlen
    simp only [List.length_append, List.length_cons] at hlen
    unfold UINT8_MAX
    omega
  unfold nblk_start_insert add_nblk_to_list
  simp only [hidx, hlt, if_false]
  rw [hl, split_get]
  simp only [split_set]

theorem insert_ok (s : nblk_state) (gpio : Int) (pd_ms dr_ms : Nat) (sl : Bool) (prio : Nat)
    (hlen : s.nblk_list.length < 255) :
    ∃ s1, nblk_start_insert s gpio pd_ms dr_ms sl prio = .ok (true, s1) := by
  rcases registry_split gpio s.nblk_list with h | ⟨pre, e, post, hl, hpre, he⟩
  · exact ⟨_, insert_absent s gpio pd_ms dr_ms sl prio h hlen⟩
  · exact ⟨_, insert_present s gpio pd_ms dr_ms sl prio pre e post hl hpre he (Nat.le_of_lt hlen)⟩

/-- C1 (as the code behaves): on a registry with fewer than 255 entries, or with
exactly 255 entries when the call adds none (the output already has an entry, or
the period or duration is invalid), `nblk_start` returns, and it returns true
exactly when the period is at least `NBLK_MINIMUM_PERIOD`, the duration is a
whole multiple of the period or `NBLK_FOREVER`, and the output has no entry, or
the new priority is higher than the entry's, or equal with a duration above the
entry's remaining time.  (`NBLK_MINIMUM_PERIOD` is non-zero: `portTICK_PERIOD_MS`
is at least 1.) -/
theorem nblk_start_accept_iff (tick : Nat) (s : nblk_state) (gpio : Int) (pd_ms dr_ms : Nat)
    (sl : Bool) (prio : Nat) (hmin : 0 < NBLK_MINIMUM_PERIOD tick)
    (hroom : s.nblk_list.length < 255 ∨
      (s.nblk_list.length = 255 ∧
        (find_entry s.nblk_list gpio ≠ none ∨ pd_ms < NBLK_MINIMUM_PERIOD tick ∨
          (dr_ms % pd_ms ≠ 0 ∧ dr_ms ≠ NBLK_FOREVER)))) :
    ∃ r s1, nblk_start tick s gpio pd_ms dr_ms sl prio = .ok (r, s1) ∧
      (r = true ↔
        (NBLK_MINIMUM_PERIOD tick ≤ pd_ms ∧ (dr_ms % pd_ms = 0 ∨ dr_ms = NBLK_FOREVER) ∧
          (find_entry s.nblk_list gpio = none ∨
            ∃ e, find_entry s.nblk_list gpio = some e ∧
              (e.priority < prio ∨ (prio = e.priority ∧ e.remaining_ms < dr_ms))))) := by
  have hlen : s.nblk_list.length ≤ 255 := by
    rcases hroom with h | ⟨h, _⟩ <;> omega
  unfold nblk_start
  by_cases h1 : pd_ms < NBLK_MINIMUM_PERIOD tick
  · refine ⟨false, s, by simp [h1], ?_⟩
    constructor
    · intro h; cases h
    · rintro ⟨h, _⟩; omega
  · have hpd : pd_ms ≠ 0 := by omega
    simp only [h1, if_false, hpd]
    by_cases h2 : dr_ms % pd_ms ≠ 0 ∧ dr_ms ≠ NBLK_FOREVER
    · refine ⟨false, s, by rw [if_pos h2], ?_⟩
      constructor
      · intro h; cases h
      · rintro ⟨_, h, _⟩
        rcases h with h | h
        · exact absurd h h2.1
        · exact absurd h h2.2
    · have h2' : dr_ms % pd_ms = 0 ∨ dr_ms = NBLK_FOREVER := by
        by_cases h3 : dr_ms % pd_ms = 0
        · exact Or.inl h3
        · by_cases h4 : dr_ms = NBLK_FOREVER
          · exact Or.inr h4
          · exact absurd ⟨h3, h4⟩ h2
      rw [if_neg h2]
      rcases registry_split gpio s.nblk_list with h | ⟨pre, e, post, hl, hpre, he⟩
      · have hlt : s.nblk_list.length < 255 := by
          rcases hroom with h3 | ⟨_, h3 | h3 | h3⟩
          · exact h3
          · exact absurd (find_entry_absent gpio s.nblk_list h) h3
          · exact absurd h3 h1
          · exact absurd h3 h2
        obtain ⟨s1, hs1⟩ := insert_ok { s with smpr_list_modify := true } gpio pd_ms dr_ms sl prio hlt
        refine ⟨true, s1, ?_, ?_⟩
        · simp only [idx_absent gpio s.nblk_list h, ne_eq, not_true_eq_false, if_false]
          exact hs1
        · simp only [true_iff]
          exact ⟨by omega, h2', Or.inl (find_entry_absent gpio s.nblk_list h)⟩
      · have hidx : get_nblk_idx_in_list s.nblk_list gpio = pre.length := by
          rw [hl]; exact idx_split gpio pre e post hpre he (hl ▸ hlen)
        have hlt : pre.length ≠ UINT8_MAX := by
          rw [hl] at hlen
          simp only [List.length_append, List.length_cons] at hlen
          unfold UINT8_MAX
          omega
        have hget : s.nblk_list[pre.length]? = some e := by rw [hl]; exact split_get pre e post
        have hfind : find_entry s.nblk_list gpio = some e := by
          rw [hl]; exact find_entry_split gpio pre e post hpre he
        have hdel := del_split { s with smpr_list_modify := true } gpio pre e post hl hpre he hlen
        have hlen2 : (pre ++ post).length < 255 := by
          rw [hl] at hlen
          simp only [List.length_append, List.length_cons] at hlen
          simp only [List.length_append]
          omega
        simp only [hidx, hlt, ne_eq, not_false_eq_true, if_true, hget, hdel]
        by_cases h5 : prio > e.priority
        · obtain ⟨s1, hs1⟩ := insert_ok
            { s with smpr_list_modify := true,
                     gpio_writes := gpio_set_level s.gpio_writes gpio e.stop_level,
                     nblk_list := pre ++ post } gpio pd_ms dr_ms sl prio hlen2
          refine ⟨true, s1, ?_, ?_⟩
          · rw [if_pos h5]; exact hs1
          · simp only [true_iff]
            exact ⟨by omega, h2', Or.inr ⟨e, hfind, Or.inl h5⟩⟩
        · by_cases h6 : prio = e.priority ∧ dr_ms > e.remaining_ms
          · obtain ⟨s1, hs1⟩ := insert_ok
              { s with smpr_list_modify := true,
                       gpio_writes := gpio_set_level s.gpio_writes gpio e.stop_level,
                       nblk_list := pre ++ post } gpio pd_ms dr_ms sl prio hlen2
            refine ⟨true, s1, ?_, ?_⟩
            · rw [if_neg h5, if_pos h6]; exact hs1
            · simp only [true_iff]
              exact ⟨by omega, h2', Or.inr ⟨e, hfind, Or.inr h6⟩⟩
          · refine ⟨false, { s with smpr_list_modify := true }, ?_, ?_⟩
            · rw [if_neg h5, if_neg h6]
            · constructor
              · intro h; cases h
              · rintro ⟨_, _, h⟩
                rcases h with h | ⟨e1, hf, h⟩
                · rw [hfind] at h; cases h
                · rw [hfind] at hf
                  cases hf
                  rcases h with h | h
                  · exact absurd h h5
                  · exact absurd h h6

theorem nblk_start_accept_iff_witness :
    (0 < NBLK_MINIMUM_PERIOD 1 ∧
      (example_blink_params_state.nblk_list.length < 255 ∨
        (example_blink_params_state.nblk_list.length = 255 ∧
          (find_entry example_blink_params_state.nblk_list 21 ≠ none ∨
            500 < NBLK_MINIMUM_PERIOD 1 ∨ (30000 % 500 ≠ 0 ∧ 30000 ≠ NBLK_FOREVER))))) ∧
    ∃ r s1, nblk_start 1 example_blink_params_state 21 500 30000 true 2 = .ok (r, s1) ∧
      (r = true ↔
        (NBLK_MINIMUM_PERIOD 1 ≤ 500 ∧ (30000 % 500 = 0 ∨ 30000 = NBLK_FOREVER) ∧
          (find_entry example_blink_params_state.nblk_list 21 = none ∨
            ∃ e, find_entry example_blink_params_state.nblk_list 21 = some e ∧
              (e.priority < 2 ∨ (2 = e.priority ∧ e.remaining_ms < 30000))))) :=
  ⟨⟨by decide, Or.inl (by decide)⟩,
   nblk_start_accept_iff 1 example_blink_params_state 21 500 30000 true 2 (by decide)
     (Or.inl (by decide))⟩

/-! ## Sync-group lemmas -/

theorem sync_entry_eq (lvl : Bool) (e : nblink_t) (h : 0 < e.period_ms) :
    sync_entry lvl e = .ok (sync_entry_val lvl e) := by
  have h0 : e.period_ms ≠ 0 := by omega
  unfold sync_entry sync_entry_val
  rw [if_neg h0]

theorem synchronize_eq (lvl : Bool) (l : List nblink_t) (w : List (Int × Bool))
    (h : ∀ e ∈ l, 0 < e.period_ms) :
    synchronize lvl l w =
      .ok (l.map (sync_entry_val lvl), (l.map (fun e => (e.gpio, lvl))).reverse ++ w) := by
  induction l generalizing w with
  | nil => rfl
  | cons x rest ih =>
    have hx := sync_entry_eq lvl x (h x (List.mem_cons_self _ _))
    have hr := ih (gpio_set_level w x.gpio lvl) (fun e he => h e (List.mem_cons_of_mem _ he))
    unfold gpio_set_level at hr
    simp only [synchronize, hx, gpio_set_level, hr, List.map_cons, List.reverse_cons,
      List.append_assoc, List.singleton_append]

theorem del_s_absent (st : sync_state) (gpio : Int)
    (h : ∀ e ∈ st.mgr.nblk_list, e.gpio ≠ gpio) : del_nblk_from_list_s st gpio = .ok st := by
  have hidx : get_nblk_idx_in_list_s st.mgr gpio = UINT8_MAX := idx_absent gpio _ h
  simp [del_nblk_from_list_s, hidx]

theorem idx_s_split (st : sync_state) (gpio : Int) (pre : List nblink_t) (e : nblink_t)
    (post : List nblink_t) (hl : st.mgr.nblk_list = pre ++ e :: post)
    (hpre : ∀ x ∈ pre, x.gpio ≠ gpio) (he : e.gpio = gpio)
    (hlen : st.mgr.nblk_list.length ≤ 255) :
    get_nblk_idx_in_list_s st.mgr gpio = pre.length ∧ pre.length ≠ UINT8_MAX ∧
      st.mgr.nblk_list[pre.length]? = some e := by
  refine ⟨?_, ?_, ?_⟩
  · show get_nblk_idx_in_list st.mgr.nblk_list gpio = pre.length
    rw [hl]; exact idx_split gpio pre e post hpre he (hl ▸ hlen)
  · rw [hl] at hlen
    simp only [List.length_append, List.length_cons] at hlen
    unfold UINT8_MAX
    omega
  · rw [hl]; exact split_get pre e post

theorem del_s_split (st : sync_state) (gpio : Int) (pre : List nblink_t) (e : nblink_t)
    (post : List nblink_t) (hl : st.mgr.nblk_list = pre ++ e :: post)
    (hpre : ∀ x ∈ pre, x.gpio ≠ gpio) (he : e.gpio = gpio)
    (hlen : st.mgr.nblk_list.length ≤ 255) :
    del_nblk_from_list_s st gpio =
      .ok { mgr := { st.mgr with nblk_list := pre ++ post },
            gpio_writes := gpio_set_level st.gpio_writes gpio e.stop_level } := by
  obtain ⟨hidx, hlt, hget⟩ := idx_s_split st gpio pre e post hl hpre he hlen
  unfold del_nblk_from_list_s
  simp only [hidx, hlt, ne_eq, not_false_eq_true, if_true, hget]
  rw [hl, split_erase]

theorem add_s_absent (st : sync_state) (nblk : nblink_t)
    (h : ∀ e ∈ st.mgr.nblk_list, e.gpio ≠ nblk.gpio) (hlen : st.mgr.nblk_list.length < 255)
    (hp : ∀ e ∈ st.mgr.nblk_list, 0 < e.period_ms) (hn : 0 < nblk.period_ms) :
    add_nblk_to_list_s st nblk =
      .ok { mgr := { st.mgr with
              nblk_list := (st.mgr.nblk_list ++ [nblk]).map (sync_entry_val st.mgr.sync_level) },
            gpio_writes :=
              ((st.mgr.nblk_list ++ [nblk]).map (fun e => (e.gpio, st.mgr.sync_level))).reverse
                ++ st.gpio_writes } := by
  have hidx : get_nblk_idx_in_list_s st.mgr nblk.gpio = UINT8_MAX := idx_absent _ _ h
  have hmod : ¬ (st.mgr.nblk_list.length + 1) % 256 = 0 := by omega
  have hall : ∀ e ∈ st.mgr.nblk_list ++ [nblk], 0 < e.period_ms := by
    intro e he
    rcases List.mem_append.mp he with h1 | h1
    · exact hp e h1
    · rw [List.mem_singleton.mp h1]; exact hn
  unfold add_nblk_to_list_s
  rw [if_pos hidx, if_neg hmod, synchronize_eq _ _ _ hall]

theorem add_s_present (st : sync_state) (nblk : nblink_t) (x : nblink_t)
    (hx : x ∈ st.mgr.nblk_list) (hg : x.gpio = nblk.gpio)
    (hlen : st.mgr.nblk_list.length ≤ 255) :
    add_nblk_to_list_s st nblk = .ok st := by
  rcases registry_split nblk.gpio st.mgr.nblk_list with h | ⟨pre, e, post, hl, hpre, he⟩
  · exact absurd hg (h x hx)
  · obtain ⟨hidx, hlt, _⟩ := idx_s_split st nblk.gpio pre e post hl hpre he hlen
    unfold add_nblk_to_list_s
    rw [hidx, if_neg hlt]

theorem sync_insert_ok (st : sync_state) (gpio : Int) (pd_ms dr_ms : Nat) (sl : Bool)
    (prio : Nat) (hlen : st.mgr.nblk_list.length < 255)
    (hp : ∀ e ∈ st.mgr.nblk_list, 0 < e.period_ms) (hn : 0 < pd_ms) :
    ∃ st1, nblk_sync_start_insert st gpio pd_ms dr_ms sl prio = .ok (true, st1) := by
  unfold nblk_sync_start_insert
  by_cases hd : st.mgr.deleting = false
  · rw [if_pos hd]
    by_cases h : ∀ e ∈ st.mgr.nblk_list, e.gpio ≠ gpio
    · rw [add_s_absent st _ h hlen hp hn]
      exact ⟨_, rfl⟩
    · push_neg at h
      obtain ⟨x, hx, hg⟩ := h
      rw [add_s_present st _ x hx hg (Nat.le_of_lt hlen)]
      exact ⟨_, rfl⟩
  · rw [if_neg hd]
    exact ⟨_, rfl⟩

theorem normalize_ok (pd_ms dr_ms : Nat) (h : 0 < pd_ms) :
    ∃ d, sync_normalize_dr pd_ms dr_ms = .ok d := by
  have h0 : pd_ms ≠ 0 := by omega
  unfold sync_normalize_dr
  simp only [if_neg h0]
  exact ⟨_, rfl⟩

/-- The accept/reject decision of `nblk_sync_start` once the duration has been
normalised to `d`. -/
theorem sync_start_decision (tick : Nat) (st : sync_state) (gpio : Int) (pd_ms dr_ms d : Nat)
    (sl : Bool) (prio : Nat) (hpd : 0 < pd_ms)
    (hd : sync_normalize_dr pd_ms dr_ms = .ok d)
    (hcreated : st.mgr.smpr_list_modify = true) (hlive : st.mgr.deleting = false)
    (htb : 0 < st.mgr.sync_tbase_ms)
    (hinv : reg_inv st.mgr.nblk_list)
    (hroom : st.mgr.nblk_list.length < 255 ∨ find_entry st.mgr.nblk_list gpio ≠ none ∨
      pd_ms < NBLK_MINIMUM_PERIOD tick ∨ pd_ms % st.mgr.sync_tbase_ms ≠ 0) :
    ∃ r st1, nblk_sync_start tick st gpio pd_ms dr_ms sl prio = .ok (r, st1) ∧
      (r = true ↔
        (NBLK_MINIMUM_PERIOD tick ≤ pd_ms ∧ pd_ms % st.mgr.sync_tbase_ms = 0 ∧
          (find_entry st.mgr.nblk_list gpio = none ∨
            ∃ e, find_entry st.mgr.nblk_list gpio = some e ∧
              (e.priority < prio ∨ (prio = e.priority ∧ e.remaining_ms < d))))) := by
  have hs : ¬ st.mgr.smpr_list_modify = false := by rw [hcreated]; decide
  have hl : ¬ st.mgr.deleting = true := by rw [hlive]; decide
  have ht0 : ¬ st.mgr.sync_tbase_ms = 0 := by omega
  obtain ⟨_, hlen, hper⟩ := hinv
  unfold nblk_sync_start
  rw [if_neg hs, if_neg hl, hd]
  simp only []
  by_cases h1 : pd_ms < NBLK_MINIMUM_PERIOD tick
  · refine ⟨false, st, by rw [if_pos h1], ?_⟩
    constructor
    · intro h; cases h
    · rintro ⟨h, _⟩; omega
  · rw [if_neg h1, if_neg ht0]
    by_cases h2 : pd_ms % st.mgr.sync_tbase_ms ≠ 0
    · refine ⟨false, st, by rw [if_pos h2], ?_⟩
      constructor
      · intro h; cases h
      · rintro ⟨_, h, _⟩; exact absurd h h2
    · rw [if_neg h2, if_neg hs]
      have h2' : pd_ms % st.mgr.sync_tbase_ms = 0 := by omega
      rcases registry_split gpio st.mgr.nblk_list with h | ⟨pre, e, post, hsp, hpre, he⟩
      · have hroom1 : st.mgr.nblk_list.length < 255 := by
          rcases hroom with h3 | h3 | h3 | h3
          · exact h3
          · exact absurd (find_entry_absent gpio _ h) h3
          · exact absurd h3 h1
          · exact absurd h3 h2
        obtain ⟨st1, hst1⟩ := sync_insert_ok st gpio pd_ms d sl prio hroom1 hper hpd
        have hidx : get_nblk_idx_in_list_s st.mgr gpio = UINT8_MAX := idx_absent gpio _ h
        refine ⟨true, st1, ?_, ?_⟩
        · simp only [hidx, ne_eq, not_true_eq_false, if_false]
          exact hst1
        · simp only [true_iff]
          exact ⟨by omega, h2', Or.inl (find_entry_absent gpio _ h)⟩
      · obtain ⟨hidx, hlt, hget⟩ := idx_s_split st gpio pre e post hsp hpre he hlen
        have hfind : find_entry st.mgr.nblk_list gpio = some e := by
          rw [hsp]; exact find_entry_split gpio pre e post hpre he
        have hdel := del_s_split st gpio pre e post hsp hpre he hlen
        have hlen2 : (pre ++ post).length < 255 := by
          rw [hsp] at hlen
          simp only [List.length_append, List.length_cons] at hlen
          simp only [List.length_append]
          omega
        have hper2 : ∀ x ∈ pre ++ post, 0 < x.period_ms := by
          intro x hx
          apply hper x
          rw [hsp]
          rcases List.mem_append.mp hx with h3 | h3
          · exact List.mem_append_left _ h3
          · exact List.mem_append_right _ (List.mem_cons_of_mem _ h3)
        obtain ⟨st1, hst1⟩ := sync_insert_ok
          { mgr := { st.mgr with nblk_list := pre ++ post },
            gpio_writes := gpio_set_level st.gpio_writes gpio e.stop_level }
          gpio pd_ms d sl prio hlen2 hper2 hpd
        simp only [hidx, hlt, ne_eq, not_false_eq_true, if_true, hget, hdel]
        by_cases h5 : prio > e.priority
        · refine ⟨true, st1, ?_, ?_⟩
          · rw [if_pos h5]; exact hst1
          · simp only [true_iff]
            exact ⟨by omega, h2', Or.inr ⟨e, hfind, Or.inl h5⟩⟩
        · by_cases h6 : prio = e.priority ∧ d > e.remaining_ms
          · refine ⟨true, st1, ?_, ?_⟩
            · rw [if_neg h5, if_pos h6]; exact hst1
            · simp only [true_iff]
              exact ⟨by omega, h2', Or.inr ⟨e, hfind, Or.inr h6⟩⟩
          · refine ⟨false, st, ?_, ?_⟩
            · rw [if_neg h5, if_neg h6]
            · constructor
              · intro h; cases h
              · rintro ⟨_, _, h⟩
                rcases h with h | ⟨e1, hf, h⟩
                · rw [hfind] at h; cases h
                · rw [hfind] at hf
                  cases hf
                  rcases h with h | h
                  · exact absurd h h5
                  · exact absurd h h6

theorem sync_start_zero_period (tick : Nat) (st : sync_state) (gpio : Int) (dr_ms : Nat)
    (sl : Bool) (prio : Nat)
    (hcreated : st.mgr.smpr_list_modify = true) (hlive : st.mgr.deleting = false) :
    nblk_sync_start tick st gpio 0 dr_ms sl prio = .error .div_by_zero := by
  have hs : ¬ st.mgr.smpr_list_modify = false := by rw [hcreated]; decide
  have hl : ¬ st.mgr.deleting = true := by rw [hlive]; decide
  unfold nblk_sync_start sync_normalize_dr
  rw [if_neg hs, if_neg hl]
  simp

theorem insert_result (s : nblk_state) (gpio : Int) (pd_ms dr_ms : Nat) (sl : Bool) (prio : Nat)
    (r : Bool) (s1 : nblk_state) (h : nblk_start_insert s gpio pd_ms dr_ms sl prio = .ok (r, s1)) :
    r = true := by
  unfold nblk_start_insert at h
  simp only [] at h
  split at h
  · cases h
  · split at h
    · cases h
    · injection h with h1
      exact (congrArg Prod.fst h1).symm

theorem sync_insert_result (st : sync_state) (gpio : Int) (pd_ms dr_ms : Nat) (sl : Bool)
    (prio : Nat) (r : Bool) (st1 : sync_state)
    (h : nblk_sync_start_insert st gpio pd_ms dr_ms sl prio = .ok (r, st1)) : r = true := by
  unfold nblk_sync_start_insert at h
  simp only [] at h
  split at h
  · split at h
    · cases h
    · injection h with h1
      exact (congrArg Prod.fst h1).symm
  · injection h with h1
    exact (congrArg Prod.fst h1).symm

theorem nblk_start_rejected (tick : Nat) (s : nblk_state) (gpio : Int) (pd_ms dr_ms : Nat)
    (sl : Bool) (prio : Nat) (s1 : nblk_state)
    (h : nblk_start tick s gpio pd_ms dr_ms sl prio = .ok (false, s1)) :
    s1.nblk_list = s.nblk_list ∧ s1.gpio_writes = s.gpio_writes ∧
      (s.smpr_list_modify = true → s1 = s) := by
  have hsame : ∀ t : nblk_state, (Except.ok (false, t) : Except Fault (Bool × nblk_state)) =
      .ok (false, s1) → t = s1 := by
    intro t ht
    injection ht with h1
    exact congrArg Prod.snd h1
  have hno : ∀ t : nblk_state,
      nblk_start_insert t gpio pd_ms dr_ms sl prio ≠ .ok (false, s1) := by
    intro t ht
    have := insert_result t gpio pd_ms dr_ms sl prio false s1 ht
    cases this
  unfold nblk_start at h
  simp only [] at h
  repeat' (split at h)
  all_goals first
    | exact absurd h (hno _)
    | (rw [← hsame s h]; exact ⟨rfl, rfl, fun _ => rfl⟩)
    | (rw [← hsame _ h]
       refine ⟨rfl, rfl, ?_⟩
       intro hm
       cases s
       simp only at hm
       rw [hm])
    | cases h

theorem nblk_sync_start_rejected (tick : Nat) (st : sync_state) (gpio : Int) (pd_ms dr_ms : Nat)
    (sl : Bool) (prio : Nat) (st1 : sync_state)
    (h : nblk_sync_start tick st gpio pd_ms dr_ms sl prio = .ok (false, st1)) : st1 = st := by
  have hsame : ∀ t : sync_state, (Except.ok (false, t) : Except Fault (Bool × sync_state)) =
      .ok (false, st1) → t = st1 := by
    intro t ht
    injection ht with h1
    exact congrArg Prod.snd h1
  have hno : ∀ (t : sync_state) (d : Nat),
      nblk_sync_start_insert t gpio pd_ms d sl prio ≠ .ok (false, st1) := by
    intro t d ht
    have := sync_insert_result t gpio pd_ms d sl prio false st1 ht
    cases this
  unfold nblk_sync_start at h
  simp only [] at h
  repeat' (split at h)
  all_goals first
    | exact absurd h (hno _ _)
    | exact (hsame st h).symm
    | cases h

/-- C3: a start that returns false changes nothing.  For `nblk_start` the
registry (every entry, every field) and the log of output writes are what they
were, and once the mutex exists the whole state is; for `nblk_sync_start` the
whole manager and the log of output writes are what they were. -/
theorem rejected_start_changes_nothing (tick : Nat) (s s1 : nblk_state) (st st1 : sync_state)
    (gpio : Int) (pd_ms dr_ms : Nat) (sl : Bool) (prio : Nat) :
    (nblk_start tick s gpio pd_ms dr_ms sl prio = .ok (false, s1) →
      s1.nblk_list = s.nblk_list ∧ s1.gpio_writes = s.gpio_writes ∧
        (s.smpr_list_modify = true → s1 = s)) ∧
    (nblk_sync_start tick st gpio pd_ms dr_ms sl prio = .ok (false, st1) → st1 = st) :=
  ⟨nblk_start_rejected tick s gpio pd_ms dr_ms sl prio s1,
   nblk_sync_start_rejected tick st gpio pd_ms dr_ms sl prio st1⟩

theorem rejected_start_changes_nothing_witness :
    (nblk_start 1 example_blink_params_state 21 2000 2000 false 0 =
        .ok (false, example_blink_params_state) ∧
      nblk_sync_start 1 example_with_sync_state 21 2000 2000 false 0 =
        .ok (false, example_with_sync_state)) ∧
    (example_blink_params_state.nblk_list = example_blink_params_state.nblk_list ∧
      example_blink_params_state.gpio_writes = example_blink_params_state.gpio_writes ∧
      (example_blink_params_state.smpr_list_modify = true →
        example_blink_params_state = example_blink_params_state)) ∧
    example_with_sync_state = example_with_sync_state :=
  ⟨⟨rfl, rfl⟩,
   (rejected_start_changes_nothing 1 example_blink_params_state example_blink_params_state
      example_with_sync_state example_with_sync_state 21 2000 2000 false 0).1 rfl,
   (rejected_start_changes_nothing 1 example_blink_params_state example_blink_params_state
      example_with_sync_state example_with_sync_state 21 2000 2000 false 0).2 rfl⟩

theorem nodup_split (gpio : Int) (pre : List nblink_t) (e : nblink_t) (post : List nblink_t)
    (hn : ((pre ++ e :: post).map (fun x => x.gpio)).Nodup) (he : e.gpio = gpio) :
    ∀ x ∈ pre ++ post, x.gpio ≠ gpio := by
  rw [List.map_append, List.map_cons, List.nodup_append] at hn
  obtain ⟨_, h2, h3⟩ := hn
  rw [List.nodup_cons] at h2
  intro x hx hxg
  rcases List.mem_append.mp hx with h | h
  · have h4 : x.gpio ∈ pre.map (fun x => x.gpio) := List.mem_map_of_mem _ h
    have h5 : x.gpio ∈ e.gpio :: post.map (fun x => x.gpio) := by
      rw [hxg, he]; exact List.mem_cons_self _ _
    exact h3 h4 h5
  · have h4 : x.gpio ∈ post.map (fun x => x.gpio) := List.mem_map_of_mem _ h
    rw [hxg, ← he] at h4
    exact h2.1 h4

theorem nodup_erase (pre : List nblink_t) (e : nblink_t) (post : List nblink_t)
    (hn : ((pre ++ e :: post).map (fun x => x.gpio)).Nodup) :
    ((pre ++ post).map (fun x => x.gpio)).Nodup := by
  rw [List.map_append, List.map_cons] at hn
  rw [List.map_append]
  exact List.Nodup.sublist (List.Sublist.append_left (List.sublist_cons_self _ _) _) hn

theorem filter_other_absent (gpio : Int) (l : List nblink_t) (h : ∀ x ∈ l, x.gpio ≠ gpio) :
    l.filter (fun x => decide (x.gpio ≠ gpio)) = l := by
  rw [List.filter_eq_self]
  intro x hx
  simpa using h x hx

theorem filter_same_absent (gpio : Int) (l : List nblink_t) (h : ∀ x ∈ l, x.gpio ≠ gpio) :
    l.filter (fun x => decide (x.gpio = gpio)) = [] := by
  rw [List.filter_eq_nil_iff]
  intro x hx
  simpa using h x hx

theorem insert_full (s : nblk_state) (gpio : Int) (pd_ms dr_ms : Nat) (sl : Bool) (prio : Nat)
    (h : ∀ e ∈ s.nblk_list, e.gpio ≠ gpio) (hlen : s.nblk_list.length = 255) :
    nblk_start_insert s gpio pd_ms dr_ms sl prio = .error .out_of_bounds := by
  have hmod : (s.nblk_list.length + 1) % 256 = 0 := by omega
  unfold nblk_start_insert add_nblk_to_list
  simp only [idx_absent gpio s.nblk_list h, if_true, hmod]

/-- The registry after an accepted insertion into a registry without an entry
for the output. -/
theorem insert_absent_post (s s1 : nblk_state) (gpio : Int) (pd_ms dr_ms : Nat) (sl : Bool)
    (prio : Nat) (h : ∀ e ∈ s.nblk_list, e.gpio ≠ gpio) (hlen : s.nblk_list.length ≤ 255)
    (hrun : nblk_start_insert s gpio pd_ms dr_ms sl prio = .ok (true, s1)) :
    s1 = { s with nblk_list := s.nblk_list ++
        [{ gpio := gpio, period_ms := pd_ms, remaining_ms := dr_ms, level := false,
           stop_level := sl, priority := prio, tmr_blinker := some ((pd_ms / 2) * 1000) }] } := by
  by_cases hl : s.nblk_list.length < 255
  · rw [insert_absent s gpio pd_ms dr_ms sl prio h hl] at hrun
    injection hrun with h1
    exact (congrArg Prod.snd h1).symm
  · rw [insert_full s gpio pd_ms dr_ms sl prio h (by omega)] at hrun
    cases hrun

theorem blinking_after_append (s : nblk_state) (l : List nblink_t) (e : nblink_t) (gpio : Int)
    (hs : s.nblk_list = l ++ [e]) (h : ∀ x ∈ l, x.gpio ≠ gpio) (he : e.gpio = gpio)
    (hlen : l.length < 255) : nblk_is_blinking s gpio = true := by
  have hidx : get_nblk_idx_in_list s.nblk_list gpio = l.length := by
    rw [hs]
    exact idx_split gpio l e [] h he
      (by simp only [List.length_append, List.length_cons, List.length_nil]; omega)
  unfold nblk_is_blinking
  rw [hidx]
  have : l.length ≠ UINT8_MAX := by unfold UINT8_MAX; omega
  rw [if_pos this]

/-- The registry after an accepted `nblk_start`: the old entries for other
outputs, then the new entry. -/
theorem start_accept_shape (tick : Nat) (s s1 : nblk_state) (gpio : Int) (pd_ms dr_ms : Nat)
    (sl : Bool) (prio : Nat) (hinv : reg_inv s.nblk_list)
    (hrun : nblk_start tick s gpio pd_ms dr_ms sl prio = .ok (true, s1)) :
    ∃ l : List nblink_t, (∀ x ∈ l, x.gpio ≠ gpio) ∧ l.length < 255 ∧
      l = s.nblk_list.filter (fun e => decide (e.gpio ≠ gpio)) ∧
      s1.nblk_list = l ++
        [{ gpio := gpio, period_ms := pd_ms, remaining_ms := dr_ms, level := false,
           stop_level := sl, priority := prio, tmr_blinker := some ((pd_ms / 2) * 1000) }] := by
  obtain ⟨hnd, hlen, _⟩ := hinv
  have key : ∃ l : List nblink_t, (∀ x ∈ l, x.gpio ≠ gpio) ∧ l.length ≤ 255 ∧
      l = s.nblk_list.filter (fun e => decide (e.gpio ≠ gpio)) ∧
      ∃ s2 : nblk_state, s2.nblk_list = l ∧
        nblk_start_insert s2 gpio pd_ms dr_ms sl prio = .ok (true, s1) := by
    unfold nblk_start at hrun
    by_cases h1 : pd_ms < NBLK_MINIMUM_PERIOD tick
    · rw [if_pos h1] at hrun; cases hrun
    rw [if_neg h1] at hrun
    by_cases h0 : pd_ms = 0
    · rw [if_pos h0] at hrun; cases hrun
    rw [if_neg h0] at hrun
    by_cases h2 : dr_ms % pd_ms ≠ 0 ∧ dr_ms ≠ NBLK_FOREVER
    · rw [if_pos h2] at hrun; cases hrun
    rw [if_neg h2] at hrun
    simp only [] at hrun
    rcases registry_split gpio s.nblk_list with h | ⟨pre, e, post, hl, hpre, he⟩
    · rw [idx_absent gpio s.nblk_list h] at hrun
      simp only [ne_eq, not_true_eq_false, if_false] at hrun
      exact ⟨s.nblk_list, h, hlen, (filter_other_absent gpio _ h).symm,
        { s with smpr_list_modify := true }, rfl, hrun⟩
    · have hidx : get_nblk_idx_in_list s.nblk_list gpio = pre.length := by
        rw [hl]; exact idx_split gpio pre e post hpre he (hl ▸ hlen)
      have hlt : pre.length ≠ UINT8_MAX := by
        rw [hl] at hlen
        simp only [List.length_append, List.length_cons] at hlen
        unfold UINT8_MAX
        omega
      have hget : s.nblk_list[pre.length]? = some e := by rw [hl]; exact split_get pre e post
      have hdel := del_split { s with smpr_list_modify := true } gpio pre e post hl hpre he hlen
      have hfree : ∀ x ∈ pre ++ post, x.gpio ≠ gpio := nodup_split gpio pre e post (hl ▸ hnd) he
      have hfilter : pre ++ post = s.nblk_list.filter (fun e => decide (e.gpio ≠ gpio)) := by
        rw [hl, List.filter_append, List.filter_cons]
        have : decide (e.gpio ≠ gpio) = false := by simp [he]
        rw [this]
        simp only [Bool.false_eq_true, if_false]
        rw [← List.filter_append, filter_other_absent gpio _ hfree]
      have hlen2 : (pre ++ post).length ≤ 255 := by
        rw [hl] at hlen
        simp only [List.length_append, List.length_cons] at hlen
        simp only [List.length_append]
        omega
      simp only [hidx, hlt, ne_eq, not_false_eq_true, if_true, hget, hdel] at hrun
      by_cases h5 : prio > e.priority
      · rw [if_pos h5] at hrun
        exact ⟨pre ++ post, hfree, hlen2, hfilter,
          { s with smpr_list_modify := true,
                   gpio_writes := gpio_set_level s.gpio_writes gpio e.stop_level,
                   nblk_list := pre ++ post }, rfl, hrun⟩
      · rw [if_neg h5] at hrun
        by_cases h6 : prio = e.priority ∧ dr_ms > e.remaining_ms
        · rw [if_pos h6] at hrun
          exact ⟨pre ++ post, hfree, hlen2, hfilter,
          { s with smpr_list_modify := true,
                   gpio_writes := gpio_set_level s.gpio_writes gpio e.stop_level,
                   nblk_list := pre ++ post }, rfl, hrun⟩
        · rw [if_neg h6] at hrun; cases hrun
  obtain ⟨l, hfree, hl255, hfilt, s2, hs2, hins⟩ := key
  have hpost := insert_absent_post s2 s1 gpio pd_ms dr_ms sl prio (hs2 ▸ hfree) (hs2 ▸ hl255) hins
  have hlist : s1.nblk_list = l ++
      [{ gpio := gpio, period_ms := pd_ms, remaining_ms := dr_ms, level := false,
         stop_level := sl, priority := prio, tmr_blinker := some ((pd_ms / 2) * 1000) }] := by
    rw [hpost, hs2]
  have hlt : l.length < 255 := by
    by_cases hl : s2.nblk_list.length < 255
    · rw [hs2] at hl; exact hl
    · rw [insert_full s2 gpio pd_ms dr_ms sl prio (hs2 ▸ hfree) (by rw [hs2] at hl ⊢; omega)] at hins
      cases hins
  exact ⟨l, hfree, hlt, hfilt, hlist⟩

/-- C4: after `nblk_start` returns true on a well-formed registry, the registry
is the old one without the entry for this output, followed by one new entry that
carries the requested period, duration, stop level and priority, level false and
a timer of `pd_ms/2` ms; that entry is the only one for the output and
`nblk_is_blinking` returns true. -/
theorem nblk_start_post (tick : Nat) (s s1 : nblk_state) (gpio : Int) (pd_ms dr_ms : Nat)
    (sl : Bool) (prio : Nat) (hinv : reg_inv s.nblk_list)
    (hrun : nblk_start tick s gpio pd_ms dr_ms sl prio = .ok (true, s1)) :
    s1.nblk_list = s.nblk_list.filter (fun e => decide (e.gpio ≠ gpio)) ++
        [{ gpio := gpio, period_ms := pd_ms, remaining_ms := dr_ms, level := false,
           stop_level := sl, priority := prio, tmr_blinker := some ((pd_ms / 2) * 1000) }] ∧
    s1.nblk_list.filter (fun e => decide (e.gpio = gpio)) =
        [{ gpio := gpio, period_ms := pd_ms, remaining_ms := dr_ms, level := false,
           stop_level := sl, priority := prio, tmr_blinker := some ((pd_ms / 2) * 1000) }] ∧
    nblk_is_blinking s1 gpio = true := by
  obtain ⟨l, hfree, hlt, hfilt, hlist⟩ :=
    start_accept_shape tick s s1 gpio pd_ms dr_ms sl prio hinv hrun
  refine ⟨by rw [hlist, hfilt], ?_, blinking_after_append s1 l _ gpio hlist hfree rfl hlt⟩
  rw [hlist, List.filter_append, filter_same_absent gpio l hfree]
  simp

theorem nblk_start_post_witness :
    (reg_inv example_blink_params_state.nblk_list ∧
      nblk_start 1 example_blink_params_state 21 500 30000 true 2 =
        .ok (true, { smpr_list_modify := true,
                     nblk_list := [{ gpio := 21, period_ms := 500, remaining_ms := 30000,
                                     level := false, stop_level := true, priority := 2,
                                     tmr_blinker := some 250000 }],
                     gpio_writes := (21, false) :: example_blink_params_state.gpio_writes })) ∧
    nblk_is_blinking { smpr_list_modify := true,
                       nblk_list := [{ gpio := 21, period_ms := 500, remaining_ms := 30000,
                                       level := false, stop_level := true, priority := 2,
                                       tmr_blinker := some 250000 }],
                       gpio_writes := (21, false) :: example_blink_params_state.gpio_writes }
      21 = true :=
  ⟨⟨by simp [reg_inv, example_blink_params_state], rfl⟩,
   (nblk_start_post 1 example_blink_params_state _ 21 500 30000 true 2
      (by simp [reg_inv, example_blink_params_state]) rfl).2.2⟩

theorem nblk_stop_absent (s : nblk_state) (gpio : Int) (sl : Bool)
    (h : ∀ e ∈ s.nblk_list, e.gpio ≠ gpio) : nblk_stop s gpio sl = .ok (false, s) := by
  unfold nblk_stop
  by_cases hm : s.smpr_list_modify = false
  · rw [if_pos hm]
  · rw [if_neg hm, if_pos (idx_absent gpio _ h)]

theorem nblk_stop_split (s : nblk_state) (gpio : Int) (sl : Bool) (pre : List nblink_t)
    (e : nblink_t) (post : List nblink_t) (hl : s.nblk_list = pre ++ e :: post)
    (hpre : ∀ x ∈ pre, x.gpio ≠ gpio) (he : e.gpio = gpio) (hlen : s.nblk_list.length ≤ 255)
    (hm : s.smpr_list_modify = true) :
    nblk_stop s gpio sl =
      .ok (true, { s with
        gpio_writes := gpio_set_level (gpio_set_level s.gpio_writes gpio e.stop_level) gpio sl,
        nblk_list := pre ++ post }) := by
  have hidx : get_nblk_idx_in_list s.nblk_list gpio = pre.length := by
    rw [hl]; exact idx_split gpio pre e post hpre he (hl ▸ hlen)
  have hlt : ¬ pre.length = UINT8_MAX := by
    rw [hl] at hlen
    simp only [List.length_append, List.length_cons] at hlen
    unfold UINT8_MAX
    omega
  have hm1 : ¬ s.smpr_list_modify = false := by rw [hm]; decide
  unfold nblk_stop
  rw [if_neg hm1, hidx, if_neg hlt, del_split s gpio pre e post hl hpre he hlen]

theorem nblk_sync_stop_absent (st : sync_state) (gpio : Int) (sl : Bool)
    (h : ∀ e ∈ st.mgr.nblk_list, e.gpio ≠ gpio) : nblk_sync_stop st gpio sl = .ok (false, st) := by
  have hidx : get_nblk_idx_in_list_s st.mgr gpio = UINT8_MAX := idx_absent gpio _ h
  unfold nblk_sync_stop
  by_cases hm : st.mgr.smpr_list_modify = false
  · rw [if_pos hm]
  · rw [if_neg hm, if_pos hidx]

theorem nblk_sync_stop_split (st : sync_state) (gpio : Int) (sl : Bool) (pre : List nblink_t)
    (e : nblink_t) (post : List nblink_t) (hl : st.mgr.nblk_list = pre ++ e :: post)
    (hpre : ∀ x ∈ pre, x.gpio ≠ gpio) (he : e.gpio = gpio)
    (hlen : st.mgr.nblk_list.length ≤ 255) (hm : st.mgr.smpr_list_modify = true) :
    nblk_sync_stop st gpio sl =
      .ok (true, { mgr := { st.mgr with nblk_list := pre ++ post },
                   gpio_writes :=
                     gpio_set_level (gpio_set_level st.gpio_writes gpio e.stop_level) gpio sl }) := by
  obtain ⟨hidx, hlt, _⟩ := idx_s_split st gpio pre e post hl hpre he hlen
  have hm1 : ¬ st.mgr.smpr_list_modify = false := by rw [hm]; decide
  unfold nblk_sync_stop
  rw [if_neg hm1, hidx, if_neg hlt, del_s_split st gpio pre e post hl hpre he hlen]

theorem not_blinking_absent (s : nblk_state) (gpio : Int)
    (h : ∀ e ∈ s.nblk_list, e.gpio ≠ gpio) : nblk_is_blinking s gpio = false := by
  unfold nblk_is_blinking
  rw [idx_absent gpio _ h]
  simp

theorem not_sync_blinking_absent (st : sync_state) (gpio : Int)
    (h : ∀ e ∈ st.mgr.nblk_list, e.gpio ≠ gpio) : nblk_is_sync_blinking st gpio = false := by
  have hidx : get_nblk_idx_in_list_s st.mgr gpio = UINT8_MAX := idx_absent gpio _ h
  unfold nblk_is_sync_blinking
  rw [hidx]
  simp

theorem filter_other_split (gpio : Int) (pre : List nblink_t) (e : nblink_t)
    (post : List nblink_t) (hfree : ∀ x ∈ pre ++ post, x.gpio ≠ gpio) (he : e.gpio = gpio) :
    (pre ++ e :: post).filter (fun x => decide (x.gpio ≠ gpio)) = pre ++ post := by
  rw [List.filter_append, List.filter_cons]
  have : decide (e.gpio ≠ gpio) = false := by simp [he]
  rw [this]
  simp only [Bool.false_eq_true, if_false]
  rw [← List.filter_append, filter_other_absent gpio _ hfree]

/-- C5: on a well-formed registry whose mutex exists whenever it has entries,
`nblk_stop` and `nblk_sync_stop` return true exactly when the output has an
entry.  On true the output's level is the requested `sl`, the entry is erased
and the is-blinking query returns false; on false the state is unchanged. -/
theorem stop_contract (s : nblk_state) (st : sync_state) (gpio : Int) (sl : Bool) :
    (reg_inv s.nblk_list → (s.nblk_list ≠ [] → s.smpr_list_modify = true) →
     ∃ r s1, nblk_stop s gpio sl = .ok (r, s1) ∧
      (r = true ↔ ∃ e ∈ s.nblk_list, e.gpio = gpio) ∧
      (r = true → gpio_get_level s1.gpio_writes gpio = some sl ∧
        s1.nblk_list = s.nblk_list.filter (fun x => decide (x.gpio ≠ gpio)) ∧
        nblk_is_blinking s1 gpio = false) ∧
      (r = false → s1 = s)) ∧
    (reg_inv st.mgr.nblk_list → (st.mgr.nblk_list ≠ [] → st.mgr.smpr_list_modify = true) →
     ∃ r st1, nblk_sync_stop st gpio sl = .ok (r, st1) ∧
      (r = true ↔ ∃ e ∈ st.mgr.nblk_list, e.gpio = gpio) ∧
      (r = true → gpio_get_level st1.gpio_writes gpio = some sl ∧
        st1.mgr.nblk_list = st.mgr.nblk_list.filter (fun x => decide (x.gpio ≠ gpio)) ∧
        nblk_is_sync_blinking st1 gpio = false) ∧
      (r = false → st1 = st)) := by
  constructor
  · intro hinv hm
    obtain ⟨hnd, hlen, _⟩ := hinv
    rcases registry_split gpio s.nblk_list with h | ⟨pre, e, post, hl, hpre, he⟩
    · refine ⟨false, s, nblk_stop_absent s gpio sl h, ?_, ?_, fun _ => rfl⟩
      · constructor
        · intro hf; cases hf
        · rintro ⟨e, hmem, hg⟩; exact absurd hg (h e hmem)
      · intro hf; cases hf
    · have hne : s.nblk_list ≠ [] := by rw [hl]; simp
      have hfree := nodup_split gpio pre e post (hl ▸ hnd) he
      refine ⟨true, _, nblk_stop_split s gpio sl pre e post hl hpre he hlen (hm hne), ?_, ?_, ?_⟩
      · simp only [true_iff]
        exact ⟨e, by rw [hl]; simp, he⟩
      · intro _
        refine ⟨get_level_set _ _ _, ?_, not_blinking_absent _ gpio hfree⟩
        show pre ++ post = _
        rw [hl, filter_other_split gpio pre e post hfree he]
      · intro hf; cases hf
  · intro hinvs hms
    obtain ⟨hnd, hlen, _⟩ := hinvs
    rcases registry_split gpio st.mgr.nblk_list with h | ⟨pre, e, post, hl, hpre, he⟩
    · refine ⟨false, st, nblk_sync_stop_absent st gpio sl h, ?_, ?_, fun _ => rfl⟩
      · constructor
        · intro hf; cases hf
        · rintro ⟨e, hmem, hg⟩; exact absurd hg (h e hmem)
      · intro hf; cases hf
    · have hne : st.mgr.nblk_list ≠ [] := by rw [hl]; simp
      have hfree := nodup_split gpio pre e post (hl ▸ hnd) he
      refine ⟨true, _, nblk_sync_stop_split st gpio sl pre e post hl hpre he hlen (hms hne),
        ?_, ?_, ?_⟩
      · simp only [true_iff]
        exact ⟨e, by rw [hl]; simp, he⟩
      · intro _
        refine ⟨get_level_set _ _ _, ?_, not_sync_blinking_absent _ gpio hfree⟩
        show pre ++ post = _
        rw [hl, filter_other_split gpio pre e post hfree he]
      · intro hf; cases hf

theorem stop_contract_witness :
    (reg_inv example_blink_params_state.nblk_list ∧
      (example_blink_params_state.nblk_list ≠ [] →
        example_blink_params_state.smpr_list_modify = true) ∧
      reg_inv example_with_sync_state.mgr.nblk_list ∧
      (example_with_sync_state.mgr.nblk_list ≠ [] →
        example_with_sync_state.mgr.smpr_list_modify = true)) ∧
    (∃ r s1, nblk_stop example_blink_params_state 21 true = .ok (r, s1) ∧
      (r = true ↔ ∃ e ∈ example_blink_params_state.nblk_list, e.gpio = 21)) ∧
    (∃ r st1, nblk_sync_stop example_with_sync_state 21 true = .ok (r, st1) ∧
      (r = true ↔ ∃ e ∈ example_with_sync_state.mgr.nblk_list, e.gpio = 21)) := by
  have h1 : reg_inv example_blink_params_state.nblk_list := by
    simp [reg_inv, example_blink_params_state]
  have h2 : reg_inv example_with_sync_state.mgr.nblk_list := by
    simp [reg_inv, example_with_sync_state]
  have h := stop_contract example_blink_params_state example_with_sync_state 21 true
  obtain ⟨r, s1, ha, hb, _⟩ := h.1 h1 (fun _ => rfl)
  obtain ⟨r2, st1, hc, hd, _⟩ := h.2 h2 (fun _ => rfl)
  exact ⟨⟨h1, fun _ => rfl, h2, fun _ => rfl⟩, ⟨r, s1, ha, hb⟩, ⟨r2, st1, hc, hd⟩⟩

/-- C6: when the output has an entry in a well-formed registry, two consecutive
stops of it return true and then false; independent and sync variant alike. -/
theorem stop_twice (s : nblk_state) (st : sync_state) (gpio : Int) (sl1 sl2 : Bool) :
    (reg_inv s.nblk_list → s.smpr_list_modify = true → (∃ e ∈ s.nblk_list, e.gpio = gpio) →
      ∃ s1, nblk_stop s gpio sl1 = .ok (true, s1) ∧ nblk_stop s1 gpio sl2 = .ok (false, s1)) ∧
    (reg_inv st.mgr.nblk_list → st.mgr.smpr_list_modify = true →
      (∃ e ∈ st.mgr.nblk_list, e.gpio = gpio) →
      ∃ st1, nblk_sync_stop st gpio sl1 = .ok (true, st1) ∧
        nblk_sync_stop st1 gpio sl2 = .ok (false, st1)) := by
  constructor
  · rintro ⟨hnd, hlen, _⟩ hm ⟨x, hx, hxg⟩
    rcases registry_split gpio s.nblk_list with h | ⟨pre, e, post, hl, hpre, he⟩
    · exact absurd hxg (h x hx)
    · have hfree := nodup_split gpio pre e post (hl ▸ hnd) he
      exact ⟨_, nblk_stop_split s gpio sl1 pre e post hl hpre he hlen hm,
        nblk_stop_absent _ gpio sl2 hfree⟩
  · rintro ⟨hnd, hlen, _⟩ hm ⟨x, hx, hxg⟩
    rcases registry_split gpio st.mgr.nblk_list with h | ⟨pre, e, post, hl, hpre, he⟩
    · exact absurd hxg (h x hx)
    · have hfree := nodup_split gpio pre e post (hl ▸ hnd) he
      exact ⟨_, nblk_sync_stop_split st gpio sl1 pre e post hl hpre he hlen hm,
        nblk_sync_stop_absent _ gpio sl2 hfree⟩

theorem stop_twice_witness :
    (∃ s1, nblk_stop example_blink_params_state 21 true = .ok (true, s1) ∧
      nblk_stop s1 21 false = .ok (false, s1)) ∧
    (∃ st1, nblk_sync_stop example_with_sync_state 21 true = .ok (true, st1) ∧
      nblk_sync_stop st1 21 false = .ok (false, st1)) :=
  ⟨(stop_twice example_blink_params_state example_with_sync_state 21 true false).1
      (by simp [reg_inv, example_blink_params_state]) rfl
      ⟨_, List.mem_cons_self _ _, rfl⟩,
   (stop_twice example_blink_params_state example_with_sync_state 21 true false).2
      (by simp [reg_inv, example_with_sync_state]) rfl
      ⟨_, List.mem_cons_self _ _, rfl⟩⟩

/-- C7: the alignment is lost on a reachable group.  Outputs 1 and 2 are started
together on a 3000 ms group and expire on the same tick; the tick removes only
output 1, the next tick takes output 2 from 0 to 4294965796, and when output 3
then joins, the re-alignment of output 2 wraps to 704, which is no multiple of its
period 3000. -/
theorem join_alignment_wraps :
    sync_reachable 1 wrapped_group_state ∧
    (∃ st1, nblk_sync_start 1 wrapped_group_state 3 3000 3000 false 0 = .ok (true, st1) ∧
      st1.mgr.nblk_list.map (fun e => (e.gpio, e.period_ms, e.remaining_ms)) =
        [(2, 3000, 704), (3, 3000, 3000)] ∧
      ∃ e ∈ st1.mgr.nblk_list, e.remaining_ms % e.period_ms ≠ 0) := by
  constructor
  · exact ⟨3000, false,
      [.start 1 3000 3000 false 0, .start 2 3000 3000 false 0, .tick, .tick, .tick], rfl, rfl⟩
  · refine ⟨_, rfl, rfl, ?_⟩
    exact ⟨{ gpio := 2, period_ms := 3000, remaining_ms := 704, level := false,
             stop_level := false, priority := 0, tmr_blinker := none },
      List.mem_cons_self _ _, by decide⟩

/-- C8: the rounding wraps for a duration close to `UINT32_MAX`.  On a fresh
1000 ms group, `nblk_sync_start` with period 1000 and duration 4294967294
normalises the duration to 704 and leaves the new entry with 1000 ms remaining,
far below the requested duration. -/
theorem round_up_wraps :
    sync_normalize_dr 1000 4294967294 = .ok 704 ∧
    (∃ st1, nblk_sync_start 1 (nblk_sync_create_mgr 1 sync_zero 1000 false).2 21 1000 4294967294
        false 0 = .ok (true, st1) ∧
      st1.mgr.nblk_list.map (fun e => (e.gpio, e.period_ms, e.remaining_ms)) =
        [(21, 1000, 1000)]) ∧
    ¬ (4294967294 ≤ 1000) :=
  ⟨rfl, ⟨_, rfl, rfl⟩, by decide⟩

theorem get_level_append (w1 w2 : List (Int × Bool)) (gpio : Int) (v : Bool)
    (h : gpio_get_level w1 gpio = some v) : gpio_get_level (w1 ++ w2) gpio = some v := by
  induction w1 with
  | nil => cases h
  | cons p rest ih =>
    obtain ⟨g, b⟩ := p
    simp only [List.cons_append, gpio_get_level] at h ⊢
    by_cases hg : g = gpio
    · rw [if_pos hg] at h ⊢; exact h
    · rw [if_neg hg] at h ⊢; exact ih h

theorem get_level_skip (w1 w2 : List (Int × Bool)) (gpio : Int)
    (h : ∀ p ∈ w1, p.1 ≠ gpio) : gpio_get_level (w1 ++ w2) gpio = gpio_get_level w2 gpio := by
  induction w1 with
  | nil => rfl
  | cons p rest ih =>
    obtain ⟨g, b⟩ := p
    have hg : g ≠ gpio := h (g, b) (List.mem_cons_self _ _)
    simp only [List.cons_append, gpio_get_level, if_neg hg]
    exact ih (fun q hq => h q (List.mem_cons_of_mem _ hq))

/-- The deletion loop empties a well-formed registry, leaving every member's
output at that member's stored stop level. -/
theorem delete_loop_spec (l : List nblink_t) :
    ∀ st : sync_state, st.mgr.nblk_list = l → (l.map (fun e => e.gpio)).Nodup →
      l.length ≤ 255 → st.mgr.smpr_list_modify = true →
      ∃ w1, nblk_sync_delete_loop l.length st =
          .ok { mgr := { st.mgr with nblk_list := [] }, gpio_writes := w1 ++ st.gpio_writes } ∧
        (∀ e ∈ l, gpio_get_level w1 e.gpio = some e.stop_level) ∧
        (∀ p ∈ w1, ∃ e ∈ l, e.gpio = p.1) := by
  induction l with
  | nil =>
    intro st hl _ _ _
    refine ⟨[], ?_, ?_, ?_⟩
    · show Except.ok st = _
      cases st with
      | mk mgr w =>
        cases mgr
        simp only at hl
        simp [hl]
    · intro e he; cases he
    · intro p hp; cases hp
  | cons x rest ih =>
    intro st hl hnd hlen hm
    have hstop := nblk_sync_stop_split st x.gpio x.stop_level [] x rest hl
      (by intro y hy; cases hy) rfl (by rw [hl]; exact hlen) hm
    rw [List.map_cons, List.nodup_cons] at hnd
    have hlen2 : rest.length ≤ 255 := by
      simp only [List.length_cons] at hlen; omega
    obtain ⟨w1, hrun, hlev, hsrc⟩ := ih
      { mgr := { st.mgr with nblk_list := [] ++ rest },
        gpio_writes :=
          gpio_set_level (gpio_set_level st.gpio_writes x.gpio x.stop_level) x.gpio x.stop_level }
      rfl hnd.2 hlen2 hm
    refine ⟨w1 ++ [(x.gpio, x.stop_level), (x.gpio, x.stop_level)], ?_, ?_, ?_⟩
    · simp only [List.length_cons, nblk_sync_delete_loop, hl, hstop, hrun]
      simp [gpio_set_level]
    · intro e he
      rcases List.mem_cons.mp he with h1 | h1
      · rw [h1]
        have hfree : ∀ p ∈ w1, p.1 ≠ x.gpio := by
          intro p hp hpg
          obtain ⟨y, hy, hyg⟩ := hsrc p hp
          apply hnd.1
          rw [← hpg, ← hyg]
          exact List.mem_map_of_mem _ hy
        rw [get_level_skip w1 _ x.gpio hfree]
        simp [gpio_get_level]
      · exact get_level_append w1 _ e.gpio e.stop_level (hlev e h1)
    · intro p hp
      rcases List.mem_append.mp hp with h1 | h1
      · obtain ⟨y, hy, hyg⟩ := hsrc p h1
        exact ⟨y, List.mem_cons_of_mem _ hy, hyg⟩
      · refine ⟨x, List.mem_cons_self _ _, ?_⟩
        simp only [List.mem_cons, List.mem_singleton, List.not_mem_nil, or_false, or_self] at h1
        rw [h1]

theorem sync_start_dead (tick : Nat) (st : sync_state) (gpio : Int) (pd_ms dr_ms : Nat)
    (sl : Bool) (prio : Nat) (h : st.mgr.smpr_list_modify = false ∨ st.mgr.deleting = true) :
    nblk_sync_start tick st gpio pd_ms dr_ms sl prio = .ok (false, st) := by
  unfold nblk_sync_start
  by_cases h1 : st.mgr.smpr_list_modify = false
  · rw [if_pos h1]
  · rw [if_neg h1]
    rcases h with h | h
    · exact absurd h h1
    · rw [if_pos h]

/-- C9: on a created group with a well-formed registry `nblk_sync_delete_mgr`
returns with an empty registry, every former member's output at that member's own
stored stop level, and a manager on which every later `nblk_sync_start` returns
false and changes nothing. -/
theorem sync_delete_post (st : sync_state) (hinv : reg_inv st.mgr.nblk_list)
    (hm : st.mgr.smpr_list_modify = true) :
    ∃ st1, nblk_sync_delete_mgr st = .ok st1 ∧
      st1.mgr.nblk_list = [] ∧ st1.mgr.nblk_list.length = 0 ∧
      (∀ e ∈ st.mgr.nblk_list, gpio_get_level st1.gpio_writes e.gpio = some e.stop_level) ∧
      (∀ (tick : Nat) (gpio : Int) (pd_ms dr_ms : Nat) (sl : Bool) (prio : Nat),
        nblk_sync_start tick st1 gpio pd_ms dr_ms sl prio = .ok (false, st1)) := by
  obtain ⟨hnd, hlen, _⟩ := hinv
  obtain ⟨w1, hrun, hlev, _⟩ := delete_loop_spec st.mgr.nblk_list
    { st with mgr := { st.mgr with deleting := true, tmr_blinker := none } } rfl hnd hlen hm
  have hdel : ∃ st1, nblk_sync_delete_mgr st = .ok st1 ∧ st1.mgr.nblk_list = [] ∧
      st1.gpio_writes = w1 ++ st.gpio_writes ∧ st1.mgr.smpr_list_modify = false := by
    unfold nblk_sync_delete_mgr
    simp only [hrun]
    exact ⟨_, rfl, rfl, rfl, rfl⟩
  obtain ⟨st1, h1, h2, h3, h4⟩ := hdel
  refine ⟨st1, h1, h2, by rw [h2]; rfl, ?_, ?_⟩
  · intro e he
    rw [h3]
    exact get_level_append w1 _ e.gpio e.stop_level (hlev e he)
  · intro tick gpio pd_ms dr_ms sl prio
    exact sync_start_dead tick _ gpio pd_ms dr_ms sl prio (Or.inl h4)

theorem sync_delete_post_witness :
    (reg_inv example_with_sync_state.mgr.nblk_list ∧
      example_with_sync_state.mgr.smpr_list_modify = true) ∧
    ∃ st1, nblk_sync_delete_mgr example_with_sync_state = .ok st1 ∧
      st1.mgr.nblk_list = [] ∧ st1.mgr.nblk_list.length = 0 ∧
      (∀ e ∈ example_with_sync_state.mgr.nblk_list,
        gpio_get_level st1.gpio_writes e.gpio = some e.stop_level) ∧
      (∀ (tick : Nat) (gpio : Int) (pd_ms dr_ms : Nat) (sl : Bool) (prio : Nat),
        nblk_sync_start tick st1 gpio pd_ms dr_ms sl prio = .ok (false, st1)) :=
  ⟨⟨by simp [reg_inv, example_with_sync_state], rfl⟩,
   sync_delete_post example_with_sync_state (by simp [reg_inv, example_with_sync_state]) rfl⟩

theorem nblk_cb_toggle (s : nblk_state) (gpio : Int) (pre : List nblink_t) (e : nblink_t)
    (post : List nblink_t) (hl : s.nblk_list = pre ++ e :: post)
    (hpre : ∀ x ∈ pre, x.gpio ≠ gpio) (he : e.gpio = gpio) (hlen : s.nblk_list.length ≤ 255)
    (hc : e.period_ms / 2 < e.remaining_ms) :
    nblk_cb s gpio =
      .ok { s with
        nblk_list := pre ++
          { e with
            remaining_ms := if e.remaining_ms ≠ NBLK_FOREVER
              then u32_sub e.remaining_ms (e.period_ms / 2) else e.remaining_ms,
            level := if e.level then false else true } :: post,
        gpio_writes := gpio_set_level s.gpio_writes gpio (if e.level then false else true) } := by
  have hidx : get_nblk_idx_in_list s.nblk_list gpio = pre.length := by
    rw [hl]; exact idx_split gpio pre e post hpre he (hl ▸ hlen)
  unfold nblk_cb
  simp only [hidx]
  rw [hl, split_get]
  simp only [if_pos hc, split_set, he]

theorem nblk_cb_expire (s : nblk_state) (gpio : Int) (pre : List nblink_t) (e : nblink_t)
    (post : List nblink_t) (hl : s.nblk_list = pre ++ e :: post)
    (hpre : ∀ x ∈ pre, x.gpio ≠ gpio) (he : e.gpio = gpio) (hlen : s.nblk_list.length ≤ 255)
    (hc : ¬ e.period_ms / 2 < e.remaining_ms) :
    nblk_cb s gpio =
      .ok { s with gpio_writes := gpio_set_level s.gpio_writes gpio e.stop_level,
                   nblk_list := pre ++ post } := by
  have hidx : get_nblk_idx_in_list s.nblk_list gpio = pre.length := by
    rw [hl]; exact idx_split gpio pre e post hpre he (hl ▸ hlen)
  have hget : s.nblk_list[pre.length]? = some e := by rw [hl]; exact split_get pre e post
  unfold nblk_cb
  simp only [hidx, hget, if_neg hc]
  exact del_split s gpio pre e post hl hpre he hlen

theorem start_accept_period (tick : Nat) (s s1 : nblk_state) (gpio : Int) (pd_ms dr_ms : Nat)
    (sl : Bool) (prio : Nat)
    (hrun : nblk_start tick s gpio pd_ms dr_ms sl prio = .ok (true, s1)) :
    NBLK_MINIMUM_PERIOD tick ≤ pd_ms := by
  unfold nblk_start at hrun
  by_cases h1 : pd_ms < NBLK_MINIMUM_PERIOD tick
  · rw [if_pos h1] at hrun; cases hrun
  · omega

theorem min_period_ge_two (tick : Nat) (h : 0 < NBLK_MINIMUM_PERIOD tick) :
    2 ≤ NBLK_MINIMUM_PERIOD tick := by
  unfold NBLK_MINIMUM_PERIOD at h ⊢
  omega

/-- C10 (as the code behaves): an entry started with `dr_ms = pd_ms`, for a
period below `UINT32_MAX`, is toggled to level 1 by its first tick.  For an even
period the second tick already removes the entry and forces the stop level, so no
level 0 is written by a toggle; for an odd period the second tick writes level 0
and the third one removes the entry and forces the stop level. -/
theorem expiry_boundary (tick : Nat) (s s1 : nblk_state) (gpio : Int) (pd_ms : Nat) (sl : Bool)
    (prio : Nat) (hinv : reg_inv s.nblk_list) (hmin : 0 < NBLK_MINIMUM_PERIOD tick)
    (hpd : pd_ms < UINT32_MAX)
    (hrun : nblk_start tick s gpio pd_ms pd_ms sl prio = .ok (true, s1)) :
    ∃ s2, nblk_cb s1 gpio = .ok s2 ∧ s2.gpio_writes = (gpio, true) :: s1.gpio_writes ∧
      nblk_is_blinking s2 gpio = true ∧
      (pd_ms % 2 = 0 →
        ∃ s3, nblk_cb s2 gpio = .ok s3 ∧ s3.gpio_writes = (gpio, sl) :: s2.gpio_writes ∧
          nblk_is_blinking s3 gpio = false) ∧
      (pd_ms % 2 = 1 →
        ∃ s3 s4, nblk_cb s2 gpio = .ok s3 ∧ s3.gpio_writes = (gpio, false) :: s2.gpio_writes ∧
          nblk_is_blinking s3 gpio = true ∧
          nblk_cb s3 gpio = .ok s4 ∧ s4.gpio_writes = (gpio, sl) :: s3.gpio_writes ∧
          nblk_is_blinking s4 gpio = false) := by
  have hge := start_accept_period tick s s1 gpio pd_ms pd_ms sl prio hrun
  have h2 := min_period_ge_two tick hmin
  obtain ⟨l, hfree, hlt, _, hlist⟩ := start_accept_shape tick s s1 gpio pd_ms pd_ms sl prio hinv hrun
  have hlen1 : ∀ e : nblink_t, (l ++ [e]).length ≤ 255 := by
    intro e
    simp only [List.length_append, List.length_cons, List.length_nil]
    omega
  unfold UINT32_MAX at hpd
  have hnf : pd_ms ≠ NBLK_FOREVER := by unfold NBLK_FOREVER UINT32_MAX; omega
  -- first tick
  have t1 := nblk_cb_toggle s1 gpio l _ [] hlist hfree rfl (hlist ▸ hlen1 _)
    (show pd_ms / 2 < pd_ms by omega)
  simp only [if_pos hnf, Bool.false_eq_true, if_false] at t1
  have hsub1 : u32_sub pd_ms (pd_ms / 2) = pd_ms - pd_ms / 2 := by unfold u32_sub; omega
  rw [hsub1] at t1
  refine ⟨_, t1, rfl, blinking_after_append _ l _ gpio rfl hfree rfl hlt, ?_, ?_⟩
  · intro heven
    have t2 := nblk_cb_expire
      { s1 with
        nblk_list := l ++ [{ gpio := gpio, period_ms := pd_ms, remaining_ms := pd_ms - pd_ms / 2,
                             level := true, stop_level := sl, priority := prio,
                             tmr_blinker := some ((pd_ms / 2) * 1000) }],
        gpio_writes := gpio_set_level s1.gpio_writes gpio true }
      gpio l _ [] rfl hfree rfl (hlen1 _) (show ¬ pd_ms / 2 < pd_ms - pd_ms / 2 by omega)
    refine ⟨_, t2, rfl, not_blinking_absent _ gpio ?_⟩
    simpa using hfree
  · intro hodd
    have hnf2 : pd_ms - pd_ms / 2 ≠ NBLK_FOREVER := by unfold NBLK_FOREVER UINT32_MAX; omega
    have t2 := nblk_cb_toggle
      { s1 with
        nblk_list := l ++ [{ gpio := gpio, period_ms := pd_ms, remaining_ms := pd_ms - pd_ms / 2,
                             level := true, stop_level := sl, priority := prio,
                             tmr_blinker := some ((pd_ms / 2) * 1000) }],
        gpio_writes := gpio_set_level s1.gpio_writes gpio true }
      gpio l _ [] rfl hfree rfl (hlen1 _) (show pd_ms / 2 < pd_ms - pd_ms / 2 by omega)
    simp only [if_pos hnf2, if_true] at t2
    have hsub2 : u32_sub (pd_ms - pd_ms / 2) (pd_ms / 2) = 1 := by unfold u32_sub; omega
    rw [hsub2] at t2
    have t3 := nblk_cb_expire
      { s1 with
        nblk_list := l ++ [{ gpio := gpio, period_ms := pd_ms, remaining_ms := 1,
                             level := false, stop_level := sl, priority := prio,
                             tmr_blinker := some ((pd_ms / 2) * 1000) }],
        gpio_writes := gpio_set_level (gpio_set_level s1.gpio_writes gpio true) gpio false }
      gpio l _ [] rfl hfree rfl (hlen1 _) (show ¬ pd_ms / 2 < 1 by omega)
    refine ⟨_, _, t2, rfl, blinking_after_append _ l _ gpio rfl hfree rfl hlt, t3, rfl,
      not_blinking_absent _ gpio ?_⟩
    simpa using hfree

theorem expiry_boundary_witness :
    (reg_inv nblk_init.nblk_list ∧ 0 < NBLK_MINIMUM_PERIOD 1 ∧ 2001 < UINT32_MAX ∧
      nblk_start 1 nblk_init 21 2001 2001 true 0 =
        .ok (true, { smpr_list_modify := true,
                     nblk_list := [{ gpio := 21, period_ms := 2001, remaining_ms := 2001,
                                     level := false, stop_level := true, priority := 0,
                                     tmr_blinker := some 1000000 }],
                     gpio_writes := [] })) ∧
    ∃ s2, nblk_cb { smpr_list_modify := true,
                    nblk_list := [{ gpio := 21, period_ms := 2001, remaining_ms := 2001,
                                    level := false, stop_level := true, priority := 0,
                                    tmr_blinker := some 1000000 }],
                    gpio_writes := [] } 21 = .ok s2 ∧
      s2.gpio_writes = [(21, true)] ∧ nblk_is_blinking s2 21 = true :=
  ⟨⟨by simp [reg_inv, nblk_init], by decide, by decide, rfl⟩,
   (expiry_boundary 1 nblk_init _ 21 2001 true 0 (by simp [reg_inv, nblk_init]) (by decide)
      (by decide) rfl).imp (fun _ h => ⟨h.1, h.2.1, h.2.2.1⟩)⟩

/-- C10: the stated cycle does not happen for an even period.  Started on the
idle blinker with period and duration 2000 ms and stop level 1, output 21 is
written 1 by the first tick and removed by the second, which forces the stop
level; no tick ever writes level 0. -/
theorem expiry_even_period :
    ∃ s1 s2 s3, nblk_start 1 nblk_init 21 2000 2000 true 0 = .ok (true, s1) ∧
      nblk_cb s1 21 = .ok s2 ∧ nblk_cb s2 21 = .ok s3 ∧
      s2.gpio_writes = [(21, true)] ∧
      s3.nblk_list = [] ∧ nblk_is_blinking s3 21 = false ∧
      s3.gpio_writes = [(21, true), (21, true)] :=
  ⟨_, _, _, rfl, rfl, rfl, rfl, rfl, rfl, rfl⟩

/-- The group after an accepted join into a registry without an entry for the
output: every entry, the new one last, re-aligned by the synchronize loop. -/
theorem sync_insert_absent_post (st st1 : sync_state) (gpio : Int) (pd_ms d : Nat) (sl : Bool)
    (prio : Nat) (h : ∀ e ∈ st.mgr.nblk_list, e.gpio ≠ gpio)
    (hlen : st.mgr.nblk_list.length ≤ 255) (hp : ∀ e ∈ st.mgr.nblk_list, 0 < e.period_ms)
    (hn : 0 < pd_ms) (hlive : st.mgr.deleting = false)
    (hrun : nblk_sync_start_insert st gpio pd_ms d sl prio = .ok (true, st1)) :
    st.mgr.nblk_list.length < 255 ∧
    st1 = { mgr := { st.mgr with
              nblk_list := (st.mgr.nblk_list ++
                [({ gpio := gpio, period_ms := pd_ms, remaining_ms := d, level := false,
                    stop_level := sl, priority := prio, tmr_blinker := none } : nblink_t)]).map
                (sync_entry_val st.mgr.sync_level) },
            gpio_writes :=
              ((st.mgr.nblk_list ++
                [({ gpio := gpio, period_ms := pd_ms, remaining_ms := d, level := false,
                    stop_level := sl, priority := prio, tmr_blinker := none } : nblink_t)]).map
                (fun e => (e.gpio, st.mgr.sync_level))).reverse ++ st.gpio_writes } := by
  unfold nblk_sync_start_insert at hrun
  rw [if_pos hlive] at hrun
  by_cases hl : st.mgr.nblk_list.length < 255
  · refine ⟨hl, ?_⟩
    rw [add_s_absent st _ h hl hp hn] at hrun
    injection hrun with h1
    exact (congrArg Prod.snd h1).symm
  · have hmod : (st.mgr.nblk_list.length + 1) % 256 = 0 := by omega
    have hidx : get_nblk_idx_in_list_s st.mgr gpio = UINT8_MAX := idx_absent gpio _ h
    simp only [add_nblk_to_list_s, hidx, if_true, hmod] at hrun
    cases hrun

/-- The group after an accepted `nblk_sync_start`: the old entries for other
outputs, then the new entry carrying the normalised duration, all re-aligned. -/
theorem sync_start_accept_shape (tick : Nat) (st st1 : sync_state) (gpio : Int)
    (pd_ms dr_ms : Nat) (sl : Bool) (prio : Nat) (hinv : reg_inv st.mgr.nblk_list)
    (hrun : nblk_sync_start tick st gpio pd_ms dr_ms sl prio = .ok (true, st1)) :
    ∃ (d : Nat) (l : List nblink_t) (w : List (Int × Bool)),
      sync_normalize_dr pd_ms dr_ms = .ok d ∧ 0 < pd_ms ∧
      (∀ x ∈ l, x.gpio ≠ gpio) ∧ l.length < 255 ∧
      l = st.mgr.nblk_list.filter (fun e => decide (e.gpio ≠ gpio)) ∧
      st1.mgr.sync_level = st.mgr.sync_level ∧
      st1.mgr.nblk_list =
        (l ++ [({ gpio := gpio, period_ms := pd_ms, remaining_ms := d, level := false,
                  stop_level := sl, priority := prio, tmr_blinker := none } : nblink_t)]).map
          (sync_entry_val st.mgr.sync_level) ∧
      st1.gpio_writes =
        ((l ++ [({ gpio := gpio, period_ms := pd_ms, remaining_ms := d, level := false,
                   stop_level := sl, priority := prio, tmr_blinker := none } : nblink_t)]).map
          (fun e => (e.gpio, st.mgr.sync_level))).reverse ++ w := by
  obtain ⟨hnd, hlen, hper⟩ := hinv
  unfold nblk_sync_start at hrun
  by_cases hs : st.mgr.smpr_list_modify = false
  · rw [if_pos hs] at hrun; cases hrun
  rw [if_neg hs] at hrun
  by_cases hdl : st.mgr.deleting = true
  · rw [if_pos hdl] at hrun; cases hrun
  rw [if_neg hdl] at hrun
  have hlive : st.mgr.deleting = false := by
    cases hb : st.mgr.deleting
    · rfl
    · exact absurd hb hdl
  by_cases hpd : pd_ms = 0
  · subst hpd
    simp [sync_normalize_dr] at hrun
  have hpos : 0 < pd_ms := by omega
  obtain ⟨d, hd⟩ := normalize_ok pd_ms dr_ms hpos
  rw [hd] at hrun
  simp only [] at hrun
  by_cases h1 : pd_ms < NBLK_MINIMUM_PERIOD tick
  · rw [if_pos h1] at hrun; cases hrun
  rw [if_neg h1] at hrun
  by_cases ht0 : st.mgr.sync_tbase_ms = 0
  · rw [if_pos ht0] at hrun; cases hrun
  rw [if_neg ht0] at hrun
  by_cases h2 : pd_ms % st.mgr.sync_tbase_ms ≠ 0
  · rw [if_pos h2] at hrun; cases hrun
  rw [if_neg h2, if_neg hs] at hrun
  rcases registry_split gpio st.mgr.nblk_list with h | ⟨pre, e, post, hsp, hpre, he⟩
  · have hidx : get_nblk_idx_in_list_s st.mgr gpio = UINT8_MAX := idx_absent gpio _ h
    rw [hidx] at hrun
    simp only [ne_eq, not_true_eq_false, if_false] at hrun
    obtain ⟨hlt, hst1⟩ := sync_insert_absent_post st st1 gpio pd_ms d sl prio h hlen hper hpos
      hlive hrun
    refine ⟨d, st.mgr.nblk_list, st.gpio_writes, hd, hpos, h, hlt,
      (filter_other_absent gpio _ h).symm, ?_, ?_, ?_⟩
    · rw [hst1]
    · rw [hst1]
    · rw [hst1]
  · obtain ⟨hidx, hlt, hget⟩ := idx_s_split st gpio pre e post hsp hpre he hlen
    have hdel := del_s_split st gpio pre e post hsp hpre he hlen
    have hfree : ∀ x ∈ pre ++ post, x.gpio ≠ gpio := nodup_split gpio pre e post (hsp ▸ hnd) he
    have hfilter : pre ++ post = st.mgr.nblk_list.filter (fun e => decide (e.gpio ≠ gpio)) := by
      rw [hsp, filter_other_split gpio pre e post hfree he]
    have hlen2 : (pre ++ post).length ≤ 255 := by
      rw [hsp] at hlen
      simp only [List.length_append, List.length_cons] at hlen
      simp only [List.length_append]
      omega
    have hper2 : ∀ x ∈ pre ++ post, 0 < x.period_ms := by
      intro x hx
      apply hper x
      rw [hsp]
      rcases List.mem_append.mp hx with h3 | h3
      · exact List.mem_append_left _ h3
      · exact List.mem_append_right _ (List.mem_cons_of_mem _ h3)
    simp only [hidx, hlt, ne_eq, not_false_eq_true, if_true, hget, hdel] at hrun
    have hfin : nblk_sync_start_insert
        { mgr := { st.mgr with nblk_list := pre ++ post },
          gpio_writes := gpio_set_level st.gpio_writes gpio e.stop_level }
        gpio pd_ms d sl prio = .ok (true, st1) := by
      by_cases h5 : prio > e.priority
      · rw [if_pos h5] at hrun; exact hrun
      · rw [if_neg h5] at hrun
        by_cases h6 : prio = e.priority ∧ d > e.remaining_ms
        · rw [if_pos h6] at hrun; exact hrun
        · rw [if_neg h6] at hrun; cases hrun
    obtain ⟨hlt2, hst1⟩ := sync_insert_absent_post
      { mgr := { st.mgr with nblk_list := pre ++ post },
        gpio_writes := gpio_set_level st.gpio_writes gpio e.stop_level }
      st1 gpio pd_ms d sl prio hfree hlen2 hper2 hpos hlive hfin
    refine ⟨d, pre ++ post, gpio_set_level st.gpio_writes gpio e.stop_level, hd, hpos, hfree,
      hlt2, hfilter, ?_, ?_, ?_⟩
    · rw [hst1]
    · rw [hst1]
    · rw [hst1]

theorem sync_entry_val_remaining (lvl : Bool) (e : nblink_t) :
    (sync_entry_val lvl e).remaining_ms = round_up32 e.remaining_ms e.period_ms := rfl

theorem normalize_eq (pd_ms dr_ms : Nat) (h : 0 < pd_ms) :
    sync_normalize_dr pd_ms dr_ms =
      .ok (round_up32 (if dr_ms = NBLK_FOREVER then u32_sub dr_ms pd_ms else dr_ms) pd_ms) := by
  have h0 : pd_ms ≠ 0 := by omega
  unfold sync_normalize_dr round_up32
  simp only [if_neg h0]

/-- Without wrap-around the rounding yields the smallest multiple of the period
that is at least the given time. -/
theorem round_up32_fits (r p : Nat) (hp : 0 < p) (hr : r < 4294967296)
    (hfit : r % p = 0 ∨ r - r % p + p < 4294967296) :
    round_up32 r p % p = 0 ∧ r ≤ round_up32 r p ∧ round_up32 r p < r + p ∧
      round_up32 r p < 4294967296 := by
  have hc1 : r % p ≤ r := Nat.mod_le r p
  have hc2 : r % p < p := Nat.mod_lt r hp
  have hm : (r - r % p) % p = 0 := Nat.sub_mod_eq_zero_of_mod_eq (Nat.mod_mod r p).symm
  have hsub : u32_sub r (r % p) = r - r % p := by unfold u32_sub; omega
  unfold round_up32
  by_cases hc : r % p ≠ 0
  · rw [if_pos hc, hsub]
    have hlt : r - r % p + p < 4294967296 := by
      rcases hfit with h | h
      · exact absurd h hc
      · exact h
    have hadd : u32_add (r - r % p) p = r - r % p + p := by unfold u32_add; omega
    rw [hadd]
    refine ⟨?_, by omega, by omega, hlt⟩
    rw [Nat.add_mod_right]; exact hm
  · rw [if_neg hc, hsub]
    have h0 : r % p = 0 := by omega
    rw [h0]
    exact ⟨by simpa using h0, by omega, by omega, by omega⟩

theorem multiple_ge (m k p r : Nat) (hm : m % p = 0) (hk : k % p = 0)
    (hmr : m < r + p) (hrk : r ≤ k) : m ≤ k := by
  by_contra hlt
  have hlt : k < m := by omega
  obtain ⟨a, ha⟩ := Nat.dvd_of_mod_eq_zero hm
  obtain ⟨b, hb⟩ := Nat.dvd_of_mod_eq_zero hk
  subst ha hb
  have hab : b < a := Nat.lt_of_mul_lt_mul_left hlt
  have : p * (b + 1) ≤ p * a := Nat.mul_le_mul_left p hab
  rw [Nat.mul_add, Nat.mul_one] at this
  omega

/-- After wrap-around or not, a normalised duration is a multiple of the period
or lies below it. -/
theorem round_up32_shape (r p : Nat) (hp : 0 < p) (hr : r < 4294967296) :
    round_up32 r p < 4294967296 ∧ (round_up32 r p % p = 0 ∨ round_up32 r p < p) := by
  by_cases hfit : r % p = 0 ∨ r - r % p + p < 4294967296
  · obtain ⟨h1, _, _, h4⟩ := round_up32_fits r p hp hr hfit
    exact ⟨h4, Or.inl h1⟩
  · have hc1 : r % p ≤ r := Nat.mod_le r p
    have hc : r % p ≠ 0 := fun h => hfit (Or.inl h)
    have hge : ¬ r - r % p + p < 4294967296 := fun h => hfit (Or.inr h)
    have hsub : u32_sub r (r % p) = r - r % p := by unfold u32_sub; omega
    unfold round_up32
    rw [if_pos hc, hsub]
    unfold u32_add
    constructor
    · omega
    · right; omega

/-- Re-aligning a time that is already a multiple of the period, or lies below
the period, never wraps. -/
theorem round_up32_again (d p : Nat) (hp : 0 < p) (hp32 : p < 4294967296) (hd : d < 4294967296)
    (h : d % p = 0 ∨ d < p) : round_up32 d p % p = 0 := by
  apply (round_up32_fits d p hp hd ?_).1
  rcases h with h | h
  · exact Or.inl h
  · right
    rw [Nat.mod_eq_of_lt h]
    omega

theorem get_level_uniform (w1 w2 : List (Int × Bool)) (gpio : Int) (v : Bool)
    (hall : ∀ p ∈ w1, p.2 = v) (hex : ∃ p ∈ w1, p.1 = gpio) :
    gpio_get_level (w1 ++ w2) gpio = some v := by
  induction w1 with
  | nil => obtain ⟨p, hp, _⟩ := hex; cases hp
  | cons q rest ih =>
    obtain ⟨g, b⟩ := q
    have hb : b = v := hall (g, b) (List.mem_cons_self _ _)
    simp only [List.cons_append, gpio_get_level]
    by_cases hg : g = gpio
    · rw [if_pos hg, hb]
    · rw [if_neg hg]
      apply ih (fun p hp => hall p (List.mem_cons_of_mem _ hp))
      obtain ⟨p, hp, hpg⟩ := hex
      rcases List.mem_cons.mp hp with h1 | h1
      · rw [h1] at hpg; exact absurd hpg hg
      · exact ⟨p, h1, hpg⟩

/-- The level half of the join property holds on every well-formed group: after an
accepted `nblk_sync_start` every member's level field and output equal the
group's sync level. -/
theorem sync_join_levels (tick : Nat) (st st1 : sync_state) (gpio : Int) (pd_ms dr_ms : Nat)
    (sl : Bool) (prio : Nat) (hinv : reg_inv st.mgr.nblk_list)
    (hrun : nblk_sync_start tick st gpio pd_ms dr_ms sl prio = .ok (true, st1)) :
    ∀ e ∈ st1.mgr.nblk_list, e.level = st1.mgr.sync_level ∧
      gpio_get_level st1.gpio_writes e.gpio = some st1.mgr.sync_level := by
  obtain ⟨d, l, w, _, _, _, _, _, hlvl, hlist, hw⟩ :=
    sync_start_accept_shape tick st st1 gpio pd_ms dr_ms sl prio hinv hrun
  intro e he
  rw [hlist] at he
  obtain ⟨x, hx, hxe⟩ := List.mem_map.mp he
  rw [hlvl]
  constructor
  · rw [← hxe]; rfl
  · rw [hw]
    apply get_level_uniform
    · intro p hp
      rw [List.mem_reverse] at hp
      obtain ⟨y, _, hy⟩ := List.mem_map.mp hp
      rw [← hy]
    · refine ⟨(x.gpio, st.mgr.sync_level), ?_, ?_⟩
      · rw [List.mem_reverse]
        exact List.mem_map_of_mem _ hx
      · rw [← hxe]; rfl

/-- The alignment half of the join property holds as long as no member's
re-alignment exceeds 32 bits. -/
theorem sync_join_aligned (tick : Nat) (st st1 : sync_state) (gpio : Int) (pd_ms dr_ms : Nat)
    (sl : Bool) (prio : Nat) (hinv : reg_inv st.mgr.nblk_list)
    (hpd32 : pd_ms < 4294967296) (hdr32 : dr_ms < 4294967296)
    (hfit : ∀ x ∈ st.mgr.nblk_list, x.remaining_ms < 4294967296 ∧
      (x.remaining_ms % x.period_ms = 0 ∨
        x.remaining_ms - x.remaining_ms % x.period_ms + x.period_ms < 4294967296))
    (hrun : nblk_sync_start tick st gpio pd_ms dr_ms sl prio = .ok (true, st1)) :
    ∀ e ∈ st1.mgr.nblk_list, e.remaining_ms % e.period_ms = 0 := by
  obtain ⟨d, l, w, hd, hpos, _, _, hl, _, hlist, _⟩ :=
    sync_start_accept_shape tick st st1 gpio pd_ms dr_ms sl prio hinv hrun
  intro e he
  rw [hlist] at he
  obtain ⟨x, hx, hxe⟩ := List.mem_map.mp he
  rw [← hxe]
  show round_up32 x.remaining_ms x.period_ms % x.period_ms = 0
  rcases List.mem_append.mp hx with h1 | h1
  · have hmem : x ∈ st.mgr.nblk_list := by
      rw [hl] at h1
      exact (List.mem_filter.mp h1).1
    obtain ⟨hx32, hxfit⟩ := hfit x hmem
    exact (round_up32_fits _ _ (hinv.2.2 x hmem) hx32 hxfit).1
  · rw [List.mem_singleton.mp h1]
    show round_up32 d pd_ms % pd_ms = 0
    rw [normalize_eq pd_ms dr_ms hpos] at hd
    injection hd with hd
    have hr32 : (if dr_ms = NBLK_FOREVER then u32_sub dr_ms pd_ms else dr_ms) < 4294967296 := by
      by_cases hf : dr_ms = NBLK_FOREVER
      · rw [if_pos hf]; unfold u32_sub; omega
      · rw [if_neg hf]; exact hdr32
    obtain ⟨h32, hsh⟩ := round_up32_shape _ pd_ms hpos hr32
    rw [hd] at h32 hsh
    exact round_up32_again d pd_ms hpos hpd32 h32 hsh

/-- The rounding half of the duration property holds as long as the rounded
duration fits in 32 bits: the new entry then holds the smallest multiple of the
period that is at least the requested duration. -/
theorem sync_start_round_up (tick : Nat) (st st1 : sync_state) (gpio : Int) (pd_ms dr_ms : Nat)
    (sl : Bool) (prio : Nat) (hinv : reg_inv st.mgr.nblk_list)
    (hdr32 : dr_ms < 4294967296) (hnf : dr_ms ≠ NBLK_FOREVER)
    (hfit : dr_ms % pd_ms = 0 ∨ dr_ms - dr_ms % pd_ms + pd_ms < 4294967296)
    (hrun : nblk_sync_start tick st gpio pd_ms dr_ms sl prio = .ok (true, st1)) :
    ∃ e, find_entry st1.mgr.nblk_list gpio = some e ∧ e.period_ms = pd_ms ∧
      e.remaining_ms % pd_ms = 0 ∧ dr_ms ≤ e.remaining_ms ∧
      ∀ k, k % pd_ms = 0 → dr_ms ≤ k → e.remaining_ms ≤ k := by
  obtain ⟨d, l, w, hd, hpos, hfree, _, _, _, hlist, _⟩ :=
    sync_start_accept_shape tick st st1 gpio pd_ms dr_ms sl prio hinv hrun
  rw [normalize_eq pd_ms dr_ms hpos, if_neg hnf] at hd
  injection hd with hd
  obtain ⟨hd1, hd2, hd3, hd4⟩ := round_up32_fits dr_ms pd_ms hpos hdr32 hfit
  rw [hd] at hd1 hd2 hd3 hd4
  obtain ⟨hm1, hm2, hm3, _⟩ := round_up32_fits d pd_ms hpos hd4 (Or.inl hd1)
  have hle : round_up32 d pd_ms ≤ d := multiple_ge _ d pd_ms d hm1 hd1 hm3 (Nat.le_refl d)
  have heq : round_up32 d pd_ms = d := Nat.le_antisymm hle hm2
  refine ⟨sync_entry_val st.mgr.sync_level
      { gpio := gpio, period_ms := pd_ms, remaining_ms := d, level := false,
        stop_level := sl, priority := prio, tmr_blinker := none }, ?_, rfl, ?_, ?_, ?_⟩
  · rw [hlist, List.map_append, List.map_cons, List.map_nil]
    apply find_entry_split gpio _ _ [] _ rfl
    intro x hx
    obtain ⟨y, hy, hyx⟩ := List.mem_map.mp hx
    rw [← hyx]
    exact hfree y hy
  · show round_up32 d pd_ms % pd_ms = 0
    rw [heq]; exact hd1
  · show dr_ms ≤ round_up32 d pd_ms
    rw [heq]; exact hd2
  · intro k hk hle2
    show round_up32 d pd_ms ≤ k
    rw [heq]
    exact multiple_ge d k pd_ms dr_ms hd1 hk hd3 hle2

/-- C16: for every non-zero 32-bit period the normalisation of `NBLK_FOREVER` in
`nblk_sync_start` never wraps: `pd_ms` is at most the sentinel, the correction is
at most the shortened duration, and adding a period back stays within 32 bits,
so the result is the exact arithmetic value.  That value is the largest multiple
of `pd_ms` strictly below `UINT32_MAX`, hence different from the sentinel. -/
theorem forever_normalisation (pd_ms : Nat) (hpos : 0 < pd_ms) (hmax : pd_ms ≤ UINT32_MAX) :
    ∃ m, sync_normalize_dr pd_ms NBLK_FOREVER = .ok m ∧
      pd_ms ≤ NBLK_FOREVER ∧
      (NBLK_FOREVER - pd_ms) % pd_ms ≤ NBLK_FOREVER - pd_ms ∧
      ((NBLK_FOREVER - pd_ms) % pd_ms ≠ 0 →
        NBLK_FOREVER - pd_ms - (NBLK_FOREVER - pd_ms) % pd_ms + pd_ms ≤ UINT32_MAX) ∧
      m = NBLK_FOREVER - pd_ms - (NBLK_FOREVER - pd_ms) % pd_ms +
          (if (NBLK_FOREVER - pd_ms) % pd_ms ≠ 0 then pd_ms else 0) ∧
      m % pd_ms = 0 ∧ m < UINT32_MAX ∧
      (∀ k, k % pd_ms = 0 → k < UINT32_MAX → k ≤ m) ∧
      m ≠ NBLK_FOREVER := by
  have hF : NBLK_FOREVER = 4294967295 := rfl
  have hU : UINT32_MAX = 4294967295 := rfl
  rw [hU] at hmax
  have hsub : u32_sub NBLK_FOREVER pd_ms = NBLK_FOREVER - pd_ms := by
    rw [hF]; unfold u32_sub; omega
  have hx32 : NBLK_FOREVER - pd_ms < 4294967296 := by rw [hF]; omega
  have hc1 : (NBLK_FOREVER - pd_ms) % pd_ms ≤ NBLK_FOREVER - pd_ms := Nat.mod_le _ _
  have hc2 : (NBLK_FOREVER - pd_ms) % pd_ms < pd_ms := Nat.mod_lt _ hpos
  have hfit : (NBLK_FOREVER - pd_ms) % pd_ms = 0 ∨
      NBLK_FOREVER - pd_ms - (NBLK_FOREVER - pd_ms) % pd_ms + pd_ms < 4294967296 := by
    by_cases hc : (NBLK_FOREVER - pd_ms) % pd_ms = 0
    · exact Or.inl hc
    · right; rw [hF] at hc hc1 hc2 ⊢; omega
  obtain ⟨h1, h2, h3, h4⟩ := round_up32_fits (NBLK_FOREVER - pd_ms) pd_ms hpos hx32 hfit
  refine ⟨round_up32 (NBLK_FOREVER - pd_ms) pd_ms, ?_, by rw [hF]; omega, hc1, ?_, ?_, h1, ?_,
    ?_, ?_⟩
  · rw [normalize_eq pd_ms NBLK_FOREVER hpos, if_pos rfl, hsub]
  · intro hc
    rw [hU]
    rw [hF] at hc hc1 hc2 ⊢
    omega
  · have hsub2 : u32_sub (NBLK_FOREVER - pd_ms) ((NBLK_FOREVER - pd_ms) % pd_ms) =
        NBLK_FOREVER - pd_ms - (NBLK_FOREVER - pd_ms) % pd_ms := by
      rw [hF] at hc1 hc2 ⊢; unfold u32_sub; omega
    unfold round_up32
    by_cases hc : (NBLK_FOREVER - pd_ms) % pd_ms ≠ 0
    · rw [if_pos hc, if_pos hc, hsub2]
      unfold u32_add
      rw [hF] at hc hc1 hc2 ⊢
      omega
    · rw [if_neg hc, if_neg hc, hsub2]
      rfl
  · rw [hU]; rw [hF] at h3 ⊢; omega
  · intro k hk hlt
    apply multiple_ge k _ pd_ms (NBLK_FOREVER - pd_ms) hk h1 ?_ h2
    rw [hU] at hlt
    rw [hF]
    omega
  · rw [hF] at h3 ⊢; omega

theorem forever_normalisation_witness :
    (0 < 2000 ∧ 2000 ≤ UINT32_MAX) ∧
    ∃ m, sync_normalize_dr 2000 NBLK_FOREVER = .ok m ∧ m % 2000 = 0 ∧ m < UINT32_MAX ∧
      m ≠ NBLK_FOREVER :=
  ⟨⟨by decide, by decide⟩,
   (forever_normalisation 2000 (by decide) (by decide)).imp
     (fun _ h => ⟨h.1, h.2.2.2.2.2.1, h.2.2.2.2.2.2.1, h.2.2.2.2.2.2.2.2⟩)⟩

/-- C15: one group tick leaves an expired member behind.  Outputs 1 and 2 run in
a 1000 ms group with period and duration 1000 ms and stop level 1; on the second
tick both reach 0, the removal loop deletes output 1 at index 0 and then moves on
to index 1, past output 2 that has just moved into index 0.  Output 2 stays in
the registry with 0 ms remaining, below its half period of 500 ms, and its output
is not at its stop level. -/
theorem tick_skips_expired :
    ∃ st st1,
      sync_run 1 (nblk_sync_create_mgr 1 sync_zero 1000 false).2
        [.start 1 1000 1000 true 0, .start 2 1000 1000 true 0, .tick] = .ok st ∧
      nblk_sync_cb st = .ok st1 ∧
      st1.mgr.nblk_list.map (fun e => (e.gpio, e.period_ms, e.remaining_ms, e.stop_level)) =
        [(2, 1000, 0, true)] ∧
      (∃ e ∈ st1.mgr.nblk_list, e.period_ms / 2 > e.remaining_ms) ∧
      gpio_get_level st1.gpio_writes 2 = some false :=
  ⟨_, _, rfl, rfl, rfl,
   ⟨{ gpio := 2, period_ms := 1000, remaining_ms := 0, level := false, stop_level := true,
      priority := 0, tmr_blinker := none }, List.mem_cons_self _ _, by decide⟩, rfl⟩

/-- C19: a manager that was deleted and is created again is not usable.
`nblk_sync_create_mgr` returns true and sets registry, timebase and sync level,
but leaves `deleting` set, so `nblk_sync_start` with a valid period that is a
multiple of the timebase returns false. -/
theorem recreated_manager_rejects :
    ∃ st1 st2,
      nblk_sync_delete_mgr (nblk_sync_create_mgr 1 sync_zero 1000 false).2 = .ok st1 ∧
      nblk_sync_create_mgr 1 st1 2000 false = (true, st2) ∧
      st2.mgr.nblk_list = [] ∧ st2.mgr.sync_tbase_ms = 2000 ∧ st2.mgr.deleting = true ∧
      NBLK_MINIMUM_PERIOD 1 ≤ 2000 ∧ 2000 % st2.mgr.sync_tbase_ms = 0 ∧
      nblk_sync_start 1 st2 21 2000 2000 false 0 = .ok (false, st2) :=
  ⟨_, _, rfl, rfl, rfl, rfl, rfl, by decide, rfl, rfl⟩

/-- C20: a modulo with a zero divisor is evaluated.  On a freshly created group
`nblk_sync_start` with `pd_ms = 0` computes `dr_ms % pd_ms` (nblink.c:333) before
the period is checked against `NBLK_MINIMUM_PERIOD` (nblink.c:337). -/
theorem sync_start_divides_by_zero :
    (nblk_sync_create_mgr 1 sync_zero 1000 false).1 = true ∧
    sync_normalize_dr 0 1000 = .error .div_by_zero ∧
    nblk_sync_start 1 (nblk_sync_create_mgr 1 sync_zero 1000 false).2 21 0 1000 false 0 =
      .error .div_by_zero :=
  ⟨rfl, rfl, rfl⟩

theorem nblk_ticks_succ (gpio : Int) (n : Nat) (s : nblk_state) :
    nblk_ticks gpio (n + 1) s =
      match nblk_ticks gpio n s with
      | .error f => .error f
      | .ok s1 => nblk_cb s1 gpio := by
  induction n generalizing s with
  | zero =>
    simp only [nblk_ticks]
    cases nblk_cb s gpio <;> rfl
  | succ m ih =>
    rw [nblk_ticks]
    cases h : nblk_cb s gpio with
    | error f => simp only [nblk_ticks, h]
    | ok s1 =>
      simp only []
      rw [ih s1]
      conv => rhs; rw [nblk_ticks, h]

/-- The state after `n` ticks of an entry that sits last in the registry, starts
at level 0 and does not expire during these ticks: `r j` is its remaining time
after `j` ticks. -/
theorem ticks_toggle (s : nblk_state) (gpio : Int) (l : List nblink_t) (e : nblink_t)
    (r : Nat → Nat) (n : Nat) (hl : s.nblk_list = l ++ [e])
    (hfree : ∀ x ∈ l, x.gpio ≠ gpio) (he : e.gpio = gpio) (hlen : l.length < 255)
    (hlvl : e.level = false) (h0 : r 0 = e.remaining_ms)
    (hstep : ∀ j, j < n → e.period_ms / 2 < r j ∧
      r (j + 1) = if r j ≠ NBLK_FOREVER then u32_sub (r j) (e.period_ms / 2) else r j) :
    nblk_ticks gpio n s =
      .ok { s with
        nblk_list := l ++ [{ e with remaining_ms := r n, level := decide (n % 2 = 1) }],
        gpio_writes := toggle_writes gpio n ++ s.gpio_writes } := by
  induction n with
  | zero =>
    simp only [nblk_ticks, toggle_writes, List.nil_append]
    congr 1
    cases s with
    | mk a b c =>
      simp only at hl
      cases e
      simp only at hlvl h0
      simp [hl, hlvl, h0]
  | succ m ih =>
    have hprev := ih (fun j hj => hstep j (Nat.lt_succ_of_lt hj))
    obtain ⟨hc, hr⟩ := hstep m (Nat.lt_succ_self m)
    rw [nblk_ticks_succ, hprev]
    simp only []
    have hlen1 : (l ++ [({ e with remaining_ms := r m, level := decide (m % 2 = 1) } : nblink_t)]).length
        ≤ 255 := by
      simp only [List.length_append, List.length_cons, List.length_nil]
      omega
    rw [nblk_cb_toggle _ gpio l
      ({ e with remaining_ms := r m, level := decide (m % 2 = 1) } : nblink_t) [] rfl hfree he
      hlen1 hc]
    simp only [← hr]
    have hpar : (if decide (m % 2 = 1) = true then false else true) = decide ((m + 1) % 2 = 1) := by
      rcases Nat.mod_two_eq_zero_or_one m with h | h
      · have h2 : (m + 1) % 2 = 1 := by omega
        simp [h, h2]
      · have h2 : (m + 1) % 2 = 0 := by omega
        simp [h, h2]
    have hpar2 : decide (m % 2 = 0) = decide ((m + 1) % 2 = 1) := by
      rcases Nat.mod_two_eq_zero_or_one m with h | h
      · have h2 : (m + 1) % 2 = 1 := by omega
        simp [h, h2]
      · have h2 : (m + 1) % 2 = 0 := by omega
        simp [h, h2]
    simp only [hpar, toggle_writes, gpio_set_level, hpar2, List.cons_append]

/-- An entry started by `nblk_start` with `dr_ms = NBLK_FOREVER` (32-bit period)
and ticked `n` times in a row: the whole state after these ticks. -/
theorem forever_consecutive_ticks (tick : Nat) (s s1 : nblk_state) (gpio : Int) (pd_ms : Nat)
    (sl : Bool) (prio : Nat) (n : Nat) (hinv : reg_inv s.nblk_list)
    (hpd : pd_ms ≤ UINT32_MAX)
    (hrun : nblk_start tick s gpio pd_ms NBLK_FOREVER sl prio = .ok (true, s1)) :
    ∃ sn, nblk_ticks gpio n s1 = .ok sn ∧
      sn.nblk_list = s.nblk_list.filter (fun e => decide (e.gpio ≠ gpio)) ++
        [{ gpio := gpio, period_ms := pd_ms, remaining_ms := NBLK_FOREVER,
           level := decide (n % 2 = 1), stop_level := sl, priority := prio,
           tmr_blinker := some ((pd_ms / 2) * 1000) }] ∧
      find_entry sn.nblk_list gpio =
        some { gpio := gpio, period_ms := pd_ms, remaining_ms := NBLK_FOREVER,
               level := decide (n % 2 = 1), stop_level := sl, priority := prio,
               tmr_blinker := some ((pd_ms / 2) * 1000) } ∧
      sn.gpio_writes = toggle_writes gpio n ++ s1.gpio_writes := by
  obtain ⟨l, hfree, hlt, hfilt, hlist⟩ :=
    start_accept_shape tick s s1 gpio pd_ms NBLK_FOREVER sl prio hinv hrun
  have hF : NBLK_FOREVER = 4294967295 := rfl
  have hU : UINT32_MAX = 4294967295 := rfl
  have hrun2 := ticks_toggle s1 gpio l _ (fun _ => NBLK_FOREVER) n hlist hfree rfl hlt rfl rfl
    (by
      intro j _
      refine ⟨?_, by simp⟩
      show pd_ms / 2 < NBLK_FOREVER
      rw [hF]; rw [hU] at hpd; omega)
  refine ⟨_, hrun2, ?_, ?_, rfl⟩
  · rw [← hfilt]
  · exact find_entry_split gpio l _ [] hfree rfl

/-- An entry started by `nblk_start` with an even period and `dr_ms = k * pd_ms`
and ticked in a row: the whole state after each of the first `2k - 1` ticks and
after tick `2k`. -/
theorem expiry_consecutive_ticks (tick : Nat) (s s1 : nblk_state) (gpio : Int) (pd_ms k : Nat) (sl : Bool)
    (prio : Nat) (hinv : reg_inv s.nblk_list) (hmin : 0 < NBLK_MINIMUM_PERIOD tick)
    (heven : pd_ms % 2 = 0) (hk : 1 ≤ k) (hfit : k * pd_ms ≤ UINT32_MAX)
    (hrun : nblk_start tick s gpio pd_ms (k * pd_ms) sl prio = .ok (true, s1)) :
    (∀ j, j ≤ 2 * k - 1 →
      j * (pd_ms / 2) + pd_ms / 2 ≤ k * pd_ms ∧
      nblk_ticks gpio j s1 =
        .ok { s1 with
          nblk_list := s.nblk_list.filter (fun e => decide (e.gpio ≠ gpio)) ++
            [{ gpio := gpio, period_ms := pd_ms, remaining_ms := k * pd_ms - j * (pd_ms / 2),
               level := decide (j % 2 = 1), stop_level := sl, priority := prio,
               tmr_blinker := some ((pd_ms / 2) * 1000) }],
          gpio_writes := toggle_writes gpio j ++ s1.gpio_writes }) ∧
    nblk_ticks gpio (2 * k) s1 =
      .ok { s1 with
        nblk_list := s.nblk_list.filter (fun e => decide (e.gpio ≠ gpio)),
        gpio_writes := (gpio, sl) :: (toggle_writes gpio (2 * k - 1) ++ s1.gpio_writes) } := by
  have hge := start_accept_period tick s s1 gpio pd_ms (k * pd_ms) sl prio hrun
  have h2 := min_period_ge_two tick hmin
  obtain ⟨l, hfree, hlt, hfilt, hlist⟩ :=
    start_accept_shape tick s s1 gpio pd_ms (k * pd_ms) sl prio hinv hrun
  have hF : NBLK_FOREVER = 4294967295 := rfl
  have hU : UINT32_MAX = 4294967295 := rfl
  rw [hU] at hfit
  have hD : k * pd_ms = (2 * k) * (pd_ms / 2) := by
    have : pd_ms = 2 * (pd_ms / 2) := by omega
    calc k * pd_ms = k * (2 * (pd_ms / 2)) := by rw [← this]
      _ = (2 * k) * (pd_ms / 2) := by ring
  have hbound : ∀ j, j ≤ 2 * k - 1 → j * (pd_ms / 2) + pd_ms / 2 ≤ k * pd_ms := by
    intro j hj
    have h1 : (j + 1) * (pd_ms / 2) ≤ (2 * k) * (pd_ms / 2) :=
      Nat.mul_le_mul_right _ (by omega)
    rw [Nat.add_mul, Nat.one_mul] at h1
    rw [hD]; exact h1
  have hbound2 : ∀ j, j < 2 * k - 1 → j * (pd_ms / 2) + 2 * (pd_ms / 2) ≤ k * pd_ms := by
    intro j hj
    have h1 : (j + 2) * (pd_ms / 2) ≤ (2 * k) * (pd_ms / 2) :=
      Nat.mul_le_mul_right _ (by omega)
    rw [Nat.add_mul] at h1
    rw [hD]; exact h1
  have hticks : ∀ j, j ≤ 2 * k - 1 →
      nblk_ticks gpio j s1 =
        .ok { s1 with
          nblk_list := l ++
            [{ gpio := gpio, period_ms := pd_ms, remaining_ms := k * pd_ms - j * (pd_ms / 2),
               level := decide (j % 2 = 1), stop_level := sl, priority := prio,
               tmr_blinker := some ((pd_ms / 2) * 1000) }],
          gpio_writes := toggle_writes gpio j ++ s1.gpio_writes } := by
    intro j hj
    refine ticks_toggle s1 gpio l _ (fun i => k * pd_ms - i * (pd_ms / 2)) j hlist hfree rfl hlt
      rfl (by simp) ?_
    intro i hi
    have hb := hbound2 i (by omega)
    have hsucc : (i + 1) * (pd_ms / 2) = i * (pd_ms / 2) + pd_ms / 2 := by
      rw [Nat.add_mul, Nat.one_mul]
    show pd_ms / 2 < k * pd_ms - i * (pd_ms / 2) ∧
      k * pd_ms - (i + 1) * (pd_ms / 2) =
        if k * pd_ms - i * (pd_ms / 2) ≠ NBLK_FOREVER
        then u32_sub (k * pd_ms - i * (pd_ms / 2)) (pd_ms / 2)
        else k * pd_ms - i * (pd_ms / 2)
    have hne : k * pd_ms - i * (pd_ms / 2) ≠ NBLK_FOREVER := by
      rw [hF]
      intro hcontra
      have : k * pd_ms % 2 = 0 := by
        rw [hD, Nat.mul_assoc]; exact Nat.mul_mod_right _ _
      by_cases hi0 : i * (pd_ms / 2) = 0
      · omega
      · omega
    rw [if_pos hne, hsucc]
    unfold u32_sub
    constructor
    · omega
    · omega
  constructor
  · intro j hj
    refine ⟨hbound j hj, ?_⟩
    rw [hticks j hj, ← hfilt]
  · have hlast := hticks (2 * k - 1) (Nat.le_refl _)
    have h2k : 2 * k = (2 * k - 1) + 1 := by omega
    have hrem : k * pd_ms - (2 * k - 1) * (pd_ms / 2) = pd_ms / 2 := by
      have h1 : (2 * k - 1 + 1) * (pd_ms / 2) = (2 * k) * (pd_ms / 2) := by rw [← h2k]
      rw [Nat.add_mul, Nat.one_mul] at h1
      rw [hD]; omega
    conv => lhs; rw [h2k]
    rw [nblk_ticks_succ, hlast]
    simp only []
    have hlen1 : ∀ e : nblink_t, (l ++ [e]).length ≤ 255 := by
      intro e
      simp only [List.length_append, List.length_cons, List.length_nil]
      omega
    rw [nblk_cb_expire _ gpio l _ [] rfl hfree rfl (hlen1 _)
      (show ¬ pd_ms / 2 < k * pd_ms - (2 * k - 1) * (pd_ms / 2) by rw [hrem]; omega)]
    simp only [gpio_set_level, List.append_nil, ← hfilt]

theorem add_writes (s s1 : nblk_state) (nblk : nblink_t)
    (h : add_nblk_to_list s nblk = .ok s1) : s1.gpio_writes = s.gpio_writes := by
  unfold add_nblk_to_list at h
  split at h
  · split at h
    · cases h
    · injection h with h; rw [← h]
  · injection h with h; rw [← h]

theorem insert_writes (s s1 : nblk_state) (gpio : Int) (pd_ms dr_ms : Nat) (sl : Bool)
    (prio : Nat) (r : Bool)
    (h : nblk_start_insert s gpio pd_ms dr_ms sl prio = .ok (r, s1)) :
    s1.gpio_writes = s.gpio_writes := by
  unfold nblk_start_insert at h
  simp only [] at h
  split at h
  · cases h
  · rename_i s2 hadd
    have hw := add_writes _ _ _ hadd
    split at h
    · cases h
    · injection h with h
      cases h
      exact hw

/-- What an accepted `nblk_start` requires of its arguments and writes to the
outputs: at most the stop level of the replaced entry, on the started output. -/
theorem start_accept_writes (tick : Nat) (s s1 : nblk_state) (gpio : Int) (pd_ms dr_ms : Nat)
    (sl : Bool) (prio : Nat) (hinv : reg_inv s.nblk_list)
    (hrun : nblk_start tick s gpio pd_ms dr_ms sl prio = .ok (true, s1)) :
    pd_ms ≠ 0 ∧ (dr_ms % pd_ms = 0 ∨ dr_ms = NBLK_FOREVER) ∧
      (s1.gpio_writes = s.gpio_writes ∨
        ∃ e ∈ s.nblk_list, e.gpio = gpio ∧
          s1.gpio_writes = (gpio, e.stop_level) :: s.gpio_writes) := by
  obtain ⟨hnd, hlen, _⟩ := hinv
  unfold nblk_start at hrun
  by_cases h1 : pd_ms < NBLK_MINIMUM_PERIOD tick
  · rw [if_pos h1] at hrun; cases hrun
  rw [if_neg h1] at hrun
  by_cases h0 : pd_ms = 0
  · rw [if_pos h0] at hrun; cases hrun
  rw [if_neg h0] at hrun
  by_cases h2 : dr_ms % pd_ms ≠ 0 ∧ dr_ms ≠ NBLK_FOREVER
  · rw [if_pos h2] at hrun; cases hrun
  rw [if_neg h2] at hrun
  have h2' : dr_ms % pd_ms = 0 ∨ dr_ms = NBLK_FOREVER := by
    by_cases h3 : dr_ms % pd_ms = 0
    · exact Or.inl h3
    · by_cases h4 : dr_ms = NBLK_FOREVER
      · exact Or.inr h4
      · exact absurd ⟨h3, h4⟩ h2
  refine ⟨h0, h2', ?_⟩
  simp only [] at hrun
  rcases registry_split gpio s.nblk_list with h | ⟨pre, e, post, hl, hpre, he⟩
  · rw [idx_absent gpio s.nblk_list h] at hrun
    simp only [ne_eq, not_true_eq_false, if_false] at hrun
    left
    exact insert_writes { s with smpr_list_modify := true } s1 gpio pd_ms dr_ms sl prio true hrun
  · have hidx : get_nblk_idx_in_list s.nblk_list gpio = pre.length := by
      rw [hl]; exact idx_split gpio pre e post hpre he (hl ▸ hlen)
    have hlt : pre.length ≠ UINT8_MAX := by
      rw [hl] at hlen
      simp only [List.length_append, List.length_cons] at hlen
      unfold UINT8_MAX
      omega
    have hget : s.nblk_list[pre.length]? = some e := by rw [hl]; exact split_get pre e post
    have hdel := del_split { s with smpr_list_modify := true } gpio pre e post hl hpre he hlen
    have hmem : e ∈ s.nblk_list := by rw [hl]; simp
    simp only [hidx, hlt, ne_eq, not_false_eq_true, if_true, hget, hdel] at hrun
    right
    refine ⟨e, hmem, he, ?_⟩
    have hfin : ∀ h : nblk_start_insert
        { s with smpr_list_modify := true,
                 gpio_writes := gpio_set_level s.gpio_writes gpio e.stop_level,
                 nblk_list := pre ++ post } gpio pd_ms dr_ms sl prio = .ok (true, s1),
        s1.gpio_writes = (gpio, e.stop_level) :: s.gpio_writes := by
      intro h
      exact insert_writes _ s1 gpio pd_ms dr_ms sl prio true h
    by_cases h5 : prio > e.priority
    · rw [if_pos h5] at hrun
      exact hfin hrun
    · rw [if_neg h5] at hrun
      by_cases h6 : prio = e.priority ∧ dr_ms > e.remaining_ms
      · rw [if_pos h6] at hrun
        exact hfin hrun
      · rw [if_neg h6] at hrun; cases hrun

/-- The effect of `nblk_stop` on a well-formed registry. -/
theorem stop_effect (s s1 : nblk_state) (gpio : Int) (sl r : Bool) (hinv : reg_inv s.nblk_list)
    (hrun : nblk_stop s gpio sl = .ok (r, s1)) :
    s1 = s ∨
      ∃ e ∈ s.nblk_list, e.gpio = gpio ∧
        s1.nblk_list = s.nblk_list.filter (fun x => decide (x.gpio ≠ gpio)) ∧
        s1.gpio_writes = (gpio, sl) :: (gpio, e.stop_level) :: s.gpio_writes := by
  obtain ⟨hnd, hlen, _⟩ := hinv
  rcases registry_split gpio s.nblk_list with h | ⟨pre, e, post, hl, hpre, he⟩
  · rw [nblk_stop_absent s gpio sl h] at hrun
    injection hrun with h1
    exact Or.inl (congrArg Prod.snd h1).symm
  · by_cases hm : s.smpr_list_modify = true
    · rw [nblk_stop_split s gpio sl pre e post hl hpre he hlen hm] at hrun
      injection hrun with h1
      cases h1
      right
      refine ⟨e, by rw [hl]; simp, he, ?_, rfl⟩
      rw [hl, filter_other_split gpio pre e post (nodup_split gpio pre e post (hl ▸ hnd) he) he]
    · have hm' : s.smpr_list_modify = false := by
        cases hb : s.smpr_list_modify
        · rfl
        · exact absurd hb hm
      unfold nblk_stop at hrun
      rw [if_pos hm'] at hrun
      injection hrun with h1
      exact Or.inl (congrArg Prod.snd h1).symm

/-- The effect of one tick of the timer of an output on a well-formed registry:
the entry is toggled in place, or it is removed at its stop level. -/
theorem cb_effect (s s1 : nblk_state) (gpio : Int) (hinv : reg_inv s.nblk_list)
    (hrun : nblk_cb s gpio = .ok s1) :
    ∃ pre e post, s.nblk_list = pre ++ e :: post ∧ e.gpio = gpio ∧
      (∀ x ∈ pre ++ post, x.gpio ≠ gpio) ∧
      ((e.period_ms / 2 < e.remaining_ms ∧
        s1.nblk_list = pre ++
          { e with
            remaining_ms := if e.remaining_ms ≠ NBLK_FOREVER
              then u32_sub e.remaining_ms (e.period_ms / 2) else e.remaining_ms,
            level := if e.level then false else true } :: post ∧
        s1.gpio_writes = (gpio, if e.level then false else true) :: s.gpio_writes) ∨
       (¬ e.period_ms / 2 < e.remaining_ms ∧ s1.nblk_list = pre ++ post ∧
        s1.gpio_writes = (gpio, e.stop_level) :: s.gpio_writes)) := by
  obtain ⟨hnd, hlen, _⟩ := hinv
  rcases registry_split gpio s.nblk_list with h | ⟨pre, e, post, hl, hpre, he⟩
  · exfalso
    unfold nblk_cb at hrun
    simp only [idx_absent gpio s.nblk_list h] at hrun
    have hnone : s.nblk_list[UINT8_MAX]? = none := by
      apply List.getElem?_eq_none
      unfold UINT8_MAX
      exact hlen
    rw [hnone] at hrun
    cases hrun
  · refine ⟨pre, e, post, hl, he, nodup_split gpio pre e post (hl ▸ hnd) he, ?_⟩
    by_cases hc : e.period_ms / 2 < e.remaining_ms
    · left
      rw [nblk_cb_toggle s gpio pre e post hl hpre he hlen hc] at hrun
      injection hrun with h1
      rw [← h1]
      exact ⟨hc, rfl, rfl⟩
    · right
      rw [nblk_cb_expire s gpio pre e post hl hpre he hlen hc] at hrun
      injection hrun with h1
      rw [← h1]
      exact ⟨hc, rfl, rfl⟩

/-! ## The registry invariant is preserved -/

theorem reg_inv_nil : reg_inv [] := by
  refine ⟨by simp, by simp, ?_⟩
  intro e he; cases he

theorem reg_inv_filter (l : List nblink_t) (p : nblink_t → Bool) (h : reg_inv l) :
    reg_inv (l.filter p) := by
  obtain ⟨hnd, hlen, hper⟩ := h
  refine ⟨?_, ?_, ?_⟩
  · exact List.Nodup.sublist (List.Sublist.map _ (List.filter_sublist l)) hnd
  · exact Nat.le_trans (List.length_filter_le p l) hlen
  · intro e he
    exact hper e (List.mem_filter.mp he).1

theorem reg_inv_append (l : List nblink_t) (e : nblink_t) (h : reg_inv l)
    (hfree : ∀ x ∈ l, x.gpio ≠ e.gpio) (hlen : l.length < 255) (hp : 0 < e.period_ms) :
    reg_inv (l ++ [e]) := by
  obtain ⟨hnd, _, hper⟩ := h
  refine ⟨?_, ?_, ?_⟩
  · rw [List.map_append, List.map_cons, List.map_nil, List.nodup_append]
    refine ⟨hnd, by simp, ?_⟩
    intro g hg1 hg2
    rw [List.mem_singleton] at hg2
    obtain ⟨x, hx, hxg⟩ := List.mem_map.mp hg1
    exact hfree x hx (by rw [hxg, hg2])
  · simp only [List.length_append, List.length_cons, List.length_nil]
    omega
  · intro x hx
    rcases List.mem_append.mp hx with h1 | h1
    · exact hper x h1
    · rw [List.mem_singleton.mp h1]; exact hp

theorem reg_inv_replace (pre post : List nblink_t) (e e1 : nblink_t)
    (h : reg_inv (pre ++ e :: post)) (hg : e1.gpio = e.gpio) (hp : 0 < e1.period_ms) :
    reg_inv (pre ++ e1 :: post) := by
  obtain ⟨hnd, hlen, hper⟩ := h
  refine ⟨?_, ?_, ?_⟩
  · rw [List.map_append, List.map_cons] at hnd ⊢
    rw [hg]; exact hnd
  · simp only [List.length_append, List.length_cons] at hlen ⊢
    exact hlen
  · intro x hx
    rcases List.mem_append.mp hx with h1 | h1
    · exact hper x (List.mem_append_left _ h1)
    · rcases List.mem_cons.mp h1 with h2 | h2
      · rw [h2]; exact hp
      · exact hper x (List.mem_append_right _ (List.mem_cons_of_mem _ h2))

theorem reg_inv_erase (pre post : List nblink_t) (e : nblink_t)
    (h : reg_inv (pre ++ e :: post)) : reg_inv (pre ++ post) := by
  obtain ⟨hnd, hlen, hper⟩ := h
  refine ⟨nodup_erase pre e post hnd, ?_, ?_⟩
  · simp only [List.length_append, List.length_cons] at hlen ⊢
    omega
  · intro x hx
    rcases List.mem_append.mp hx with h1 | h1
    · exact hper x (List.mem_append_left _ h1)
    · exact hper x (List.mem_append_right _ (List.mem_cons_of_mem _ h1))

theorem start_inv (tick : Nat) (s s1 : nblk_state) (gpio : Int) (pd_ms dr_ms : Nat)
    (sl : Bool) (prio : Nat) (r : Bool) (hinv : reg_inv s.nblk_list)
    (hrun : nblk_start tick s gpio pd_ms dr_ms sl prio = .ok (r, s1)) :
    reg_inv s1.nblk_list := by
  cases r with
  | false =>
    rw [(nblk_start_rejected tick s gpio pd_ms dr_ms sl prio s1 hrun).1]
    exact hinv
  | true =>
    obtain ⟨l, hfree, hlt, hfilt, hlist⟩ :=
      start_accept_shape tick s s1 gpio pd_ms dr_ms sl prio hinv hrun
    obtain ⟨hpd, _, _⟩ := start_accept_writes tick s s1 gpio pd_ms dr_ms sl prio hinv hrun
    rw [hlist]
    apply reg_inv_append l _ (hfilt ▸ reg_inv_filter _ _ hinv) hfree hlt
    show 0 < pd_ms
    omega

theorem stop_inv (s s1 : nblk_state) (gpio : Int) (sl r : Bool) (hinv : reg_inv s.nblk_list)
    (hrun : nblk_stop s gpio sl = .ok (r, s1)) : reg_inv s1.nblk_list := by
  rcases stop_effect s s1 gpio sl r hinv hrun with h | ⟨e, _, _, hl, _⟩
  · rw [h]; exact hinv
  · rw [hl]; exact reg_inv_filter _ _ hinv

theorem cb_inv (s s1 : nblk_state) (gpio : Int) (hinv : reg_inv s.nblk_list)
    (hrun : nblk_cb s gpio = .ok s1) : reg_inv s1.nblk_list := by
  obtain ⟨pre, e, post, hl, he, _, h⟩ := cb_effect s s1 gpio hinv hrun
  rw [hl] at hinv
  rcases h with ⟨_, hl1, _⟩ | ⟨_, hl1, _⟩
  · rw [hl1]
    exact reg_inv_replace pre post e _ hinv rfl (hinv.2.2 e (by simp))
  · rw [hl1]
    exact reg_inv_erase pre post e hinv

theorem nblk_step_inv (tick : Nat) (s s1 : nblk_state) (op : nblk_op)
    (hinv : reg_inv s.nblk_list) (hrun : nblk_step tick s op = .ok s1) :
    reg_inv s1.nblk_list := by
  cases op with
  | start gpio pd_ms dr_ms sl prio =>
    simp only [nblk_step] at hrun
    split at hrun
    · cases hrun
    · rename_i r s2 heq
      injection hrun with h1
      rw [← h1]
      exact start_inv tick s s2 gpio pd_ms dr_ms sl prio r hinv heq
  | stop gpio sl =>
    simp only [nblk_step] at hrun
    split at hrun
    · cases hrun
    · rename_i r s2 heq
      injection hrun with h1
      rw [← h1]
      exact stop_inv s s2 gpio sl r hinv heq
  | tick gpio =>
    simp only [nblk_step] at hrun
    split at hrun
    · exact cb_inv s s1 gpio hinv hrun
    · injection hrun with h1
      rw [← h1]; exact hinv

theorem nblk_run_inv (tick : Nat) (ops : List nblk_op) :
    ∀ s s1 : nblk_state, reg_inv s.nblk_list → nblk_run tick s ops = .ok s1 →
      reg_inv s1.nblk_list := by
  induction ops with
  | nil =>
    intro s s1 hinv hrun
    simp only [nblk_run] at hrun
    injection hrun with h1
    rw [← h1]; exact hinv
  | cons op rest ih =>
    intro s s1 hinv hrun
    simp only [nblk_run] at hrun
    split at hrun
    · cases hrun
    · rename_i s2 heq
      exact ih s2 s1 (nblk_step_inv tick s s2 op hinv heq) hrun

/-! ## Effects of the group operations -/

theorem get_level_other (w : List (Int × Bool)) (g gpio : Int) (v : Bool) (h : g ≠ gpio) :
    gpio_get_level ((g, v) :: w) gpio = gpio_get_level w gpio := by
  simp only [gpio_get_level, if_neg h]

theorem get_level_ite_other (c : Prop) [Decidable c] (w : List (Int × Bool)) (g gpio : Int)
    (v : Bool) (h : g ≠ gpio) :
    gpio_get_level (if c then gpio_set_level w g v else w) gpio = gpio_get_level w gpio := by
  split
  · exact get_level_other _ _ _ _ h
  · rfl

theorem get_level_ite_self (c : Prop) [Decidable c] (w : List (Int × Bool)) (g : Int)
    (v lv : Bool) (hv : c → v = lv) (hn : ¬ c → gpio_get_level w g = some lv) :
    gpio_get_level (if c then gpio_set_level w g v else w) g = some lv := by
  split
  · rename_i hc
    rw [get_level_set, hv hc]
  · rename_i hc
    exact hn hc

/-- The first loop of the group tick maps every entry through `sync_cb_entry`;
outputs without an entry keep their level and consistent entries stay
consistent. -/
theorem cb_update_spec (tb : Nat) (l : List nblink_t) :
    ∀ (w : List (Int × Bool)) (l1 : List nblink_t) (w1 : List (Int × Bool)),
      nblk_sync_cb_update tb l w = .ok (l1, w1) → (l.map (fun e => e.gpio)).Nodup →
      l1 = l.map (sync_cb_entry tb) ∧ (∀ e ∈ l, e.period_ms / 2 ≠ 0) ∧
      (∀ g, (∀ e ∈ l, e.gpio ≠ g) → gpio_get_level w1 g = gpio_get_level w g) ∧
      (∀ e ∈ l, level_ok w e → level_ok w1 (sync_cb_entry tb e)) := by
  induction l with
  | nil =>
    intro w l1 w1 h _
    simp only [nblk_sync_cb_update] at h
    injection h with h
    cases h
    refine ⟨rfl, ?_, fun _ _ => rfl, ?_⟩
    · intro e he; cases he
    · intro e he; cases he
  | cons x rest ih =>
    intro w l1 w1 h hnd
    rw [List.map_cons, List.nodup_cons] at hnd
    obtain ⟨hx, hndr⟩ := hnd
    have hxfree : ∀ e ∈ rest, e.gpio ≠ x.gpio := by
      intro e he heq
      apply hx
      rw [← heq]
      exact List.mem_map_of_mem _ he
    simp only [nblk_sync_cb_update] at h
    split at h
    · cases h
    · rename_i hp
      split at h
      · cases h
      · rename_i rest1 w2 hrec
        injection h with h
        cases h
        obtain ⟨h1, h2, h3, h4⟩ := ih _ rest1 w1 hrec hndr
        refine ⟨?_, ?_, ?_, ?_⟩
        · rw [h1]; rfl
        · intro e he
          rcases List.mem_cons.mp he with h5 | h5
          · rw [h5]; exact hp
          · exact h2 e h5
        · intro g hg
          rw [h3 g (fun e he => hg e (List.mem_cons_of_mem _ he))]
          have hxg : x.gpio ≠ g := hg x (List.mem_cons_self _ _)
          exact get_level_ite_other _ _ _ _ _ hxg
        · intro e he hok
          rcases List.mem_cons.mp he with h5 | h5
          · subst h5
            unfold level_ok
            show gpio_get_level w1 e.gpio = _
            rw [h3 e.gpio hxfree]
            apply get_level_ite_self
            · intro _; rfl
            · intro hc
              unfold level_ok at hok
              rw [hok]
              unfold sync_cb_entry
              simp only [if_neg hc]
          · apply h4 e h5
            unfold level_ok at hok ⊢
            rw [← hok]
            exact get_level_ite_other _ _ _ _ _ (fun h => hxfree e h5 h.symm)

/-- The effect of `del_nblk_from_list_s` on a well-formed registry. -/
theorem del_s_effect (st st1 : sync_state) (gpio : Int) (hinv : reg_inv st.mgr.nblk_list)
    (hrun : del_nblk_from_list_s st gpio = .ok st1) :
    st1 = st ∨
      ∃ pre e post, st.mgr.nblk_list = pre ++ e :: post ∧ e.gpio = gpio ∧
        (∀ x ∈ pre ++ post, x.gpio ≠ gpio) ∧
        st1 = { mgr := { st.mgr with nblk_list := pre ++ post },
                gpio_writes := gpio_set_level st.gpio_writes gpio e.stop_level } := by
  obtain ⟨hnd, hlen, _⟩ := hinv
  rcases registry_split gpio st.mgr.nblk_list with h | ⟨pre, e, post, hl, hpre, he⟩
  · rw [del_s_absent st gpio h] at hrun
    injection hrun with h1
    exact Or.inl h1.symm
  · rw [del_s_split st gpio pre e post hl hpre he hlen] at hrun
    injection hrun with h1
    exact Or.inr ⟨pre, e, post, hl, he, nodup_split gpio pre e post (hl ▸ hnd) he, h1.symm⟩

theorem del_s_inv (st st1 : sync_state) (gpio : Int) (hinv : sync_inv st)
    (hrun : del_nblk_from_list_s st gpio = .ok st1) : sync_inv st1 := by
  rcases del_s_effect st st1 gpio hinv.1 hrun with h | ⟨pre, e, post, hl, he, hfree, h⟩
  · rw [h]; exact hinv
  · obtain ⟨hreg, hok⟩ := hinv
    rw [hl] at hreg
    rw [h]
    refine ⟨reg_inv_erase pre post e hreg, ?_⟩
    intro x hx
    have hxm : x ∈ st.mgr.nblk_list := by
      rw [hl]
      rcases List.mem_append.mp hx with h1 | h1
      · exact List.mem_append_left _ h1
      · exact List.mem_append_right _ (List.mem_cons_of_mem _ h1)
    have := hok x hxm
    unfold level_ok at this ⊢
    show gpio_get_level ((gpio, e.stop_level) :: st.gpio_writes) x.gpio = _
    rw [get_level_other _ _ _ _ (fun h => hfree x hx h.symm)]
    exact this

/-- Whatever `del_nblk_from_list_s` preserves, the removal loop of the group
tick preserves. -/
theorem expire_preserves (Q : sync_state → Prop)
    (hdel : ∀ st g st1, Q st → del_nblk_from_list_s st g = .ok st1 → Q st1) :
    ∀ (fuel idx : Nat) (st st1 : sync_state), Q st →
      nblk_sync_cb_expire fuel idx st = .ok st1 → Q st1 := by
  intro fuel
  induction fuel with
  | zero =>
    intro idx st st1 hq h
    simp only [nblk_sync_cb_expire] at h
    injection h with h
    rw [← h]; exact hq
  | succ n ih =>
    intro idx st st1 hq h
    simp only [nblk_sync_cb_expire] at h
    split at h
    · split at h
      · cases h
      · split at h
        · split at h
          · cases h
          · rename_i st2 hd
            exact ih _ st2 st1 (hdel st _ st2 hq hd) h
        · exact ih _ st st1 hq h
    · injection h with h
      rw [← h]; exact hq

theorem sync_cb_inv (st st1 : sync_state) (hinv : sync_inv st)
    (hrun : nblk_sync_cb st = .ok st1) : sync_inv st1 := by
  unfold nblk_sync_cb at hrun
  split at hrun
  · injection hrun with h
    rw [← h]; exact hinv
  · split at hrun
    · cases hrun
    · rename_i l1 w1 hup
      obtain ⟨hreg, hok⟩ := hinv
      obtain ⟨h1, _, _, h4⟩ := cb_update_spec _ _ _ l1 w1 hup hreg.1
      apply expire_preserves sync_inv (fun a g b => del_s_inv a b g) _ _ _ st1 _ hrun
      refine ⟨?_, ?_⟩
      · show reg_inv l1
        rw [h1]
        obtain ⟨hnd, hlen, hper⟩ := hreg
        refine ⟨?_, ?_, ?_⟩
        · rw [List.map_map]
          exact hnd
        · rw [List.length_map]; exact hlen
        · intro e he
          obtain ⟨x, hx, hxe⟩ := List.mem_map.mp he
          rw [← hxe]
          exact hper x hx
      · intro e he
        show level_ok w1 e
        have he' : e ∈ l1 := he
        rw [h1] at he'
        obtain ⟨x, hx, hxe⟩ := List.mem_map.mp he'
        rw [← hxe]
        exact h4 x hx (hok x hx)

theorem sync_start_inv (tick : Nat) (st st1 : sync_state) (gpio : Int) (pd_ms dr_ms : Nat)
    (sl : Bool) (prio : Nat) (r : Bool) (hinv : sync_inv st)
    (hrun : nblk_sync_start tick st gpio pd_ms dr_ms sl prio = .ok (r, st1)) :
    sync_inv st1 := by
  cases r with
  | false =>
    rw [nblk_sync_start_rejected tick st gpio pd_ms dr_ms sl prio st1 hrun]
    exact hinv
  | true =>
    obtain ⟨d, l, w, _, hpos, hfree, hlt, hl, _, hlist, _⟩ :=
      sync_start_accept_shape tick st st1 gpio pd_ms dr_ms sl prio hinv.1 hrun
    refine ⟨?_, ?_⟩
    · have hbase := reg_inv_append l
        { gpio := gpio, period_ms := pd_ms, remaining_ms := d, level := false,
          stop_level := sl, priority := prio, tmr_blinker := none }
        (hl ▸ reg_inv_filter _ _ hinv.1) hfree hlt hpos
      obtain ⟨hnd, hlen, hper⟩ := hbase
      rw [hlist]
      refine ⟨?_, ?_, ?_⟩
      · rw [List.map_map]
        exact hnd
      · rw [List.length_map]; exact hlen
      · intro e he
        obtain ⟨x, hx, hxe⟩ := List.mem_map.mp he
        rw [← hxe]
        exact hper x hx
    · intro e he
      obtain ⟨h1, h2⟩ := sync_join_levels tick st st1 gpio pd_ms dr_ms sl prio hinv.1 hrun e he
      unfold level_ok
      rw [h2, h1]

/-- The effect of `nblk_sync_stop` on a well-formed registry. -/
theorem sync_stop_effect (st st1 : sync_state) (gpio : Int) (sl r : Bool)
    (hinv : reg_inv st.mgr.nblk_list) (hrun : nblk_sync_stop st gpio sl = .ok (r, st1)) :
    st1 = st ∨
      ∃ pre e post, st.mgr.nblk_list = pre ++ e :: post ∧ e.gpio = gpio ∧
        (∀ x ∈ pre ++ post, x.gpio ≠ gpio) ∧
        st1 = { mgr := { st.mgr with nblk_list := pre ++ post },
                gpio_writes :=
                  gpio_set_level (gpio_set_level st.gpio_writes gpio e.stop_level) gpio sl } := by
  obtain ⟨hnd, hlen, _⟩ := hinv
  rcases registry_split gpio st.mgr.nblk_list with h | ⟨pre, e, post, hl, hpre, he⟩
  · rw [nblk_sync_stop_absent st gpio sl h] at hrun
    injection hrun with h1
    exact Or.inl (congrArg Prod.snd h1).symm
  · by_cases hm : st.mgr.smpr_list_modify = true
    · rw [nblk_sync_stop_split st gpio sl pre e post hl hpre he hlen hm] at hrun
      injection hrun with h1
      exact Or.inr ⟨pre, e, post, hl, he, nodup_split gpio pre e post (hl ▸ hnd) he,
        (congrArg Prod.snd h1).symm⟩
    · have hm' : st.mgr.smpr_list_modify = false := by
        cases hb : st.mgr.smpr_list_modify
        · rfl
        · exact absurd hb hm
      unfold nblk_sync_stop at hrun
      rw [if_pos hm'] at hrun
      injection hrun with h1
      exact Or.inl (congrArg Prod.snd h1).symm

theorem sync_stop_inv (st st1 : sync_state) (gpio : Int) (sl r : Bool) (hinv : sync_inv st)
    (hrun : nblk_sync_stop st gpio sl = .ok (r, st1)) : sync_inv st1 := by
  rcases sync_stop_effect st st1 gpio sl r hinv.1 hrun with h | ⟨pre, e, post, hl, he, hfree, h⟩
  · rw [h]; exact hinv
  · obtain ⟨hreg, hok⟩ := hinv
    rw [hl] at hreg
    rw [h]
    refine ⟨reg_inv_erase pre post e hreg, ?_⟩
    intro x hx
    have hxm : x ∈ st.mgr.nblk_list := by
      rw [hl]
      rcases List.mem_append.mp hx with h1 | h1
      · exact List.mem_append_left _ h1
      · exact List.mem_append_right _ (List.mem_cons_of_mem _ h1)
    have := hok x hxm
    unfold level_ok at this ⊢
    show gpio_get_level ((gpio, sl) :: (gpio, e.stop_level) :: st.gpio_writes) x.gpio = _
    rw [get_level_other _ _ _ _ (fun h => hfree x hx h.symm),
      get_level_other _ _ _ _ (fun h => hfree x hx h.symm)]
    exact this

theorem sync_step_inv (tick : Nat) (st st1 : sync_state) (op : sync_op) (hinv : sync_inv st)
    (hrun : sync_step tick st op = .ok st1) : sync_inv st1 := by
  cases op with
  | start gpio pd_ms dr_ms sl prio =>
    simp only [sync_step] at hrun
    split at hrun
    · cases hrun
    · rename_i r st2 heq
      injection hrun with h1
      rw [← h1]
      exact sync_start_inv tick st st2 gpio pd_ms dr_ms sl prio r hinv heq
  | stop gpio sl =>
    simp only [sync_step] at hrun
    split at hrun
    · cases hrun
    · rename_i r st2 heq
      injection hrun with h1
      rw [← h1]
      exact sync_stop_inv st st2 gpio sl r hinv heq
  | tick =>
    simp only [sync_step] at hrun
    split at hrun
    · injection hrun with h1
      rw [← h1]; exact hinv
    · exact sync_cb_inv st st1 hinv hrun

theorem sync_run_inv (tick : Nat) (ops : List sync_op) :
    ∀ st st1 : sync_state, sync_inv st → sync_run tick st ops = .ok st1 → sync_inv st1 := by
  induction ops with
  | nil =>
    intro st st1 hinv hrun
    simp only [sync_run] at hrun
    injection hrun with h1
    rw [← h1]; exact hinv
  | cons op rest ih =>
    intro st st1 hinv hrun
    simp only [sync_run] at hrun
    split at hrun
    · cases hrun
    · rename_i st2 heq
      exact ih st2 st1 (sync_step_inv tick st st2 op hinv heq) hrun

/-- A successful `nblk_sync_create_mgr` establishes the group invariant, whatever
the manager held before. -/
theorem create_inv (tick : Nat) (st0 : sync_state) (tbase_ms : Nat) (lvl : Bool)
    (h : (nblk_sync_create_mgr tick st0 tbase_ms lvl).1 = true) :
    sync_inv (nblk_sync_create_mgr tick st0 tbase_ms lvl).2 := by
  unfold nblk_sync_create_mgr at h ⊢
  split
  · rename_i hlt
    rw [if_pos hlt] at h
    cases h
  · refine ⟨reg_inv_nil, ?_⟩
    intro e he
    cases he

/-- C12: in every state the independent blinker reaches from the idle state, and
in every state a group reaches after a successful `nblk_sync_create_mgr`
(whatever the manager held before), by any sequence of start, stop and tick
events, no two registry entries have the same gpio. -/
theorem uniqueness_invariant (tick : Nat) :
    (∀ (ops : List nblk_op) (s : nblk_state), nblk_run tick nblk_init ops = .ok s →
      (s.nblk_list.map (fun e => e.gpio)).Nodup) ∧
    (∀ (st0 : sync_state) (tbase_ms : Nat) (lvl : Bool) (ops : List sync_op) (st : sync_state),
      (nblk_sync_create_mgr tick st0 tbase_ms lvl).1 = true →
      sync_run tick (nblk_sync_create_mgr tick st0 tbase_ms lvl).2 ops = .ok st →
      (st.mgr.nblk_list.map (fun e => e.gpio)).Nodup) := by
  constructor
  · intro ops s hrun
    exact (nblk_run_inv tick ops nblk_init s reg_inv_nil hrun).1
  · intro st0 tbase_ms lvl ops st hc hrun
    exact (sync_run_inv tick ops _ st (create_inv tick st0 tbase_ms lvl hc) hrun).1.1

theorem uniqueness_invariant_witness :
    (nblk_run 1 nblk_init
        [.start 21 2000 60000 false 1, .tick 21, .start 22 500 30000 true 2,
         .start 21 250 10000 true 3, .stop 22 false] =
        .ok { smpr_list_modify := true,
              nblk_list := [{ gpio := 21, period_ms := 250, remaining_ms := 10000,
                              level := false, stop_level := true, priority := 3,
                              tmr_blinker := some 125000 }],
              gpio_writes := [(22, false), (22, true), (21, false), (21, true)] } ∧
      (nblk_sync_create_mgr 1 sync_zero 1000 true).1 = true ∧
      sync_run 1 (nblk_sync_create_mgr 1 sync_zero 1000 true).2
        [.start 21 2000 NBLK_FOREVER false 0] = .ok example_with_sync_state) ∧
    ([(21 : Int)].Nodup ∧
      (example_with_sync_state.mgr.nblk_list.map (fun e => e.gpio)).Nodup) :=
  ⟨⟨rfl, rfl, rfl⟩,
   (uniqueness_invariant 1).1
     [.start 21 2000 60000 false 1, .tick 21, .start 22 500 30000 true 2,
      .start 21 250 10000 true 3, .stop 22 false]
     { smpr_list_modify := true,
       nblk_list := [{ gpio := 21, period_ms := 250, remaining_ms := 10000,
                       level := false, stop_level := true, priority := 3,
                       tmr_blinker := some 125000 }],
       gpio_writes := [(22, false), (22, true), (21, false), (21, true)] } rfl,
   (uniqueness_invariant 1).2 sync_zero 1000 true [.start 21 2000 NBLK_FOREVER false 0]
     example_with_sync_state rfl rfl⟩

/-- Where the entries after one event of the independent blinker come from: they
were there before, or an accepted start created them, or a tick toggled them. -/
theorem nblk_step_entries (tick : Nat) (s s1 : nblk_state) (op : nblk_op)
    (hinv : reg_inv s.nblk_list) (hrun : nblk_step tick s op = .ok s1) :
    ∀ e1 ∈ s1.nblk_list, e1 ∈ s.nblk_list ∨
      (∃ gpio pd_ms dr_ms sl prio, op = .start gpio pd_ms dr_ms sl prio ∧ pd_ms ≠ 0 ∧
        (dr_ms % pd_ms = 0 ∨ dr_ms = NBLK_FOREVER) ∧
        e1 = { gpio := gpio, period_ms := pd_ms, remaining_ms := dr_ms, level := false,
               stop_level := sl, priority := prio,
               tmr_blinker := some ((pd_ms / 2) * 1000) }) ∨
      (∃ e ∈ s.nblk_list, op = .tick e.gpio ∧ e.period_ms / 2 < e.remaining_ms ∧
        e1 = nblk_cb_entry e) := by
  intro e1 he1
  cases op with
  | start gpio pd_ms dr_ms sl prio =>
    simp only [nblk_step] at hrun
    split at hrun
    · cases hrun
    · rename_i r s2 heq
      injection hrun with h1
      subst h1
      cases r with
      | false =>
        left
        rw [(nblk_start_rejected tick s gpio pd_ms dr_ms sl prio s2 heq).1] at he1
        exact he1
      | true =>
        obtain ⟨l, _, _, hfilt, hlist⟩ :=
          start_accept_shape tick s s2 gpio pd_ms dr_ms sl prio hinv heq
        obtain ⟨hpd, hdr, _⟩ := start_accept_writes tick s s2 gpio pd_ms dr_ms sl prio hinv heq
        rw [hlist] at he1
        rcases List.mem_append.mp he1 with h2 | h2
        · left
          rw [hfilt] at h2
          exact (List.mem_filter.mp h2).1
        · right; left
          exact ⟨gpio, pd_ms, dr_ms, sl, prio, rfl, hpd, hdr, List.mem_singleton.mp h2⟩
  | stop gpio sl =>
    simp only [nblk_step] at hrun
    split at hrun
    · cases hrun
    · rename_i r s2 heq
      injection hrun with h1
      subst h1
      left
      rcases stop_effect s s2 gpio sl r hinv heq with h | ⟨e, _, _, hl, _⟩
      · rw [h] at he1; exact he1
      · rw [hl] at he1
        exact (List.mem_filter.mp he1).1
  | tick gpio =>
    simp only [nblk_step] at hrun
    split at hrun
    · obtain ⟨pre, e, post, hl, he, _, h⟩ := cb_effect s s1 gpio hinv hrun
      rcases h with ⟨hc, hl1, _⟩ | ⟨_, hl1, _⟩
      · rw [hl1] at he1
        rcases List.mem_append.mp he1 with h2 | h2
        · left; rw [hl]; exact List.mem_append_left _ h2
        · rcases List.mem_cons.mp h2 with h3 | h3
          · right; right
            refine ⟨e, by rw [hl]; simp, by rw [he], hc, h3⟩
          · left; rw [hl]
            exact List.mem_append_right _ (List.mem_cons_of_mem _ h3)
      · left
        rw [hl1] at he1
        rw [hl]
        rcases List.mem_append.mp he1 with h2 | h2
        · exact List.mem_append_left _ h2
        · exact List.mem_append_right _ (List.mem_cons_of_mem _ h2)
    · injection hrun with h1
      subst h1
      exact Or.inl he1

theorem half_period_multiple (pd dr : Nat) (heven : pd % 2 = 0) (h : dr % pd = 0) :
    dr % (pd / 2) = 0 := by
  have h1 : pd / 2 ∣ pd := ⟨2, by omega⟩
  exact Nat.mod_eq_zero_of_dvd (Nat.dvd_trans h1 (Nat.dvd_of_mod_eq_zero h))

theorem granular_toggle (e : nblink_t) (hc : e.period_ms / 2 < e.remaining_ms)
    (h32 : e.remaining_ms ≤ UINT32_MAX)
    (hg : e.period_ms % 2 = 0 → e.remaining_ms ≠ NBLK_FOREVER →
      e.remaining_ms % (e.period_ms / 2) = 0) :
    (nblk_cb_entry e).remaining_ms ≤ UINT32_MAX ∧
    ((nblk_cb_entry e).period_ms % 2 = 0 → (nblk_cb_entry e).remaining_ms ≠ NBLK_FOREVER →
      (nblk_cb_entry e).remaining_ms % ((nblk_cb_entry e).period_ms / 2) = 0) := by
  have hU : UINT32_MAX = 4294967295 := rfl
  rw [hU] at h32 ⊢
  unfold nblk_cb_entry
  simp only []
  by_cases hf : e.remaining_ms ≠ NBLK_FOREVER
  · rw [if_pos hf]
    have hsub : u32_sub e.remaining_ms (e.period_ms / 2) = e.remaining_ms - e.period_ms / 2 := by
      unfold u32_sub; omega
    rw [hsub]
    refine ⟨by omega, ?_⟩
    intro heven _
    apply Nat.sub_mod_eq_zero_of_mod_eq
    rw [hg heven hf, Nat.mod_self]
  · rw [if_neg hf]
    refine ⟨h32, ?_⟩
    intro _ hne
    exact absurd hne hf

theorem granular_run (tick : Nat) (ops : List nblk_op) :
    ∀ s s1 : nblk_state, reg_inv s.nblk_list → (∀ op ∈ ops, nblk_op_wf op) →
      (∀ e ∈ s.nblk_list, e.remaining_ms ≤ UINT32_MAX ∧
        (e.period_ms % 2 = 0 → e.remaining_ms ≠ NBLK_FOREVER →
          e.remaining_ms % (e.period_ms / 2) = 0)) →
      nblk_run tick s ops = .ok s1 →
      ∀ e ∈ s1.nblk_list, e.remaining_ms ≤ UINT32_MAX ∧
        (e.period_ms % 2 = 0 → e.remaining_ms ≠ NBLK_FOREVER →
          e.remaining_ms % (e.period_ms / 2) = 0) := by
  induction ops with
  | nil =>
    intro s s1 _ _ hg hrun
    simp only [nblk_run] at hrun
    injection hrun with h1
    rw [← h1]; exact hg
  | cons op rest ih =>
    intro s s1 hinv hwf hg hrun
    simp only [nblk_run] at hrun
    split at hrun
    · cases hrun
    · rename_i s2 heq
      apply ih s2 s1 (nblk_step_inv tick s s2 op hinv heq)
        (fun o ho => hwf o (List.mem_cons_of_mem _ ho)) ?_ hrun
      intro e1 he1
      rcases nblk_step_entries tick s s2 op hinv heq e1 he1 with h | h | h
      · exact hg e1 h
      · obtain ⟨gpio, pd_ms, dr_ms, sl, prio, hop, _, hdr, he⟩ := h
        have hw := hwf op (List.mem_cons_self _ _)
        rw [hop] at hw
        rw [he]
        refine ⟨hw.2.1, ?_⟩
        intro heven hne
        rcases hdr with hdr | hdr
        · exact half_period_multiple pd_ms dr_ms heven hdr
        · exact absurd hdr hne
      · obtain ⟨e, he, _, hc, h1⟩ := h
        rw [h1]
        exact granular_toggle e hc (hg e he).1 (hg e he).2

/-- C14 (as the code behaves): in every state the independent blinker reaches
from the idle state by start, stop and tick events with 32-bit arguments, every
entry's `remaining_ms` fits 32 bits and, when its period is even and it does not
run forever, is an exact multiple of `period_ms / 2`. -/
theorem remaining_granularity (tick : Nat) (ops : List nblk_op) (s : nblk_state)
    (hwf : ∀ op ∈ ops, nblk_op_wf op) (hrun : nblk_run tick nblk_init ops = .ok s) :
    ∀ e ∈ s.nblk_list, e.remaining_ms ≤ UINT32_MAX ∧
      (e.period_ms % 2 = 0 → e.remaining_ms ≠ NBLK_FOREVER →
        e.remaining_ms % (e.period_ms / 2) = 0) := by
  apply granular_run tick ops nblk_init s reg_inv_nil hwf ?_ hrun
  intro e he
  cases he

theorem remaining_granularity_witness :
    ((∀ op ∈ ([.start 21 2000 60000 false 1, .tick 21, .tick 21, .tick 21, .tick 21, .tick 21,
        .tick 21, .tick 21, .tick 21, .tick 21, .tick 21, .tick 21, .tick 21, .tick 21,
        .tick 21, .tick 21] : List nblk_op), nblk_op_wf op) ∧
      nblk_run 1 nblk_init
        [.start 21 2000 60000 false 1, .tick 21, .tick 21, .tick 21, .tick 21, .tick 21,
         .tick 21, .tick 21, .tick 21, .tick 21, .tick 21, .tick 21, .tick 21, .tick 21,
         .tick 21, .tick 21] = .ok example_blink_params_state) ∧
    ∀ e ∈ example_blink_params_state.nblk_list, e.remaining_ms ≤ UINT32_MAX ∧
      (e.period_ms % 2 = 0 → e.remaining_ms ≠ NBLK_FOREVER →
        e.remaining_ms % (e.period_ms / 2) = 0) := by
  have hwf : ∀ op ∈ ([.start 21 2000 60000 false 1, .tick 21, .tick 21, .tick 21, .tick 21,
      .tick 21, .tick 21, .tick 21, .tick 21, .tick 21, .tick 21, .tick 21, .tick 21, .tick 21,
      .tick 21, .tick 21] : List nblk_op), nblk_op_wf op := by
    intro op hop
    simp only [List.mem_cons, List.mem_singleton, List.not_mem_nil, or_false] at hop
    rcases hop with h | h
    · rw [h]; exact ⟨by decide, by decide, by decide⟩
    · have : op = .tick 21 := by
        rcases h with h | h | h | h | h | h | h | h | h | h | h | h | h | h | h <;> exact h
      rw [this]; trivial
  exact ⟨⟨hwf, rfl⟩, remaining_granularity 1 _ example_blink_params_state hwf rfl⟩

/-- C14: the stated granularity fails.  With an odd period the entry is off the
half-period grid from the start (period 5, duration 5: 5 is no multiple of 2);
a forever entry holds the sentinel 4294967295; and a group member moves in steps
of half the timebase, so after one tick of the 1000 ms group of the example
application its period-2000 member holds 4294965500, no multiple of 1000. -/
theorem granularity_fails :
    (∃ s, nblk_run 1 nblk_init [.start 21 5 5 false 0] = .ok s ∧
      ∃ e ∈ s.nblk_list, e.remaining_ms % (e.period_ms / 2) ≠ 0) ∧
    (∃ s, nblk_run 1 nblk_init [.start 21 2000 NBLK_FOREVER false 0] = .ok s ∧
      ∃ e ∈ s.nblk_list, e.remaining_ms % (e.period_ms / 2) ≠ 0) ∧
    (∃ st, sync_run 1 (nblk_sync_create_mgr 1 sync_zero 1000 true).2
        [.start 21 2000 NBLK_FOREVER false 0, .tick] = .ok st ∧
      st.mgr.nblk_list.map (fun e => (e.gpio, e.period_ms, e.remaining_ms)) =
        [(21, 2000, 4294965500)] ∧
      ∃ e ∈ st.mgr.nblk_list, e.remaining_ms % (e.period_ms / 2) ≠ 0) :=
  ⟨⟨_, rfl, _, List.mem_cons_self _ _, by decide⟩,
   ⟨_, rfl, _, List.mem_cons_self _ _, by decide⟩,
   ⟨_, rfl, rfl, _, List.mem_cons_self _ _, by decide⟩⟩

theorem not_blinking_free (s : nblk_state) (gpio : Int) (hlen : s.nblk_list.length ≤ 255)
    (h : ¬ nblk_is_blinking s gpio = true) : ∀ e ∈ s.nblk_list, e.gpio ≠ gpio := by
  rcases registry_split gpio s.nblk_list with h1 | ⟨pre, e, post, hl, hpre, he⟩
  · exact h1
  · exfalso
    apply h
    have hidx : get_nblk_idx_in_list s.nblk_list gpio = pre.length := by
      rw [hl]; exact idx_split gpio pre e post hpre he (hl ▸ hlen)
    have hlt : pre.length ≠ UINT8_MAX := by
      rw [hl] at hlen
      simp only [List.length_append, List.length_cons] at hlen
      unfold UINT8_MAX
      omega
    unfold nblk_is_blinking
    rw [hidx, if_pos hlt]

theorem level_ok_other (w : List (Int × Bool)) (e : nblink_t) (g : Int) (v : Bool)
    (h : e.gpio ≠ g) : level_ok ((g, v) :: w) e ↔ level_ok w e := by
  unfold level_ok
  rw [get_level_other _ _ _ _ (fun h1 => h h1.symm)]

/-- C13: right after an accepted `nblk_start` the invariant does not hold.  A
start with priority 2 replaces an entry of output 21 whose stop level is 1: the
removal writes 1 to the output, the new entry has level 0 and nothing else is
written. -/
theorem start_leaves_level_stale :
    ∃ s, nblk_run 1 nblk_init [.start 21 2000 60000 true 1, .start 21 500 30000 false 2] =
        .ok s ∧
      s.gpio_writes = [(21, true)] ∧
      ∃ e ∈ s.nblk_list, e.level = false ∧ gpio_get_level s.gpio_writes e.gpio = some true ∧
        ¬ level_ok s.gpio_writes e :=
  ⟨_, rfl, rfl, _, List.mem_cons_self _ _, rfl, rfl, by unfold level_ok; decide⟩

/-! ## Repeated group ticks -/

theorem entry_unique (l : List nblink_t) (h : reg_inv l) (a b : nblink_t) (ha : a ∈ l)
    (hb : b ∈ l) (hg : a.gpio = b.gpio) : a = b :=
  List.inj_on_of_nodup_map h.1 ha hb hg

theorem del_s_sub (st st1 : sync_state) (gpio : Int) (hinv : reg_inv st.mgr.nblk_list)
    (hrun : del_nblk_from_list_s st gpio = .ok st1) :
    reg_inv st1.mgr.nblk_list ∧ (∀ e ∈ st1.mgr.nblk_list, e ∈ st.mgr.nblk_list) ∧
      st1.mgr.sync_tbase_ms = st.mgr.sync_tbase_ms := by
  rcases del_s_effect st st1 gpio hinv hrun with h | ⟨pre, e, post, hl, _, _, h⟩
  · rw [h]; exact ⟨hinv, fun _ he => he, rfl⟩
  · rw [h]
    refine ⟨reg_inv_erase pre post e (hl ▸ hinv), ?_, rfl⟩
    intro x hx
    rw [hl]
    rcases List.mem_append.mp hx with h1 | h1
    · exact List.mem_append_left _ h1
    · exact List.mem_append_right _ (List.mem_cons_of_mem _ h1)

/-- One group tick: every member left afterwards is the `sync_cb_entry` image of a
member before, and the timebase is unchanged. -/
theorem sync_cb_entries_one (st st1 : sync_state) (hinv : reg_inv st.mgr.nblk_list)
    (hrun : nblk_sync_cb st = .ok st1) :
    reg_inv st1.mgr.nblk_list ∧
      (∀ e1 ∈ st1.mgr.nblk_list, ∃ e ∈ st.mgr.nblk_list,
        e1 = sync_cb_entry st.mgr.sync_tbase_ms e ∨ e1 = e) ∧
      st1.mgr.sync_tbase_ms = st.mgr.sync_tbase_ms ∧
      (st.mgr.nblk_list ≠ [] → ∀ e1 ∈ st1.mgr.nblk_list, ∃ e ∈ st.mgr.nblk_list,
        e1 = sync_cb_entry st.mgr.sync_tbase_ms e) := by
  unfold nblk_sync_cb at hrun
  split at hrun
  · rename_i hz
    injection hrun with h
    subst h
    refine ⟨hinv, fun e he => ⟨e, he, Or.inr rfl⟩, rfl, ?_⟩
    intro hne
    exact absurd (List.length_eq_zero.mp hz) hne
  · split at hrun
    · cases hrun
    · rename_i l1 w1 hup
      obtain ⟨h1, _, _, _⟩ := cb_update_spec _ _ _ l1 w1 hup hinv.1
      have hreg1 : reg_inv l1 := by
        rw [h1]
        obtain ⟨hnd, hlen, hper⟩ := hinv
        refine ⟨?_, ?_, ?_⟩
        · rw [List.map_map]
          exact hnd
        · rw [List.length_map]; exact hlen
        · intro e he
          obtain ⟨x, hx, hxe⟩ := List.mem_map.mp he
          rw [← hxe]
          exact hper x hx
      have hq := expire_preserves
        (fun s2 => reg_inv s2.mgr.nblk_list ∧ (∀ e ∈ s2.mgr.nblk_list, e ∈ l1) ∧
          s2.mgr.sync_tbase_ms = st.mgr.sync_tbase_ms)
        (by
          intro a g b ⟨ha1, ha2, ha3⟩ hd
          obtain ⟨hb1, hb2, hb3⟩ := del_s_sub a b g ha1 hd
          exact ⟨hb1, fun e he => ha2 e (hb2 e he), by rw [hb3, ha3]⟩)
        l1.length 0 { mgr := { st.mgr with nblk_list := l1 }, gpio_writes := w1 } st1
        ⟨hreg1, fun e he => he, rfl⟩ hrun
      obtain ⟨hq1, hq2, hq3⟩ := hq
      have hsrc : ∀ e1 ∈ st1.mgr.nblk_list, ∃ e ∈ st.mgr.nblk_list,
          e1 = sync_cb_entry st.mgr.sync_tbase_ms e := by
        intro e1 he1
        have := hq2 e1 he1
        rw [h1] at this
        obtain ⟨x, hx, hxe⟩ := List.mem_map.mp this
        exact ⟨x, hx, hxe.symm⟩
      refine ⟨hq1, ?_, hq3, fun _ => hsrc⟩
      intro e1 he1
      obtain ⟨x, hx, hxe⟩ := hsrc e1 he1
      exact ⟨x, hx, Or.inl hxe⟩

theorem sync_cb_entries_gpio (tb n : Nat) : ∀ e : nblink_t,
    (sync_cb_entries tb n e).gpio = e.gpio ∧ (sync_cb_entries tb n e).period_ms = e.period_ms := by
  induction n with
  | zero => intro e; exact ⟨rfl, rfl⟩
  | succ m ih =>
    intro e
    simp only [sync_cb_entries]
    exact ih (sync_cb_entry tb e)

/-- `n` group ticks on a non-empty group: every member left afterwards is the
`n`-fold `sync_cb_entry` image of the member with the same gpio before. -/
theorem sync_ticks_entries (n : Nat) :
    ∀ st st1 : sync_state, sync_inv st → sync_ticks n st = .ok st1 →
      sync_inv st1 ∧ st1.mgr.sync_tbase_ms = st.mgr.sync_tbase_ms ∧
      ∀ e1 ∈ st1.mgr.nblk_list, ∃ e ∈ st.mgr.nblk_list,
        e1 = sync_cb_entries st.mgr.sync_tbase_ms n e := by
  induction n with
  | zero =>
    intro st st1 hinv hrun
    simp only [sync_ticks] at hrun
    injection hrun with h
    subst h
    exact ⟨hinv, rfl, fun e he => ⟨e, he, rfl⟩⟩
  | succ m ih =>
    intro st st1 hinv hrun
    simp only [sync_ticks] at hrun
    split at hrun
    · cases hrun
    · rename_i st2 hcb
      have hinv2 := sync_cb_inv st st2 hinv hcb
      obtain ⟨_, _, htb, hsrc⟩ := sync_cb_entries_one st st2 hinv.1 hcb
      obtain ⟨h1, h2, h3⟩ := ih st2 st1 hinv2 hrun
      refine ⟨h1, by rw [h2, htb], ?_⟩
      intro e1 he1
      obtain ⟨e2, he2, h4⟩ := h3 e1 he1
      have hne : st.mgr.nblk_list ≠ [] := by
        intro hnil
        have hcb' := hcb
        unfold nblk_sync_cb at hcb'
        rw [hnil] at hcb'
        simp only [List.length_nil, if_true] at hcb'
        injection hcb' with h5
        rw [← h5, hnil] at he2
        cases he2
      obtain ⟨e, he, h5⟩ := hsrc hne e2 he2
      refine ⟨e, he, ?_⟩
      rw [h4, h5, htb]
      rfl

theorem cb_update_total (tb : Nat) (l : List nblink_t) :
    ∀ w : List (Int × Bool), (∀ e ∈ l, e.period_ms / 2 ≠ 0) →
      ∃ l1 w1, nblk_sync_cb_update tb l w = .ok (l1, w1) := by
  induction l with
  | nil => intro w _; exact ⟨[], w, rfl⟩
  | cons x rest ih =>
    intro w hp
    have hx : ¬ x.period_ms / 2 = 0 := hp x (List.mem_cons_self _ _)
    simp only [nblk_sync_cb_update, if_neg hx]
    obtain ⟨l1, w1, h⟩ := ih _ (fun e he => hp e (List.mem_cons_of_mem _ he))
    rw [h]
    exact ⟨_, _, rfl⟩

theorem del_s_total (st : sync_state) (gpio : Int) (hinv : reg_inv st.mgr.nblk_list) :
    ∃ st1, del_nblk_from_list_s st gpio = .ok st1 := by
  rcases registry_split gpio st.mgr.nblk_list with h | ⟨pre, e, post, hl, hpre, he⟩
  · exact ⟨_, del_s_absent st gpio h⟩
  · exact ⟨_, del_s_split st gpio pre e post hl hpre he hinv.2.1⟩

theorem expire_total (fuel : Nat) :
    ∀ (idx : Nat) (st : sync_state), reg_inv st.mgr.nblk_list →
      ∃ st1, nblk_sync_cb_expire fuel idx st = .ok st1 := by
  induction fuel with
  | zero => intro idx st _; exact ⟨st, rfl⟩
  | succ n ih =>
    intro idx st hinv
    simp only [nblk_sync_cb_expire]
    by_cases hidx : idx < st.mgr.nblk_list.length
    · rw [if_pos hidx, List.getElem?_eq_getElem hidx]
      simp only []
      by_cases hc : (st.mgr.nblk_list[idx]).period_ms / 2 > (st.mgr.nblk_list[idx]).remaining_ms
      · rw [if_pos hc]
        obtain ⟨st2, hd⟩ := del_s_total st (st.mgr.nblk_list[idx]).gpio hinv
        rw [hd]
        exact ih _ st2 (del_s_sub st st2 _ hinv hd).1
      · rw [if_neg hc]
        exact ih _ st hinv
    · rw [if_neg hidx]
      exact ⟨st, rfl⟩

theorem sync_cb_total (st : sync_state) (hinv : reg_inv st.mgr.nblk_list)
    (hper : ∀ e ∈ st.mgr.nblk_list, 2 ≤ e.period_ms) : ∃ st1, nblk_sync_cb st = .ok st1 := by
  unfold nblk_sync_cb
  by_cases hz : st.mgr.nblk_list.length = 0
  · rw [if_pos hz]; exact ⟨st, rfl⟩
  · rw [if_neg hz]
    obtain ⟨l1, w1, hup⟩ := cb_update_total st.mgr.sync_tbase_ms st.mgr.nblk_list st.gpio_writes
      (by intro e he; have := hper e he; omega)
    rw [hup]
    simp only []
    obtain ⟨h1, _, _, _⟩ := cb_update_spec _ _ _ l1 w1 hup hinv.1
    apply expire_total
    show reg_inv l1
    rw [h1]
    obtain ⟨hnd, hlen, hp⟩ := hinv
    refine ⟨?_, ?_, ?_⟩
    · rw [List.map_map]
      exact hnd
    · rw [List.length_map]; exact hlen
    · intro e he
      obtain ⟨x, hx, hxe⟩ := List.mem_map.mp he
      rw [← hxe]
      exact hp x hx

theorem sync_ticks_total (n : Nat) :
    ∀ st : sync_state, reg_inv st.mgr.nblk_list → (∀ e ∈ st.mgr.nblk_list, 2 ≤ e.period_ms) →
      ∃ st1, sync_ticks n st = .ok st1 := by
  induction n with
  | zero => intro st _ _; exact ⟨st, rfl⟩
  | succ m ih =>
    intro st hinv hper
    obtain ⟨st2, hcb⟩ := sync_cb_total st hinv hper
    simp only [sync_ticks, hcb]
    obtain ⟨hinv2, hsrc, _, _⟩ := sync_cb_entries_one st st2 hinv hcb
    apply ih st2 hinv2
    intro e1 he1
    obtain ⟨e, he, h⟩ := hsrc e1 he1
    rcases h with h | h
    · rw [h]; exact hper e he
    · rw [h]; exact hper e he

/-- Two entries with the same period whose remaining times agree modulo the half
period, and are large enough not to wrap, have equal levels after `n` ticks if
they had before. -/
theorem in_phase_entries (tb n : Nat) :
    ∀ a b : nblink_t, a.period_ms = b.period_ms → a.level = b.level →
      a.remaining_ms % (a.period_ms / 2) = b.remaining_ms % (a.period_ms / 2) →
      a.remaining_ms < UINT32_MAX → b.remaining_ms < UINT32_MAX →
      n * (tb / 2) ≤ a.remaining_ms → n * (tb / 2) ≤ b.remaining_ms →
      (sync_cb_entries tb n a).level = (sync_cb_entries tb n b).level := by
  induction n with
  | zero => intro a b _ hl _ _ _ _ _; exact hl
  | succ m ih =>
    intro a b hp hl hmod ha hb han hbn
    have hU : UINT32_MAX = 4294967295 := rfl
    have hF : NBLK_FOREVER = 4294967295 := rfl
    rw [hU] at ha hb
    rw [Nat.add_mul, Nat.one_mul] at han hbn
    have hfa : a.remaining_ms ≠ NBLK_FOREVER := by rw [hF]; omega
    have hfb : b.remaining_ms ≠ NBLK_FOREVER := by rw [hF]; omega
    have hsa : u32_sub a.remaining_ms (tb / 2) = a.remaining_ms - tb / 2 := by
      unfold u32_sub; omega
    have hsb : u32_sub b.remaining_ms (tb / 2) = b.remaining_ms - tb / 2 := by
      unfold u32_sub; omega
    have hmod2 : (a.remaining_ms - tb / 2) % (a.period_ms / 2) =
        (b.remaining_ms - tb / 2) % (a.period_ms / 2) := by
      have h1 : a.remaining_ms - tb / 2 + tb / 2 = a.remaining_ms := by omega
      have h2 : b.remaining_ms - tb / 2 + tb / 2 = b.remaining_ms := by omega
      have h3 : (a.remaining_ms - tb / 2 + tb / 2) % (a.period_ms / 2) =
          (b.remaining_ms - tb / 2 + tb / 2) % (a.period_ms / 2) := by rw [h1, h2]; exact hmod
      exact Nat.ModEq.add_right_cancel' (tb / 2) h3
    simp only [sync_cb_entries]
    apply ih
    · exact hp
    · show (sync_cb_entry tb a).level = (sync_cb_entry tb b).level
      unfold sync_cb_entry
      simp only [if_pos hfa, if_pos hfb, hsa, hsb, ← hp, hmod2, hl]
    · show (sync_cb_entry tb a).remaining_ms % (a.period_ms / 2) =
        (sync_cb_entry tb b).remaining_ms % (a.period_ms / 2)
      unfold sync_cb_entry
      simp only [if_pos hfa, if_pos hfb, hsa, hsb]
      exact hmod2
    · show (sync_cb_entry tb a).remaining_ms < UINT32_MAX
      unfold sync_cb_entry
      simp only [if_pos hfa, hsa]
      rw [hU]; omega
    · show (sync_cb_entry tb b).remaining_ms < UINT32_MAX
      unfold sync_cb_entry
      simp only [if_pos hfb, hsb]
      rw [hU]; omega
    · show m * (tb / 2) ≤ (sync_cb_entry tb a).remaining_ms
      unfold sync_cb_entry
      simp only [if_pos hfa, hsa]
      omega
    · show m * (tb / 2) ≤ (sync_cb_entry tb b).remaining_ms
      unfold sync_cb_entry
      simp only [if_pos hfb, hsb]
      omega

theorem aligned_below_forever (r p : Nat) (heven : p % 2 = 0) (h : r % p = 0)
    (h32 : r ≤ UINT32_MAX) : r < UINT32_MAX := by
  have hU : UINT32_MAX = 4294967295 := rfl
  rw [hU] at h32 ⊢
  have h2 : r % 2 = 0 := by
    have h1 : 2 ∣ p := Nat.dvd_of_mod_eq_zero heven
    exact Nat.mod_eq_zero_of_dvd (Nat.dvd_trans h1 (Nat.dvd_of_mod_eq_zero h))
  omega

/-- C17 (as the code behaves): after an accepted `nblk_sync_start`, take two
members with the same even period whose remaining times are multiples of that
period (the re-alignment did not wrap) and at least `n` half timebases.  The next
`n` group ticks return, and if both are still members afterwards they have equal
level, each with its output at that level. -/
theorem same_period_in_phase (tick : Nat) (st st1 : sync_state) (gpio : Int)
    (pd_ms dr_ms : Nat) (sl : Bool) (prio : Nat) (a b : nblink_t) (n : Nat)
    (hinv : reg_inv st.mgr.nblk_list)
    (hrun : nblk_sync_start tick st gpio pd_ms dr_ms sl prio = .ok (true, st1))
    (hper : ∀ e ∈ st1.mgr.nblk_list, 2 ≤ e.period_ms)
    (ha : a ∈ st1.mgr.nblk_list) (hb : b ∈ st1.mgr.nblk_list)
    (hp : a.period_ms = b.period_ms) (heven : a.period_ms % 2 = 0)
    (haa : a.remaining_ms % a.period_ms = 0) (hba : b.remaining_ms % b.period_ms = 0)
    (ha32 : a.remaining_ms ≤ UINT32_MAX) (hb32 : b.remaining_ms ≤ UINT32_MAX)
    (han : n * (st1.mgr.sync_tbase_ms / 2) ≤ a.remaining_ms)
    (hbn : n * (st1.mgr.sync_tbase_ms / 2) ≤ b.remaining_ms) :
    ∃ stn, sync_ticks n st1 = .ok stn ∧
      ∀ a1 ∈ stn.mgr.nblk_list, ∀ b1 ∈ stn.mgr.nblk_list, a1.gpio = a.gpio → b1.gpio = b.gpio →
        a1.level = b1.level ∧
        gpio_get_level stn.gpio_writes a1.gpio = some a1.level ∧
        gpio_get_level stn.gpio_writes b1.gpio = some b1.level := by
  have hinv1 : sync_inv st1 := by
    refine ⟨?_, ?_⟩
    · obtain ⟨d, l, w, _, hpos, hfree, hlt, hl, _, hlist, _⟩ :=
        sync_start_accept_shape tick st st1 gpio pd_ms dr_ms sl prio hinv hrun
      have hbase := reg_inv_append l
        { gpio := gpio, period_ms := pd_ms, remaining_ms := d, level := false,
          stop_level := sl, priority := prio, tmr_blinker := none }
        (hl ▸ reg_inv_filter _ _ hinv) hfree hlt hpos
      obtain ⟨hnd, hlen, hper0⟩ := hbase
      rw [hlist]
      refine ⟨?_, ?_, ?_⟩
      · rw [List.map_map]
        exact hnd
      · rw [List.length_map]; exact hlen
      · intro e he
        obtain ⟨x, hx, hxe⟩ := List.mem_map.mp he
        rw [← hxe]
        exact hper0 x hx
    · intro e he
      obtain ⟨h1, h2⟩ := sync_join_levels tick st st1 gpio pd_ms dr_ms sl prio hinv hrun e he
      unfold level_ok
      rw [h2, h1]
  have hlvl : a.level = b.level := by
    rw [(sync_join_levels tick st st1 gpio pd_ms dr_ms sl prio hinv hrun a ha).1,
      (sync_join_levels tick st st1 gpio pd_ms dr_ms sl prio hinv hrun b hb).1]
  obtain ⟨stn, hticks⟩ := sync_ticks_total n st1 hinv1.1 hper
  obtain ⟨hinvn, _, hsrc⟩ := sync_ticks_entries n st1 stn hinv1 hticks
  refine ⟨stn, hticks, ?_⟩
  intro a1 ha1 b1 hb1 hga hgb
  obtain ⟨a0, ha0, hea⟩ := hsrc a1 ha1
  obtain ⟨b0, hb0, heb⟩ := hsrc b1 hb1
  have ha0eq : a0 = a := by
    apply entry_unique _ hinv1.1 a0 a ha0 ha
    rw [← hga, hea, (sync_cb_entries_gpio _ _ a0).1]
  have hb0eq : b0 = b := by
    apply entry_unique _ hinv1.1 b0 b hb0 hb
    rw [← hgb, heb, (sync_cb_entries_gpio _ _ b0).1]
  rw [ha0eq] at hea
  rw [hb0eq] at heb
  refine ⟨?_, hinvn.2 a1 ha1, hinvn.2 b1 hb1⟩
  rw [hea, heb]
  apply in_phase_entries _ n a b hp hlvl ?_
    (aligned_below_forever _ _ heven haa ha32)
    (aligned_below_forever _ _ (hp ▸ heven) hba hb32) han hbn
  rw [half_period_multiple _ _ heven haa, half_period_multiple _ _ heven (hp ▸ hba)]

theorem same_period_in_phase_witness :
    (reg_inv example_with_sync_state.mgr.nblk_list ∧
      nblk_sync_start 1 example_with_sync_state 22 2000 NBLK_FOREVER false 0 =
        .ok (true, example_with_sync_joined) ∧
      (∀ e ∈ example_with_sync_joined.mgr.nblk_list, 2 ≤ e.period_ms) ∧
      (2000 : Nat) % 2 = 0 ∧ 4294966000 % 2000 = 0 ∧ 4294966000 ≤ UINT32_MAX ∧
      3 * (example_with_sync_joined.mgr.sync_tbase_ms / 2) ≤ 4294966000) ∧
    ∃ stn, sync_ticks 3 example_with_sync_joined = .ok stn ∧
      ∀ a1 ∈ stn.mgr.nblk_list, ∀ b1 ∈ stn.mgr.nblk_list, a1.gpio = 21 → b1.gpio = 22 →
        a1.level = b1.level ∧
        gpio_get_level stn.gpio_writes a1.gpio = some a1.level ∧
        gpio_get_level stn.gpio_writes b1.gpio = some b1.level := by
  have hreg : reg_inv example_with_sync_state.mgr.nblk_list := by
    simp [reg_inv, example_with_sync_state]
  have hper : ∀ e ∈ example_with_sync_joined.mgr.nblk_list, 2 ≤ e.period_ms := by
    simp [example_with_sync_joined]
  exact ⟨⟨hreg, rfl, hper, by decide, by decide, by decide, by decide⟩,
    same_period_in_phase 1 example_with_sync_state example_with_sync_joined 22 2000 NBLK_FOREVER
      false 0
      { gpio := 21, period_ms := 2000, remaining_ms := 4294966000, level := true,
        stop_level := false, priority := 0, tmr_blinker := none }
      { gpio := 22, period_ms := 2000, remaining_ms := 4294966000, level := true,
        stop_level := false, priority := 0, tmr_blinker := none }
      3 hreg rfl hper (by simp [example_with_sync_joined]) (by simp [example_with_sync_joined])
      rfl (by decide) (by decide) (by decide) (by decide) (by decide) (by decide) (by decide)⟩

/-- C17: members with the same odd period fall out of phase.  In a 5 ms group,
output 1 runs with period 5 for 5 ms and output 2 joins with period 5 for 10 ms;
the first tick after the join toggles output 2 only (8 is a multiple of the half
period 2, 3 is not), and both are still members. -/
theorem odd_period_out_of_phase :
    ∃ st st1 stn,
      sync_run 1 (nblk_sync_create_mgr 1 sync_zero 5 false).2 [.start 1 5 5 false 0] = .ok st ∧
      nblk_sync_start 1 st 2 5 10 false 0 = .ok (true, st1) ∧
      sync_ticks 1 st1 = .ok stn ∧
      stn.mgr.nblk_list.map (fun e => (e.gpio, e.period_ms, e.remaining_ms, e.level)) =
        [(1, 5, 3, false), (2, 5, 8, true)] ∧
      gpio_get_level stn.gpio_writes 1 = some false ∧
      gpio_get_level stn.gpio_writes 2 = some true :=
  ⟨_, _, _, rfl, rfl, rfl, rfl, rfl, rfl⟩

/-- What `nblk_sync_create_mgr` does for every prior content of the manager: it
fails exactly for a timebase below the minimum, and on success it empties the
registry, creates the mutex, stores timebase and sync level, and keeps whatever
`deleting` held. -/
theorem create_mgr_spec (tick : Nat) (st : sync_state) (tbase_ms : Nat) (lvl : Bool) :
    ((nblk_sync_create_mgr tick st tbase_ms lvl).1 = false ↔
      tbase_ms < NBLK_MINIMUM_PERIOD tick) ∧
    ((nblk_sync_create_mgr tick st tbase_ms lvl).1 = true →
      (nblk_sync_create_mgr tick st tbase_ms lvl).2.mgr.nblk_list = [] ∧
      (nblk_sync_create_mgr tick st tbase_ms lvl).2.mgr.smpr_list_modify = true ∧
      (nblk_sync_create_mgr tick st tbase_ms lvl).2.mgr.sync_tbase_ms = tbase_ms ∧
      (nblk_sync_create_mgr tick st tbase_ms lvl).2.mgr.sync_level = lvl ∧
      (nblk_sync_create_mgr tick st tbase_ms lvl).2.mgr.deleting = st.mgr.deleting) := by
  unfold nblk_sync_create_mgr
  by_cases h : tbase_ms < NBLK_MINIMUM_PERIOD tick
  · simp [h]
  · simp [h]

/-! ## The registry capacity -/

theorem fill_free (n : Nat) (g : Int) (hg : Int.ofNat n ≤ g) :
    ∀ e ∈ (List.range' 0 n).map fill_entry, e.gpio ≠ g := by
  intro e he
  obtain ⟨i, hi, hie⟩ := List.mem_map.mp he
  rw [← hie]
  have hlt : i < n := by
    have := List.mem_range'_1.mp hi
    omega
  show Int.ofNat i ≠ g
  have : Int.ofNat i < Int.ofNat n := Int.ofNat_lt.mpr hlt
  omega

theorem fill_step (s : nblk_state) (n : Nat) (hn : n < 255)
    (hl : s.nblk_list = (List.range' 0 n).map fill_entry) (hw : s.gpio_writes = []) :
    nblk_start 1 s (Int.ofNat n) 2000 NBLK_FOREVER false 0 = .ok (true, fill_state (n + 1)) := by
  have hfree : ∀ e ∈ s.nblk_list, e.gpio ≠ Int.ofNat n := by
    rw [hl]; exact fill_free n _ (Int.le_refl _)
  have hlen : s.nblk_list.length < 255 := by
    rw [hl]; simpa using hn
  have h1 : ¬ 2000 < NBLK_MINIMUM_PERIOD 1 := by decide
  have h2 : ¬ (2000 : Nat) = 0 := by decide
  have h3 : ¬ (NBLK_FOREVER % 2000 ≠ 0 ∧ NBLK_FOREVER ≠ NBLK_FOREVER) := by
    intro h; exact h.2 rfl
  unfold nblk_start
  rw [if_neg h1, if_neg h2, if_neg h3]
  simp only [idx_absent _ s.nblk_list hfree, ne_eq, not_true_eq_false, if_false]
  rw [insert_absent { s with smpr_list_modify := true } _ 2000 NBLK_FOREVER false 0 hfree hlen]
  simp only [fill_state, hl, hw, List.range'_concat, List.map_append, List.map_cons,
    List.map_nil, fill_entry, Nat.zero_add, Nat.one_mul]

theorem fill_run (k : Nat) : ∀ (n : Nat) (s : nblk_state), n + k ≤ 255 → 0 < k →
    s.nblk_list = (List.range' 0 n).map fill_entry → s.gpio_writes = [] →
    nblk_run 1 s (fill_ops n k) = .ok (fill_state (n + k)) := by
  induction k with
  | zero => intro n s _ hk; omega
  | succ k ih =>
    intro n s hle _ hl hw
    have hstep := fill_step s n (by omega) hl hw
    simp only [fill_ops, List.range', List.map_cons, nblk_run, nblk_step, hstep]
    by_cases hk : 0 < k
    · have := ih (n + 1) (fill_state (n + 1)) (by omega) hk rfl rfl
      simp only [fill_ops] at this
      rw [this]
      congr 2
      omega
    · have hk0 : k = 0 := by omega
      subst hk0
      simp only [List.range', List.map_nil, nblk_run]

/-- 255 accepted starts on distinct outputs fill the registry. -/
theorem full_registry_reached : nblk_run 1 nblk_init (fill_ops 0 255) = .ok (fill_state 255) :=
  fill_run 255 0 nblk_init (by decide) (by decide) rfl rfl

/-- A valid start for an output without entry on a registry of 255 entries: the
counter wraps and the copy lands outside the registry. -/
theorem nblk_start_full (tick : Nat) (s : nblk_state) (gpio : Int) (pd_ms dr_ms : Nat)
    (sl : Bool) (prio : Nat) (hlen : s.nblk_list.length = 255)
    (hfree : ∀ e ∈ s.nblk_list, e.gpio ≠ gpio) (hpd : NBLK_MINIMUM_PERIOD tick ≤ pd_ms)
    (hpos : 0 < pd_ms) (hdr : dr_ms % pd_ms = 0 ∨ dr_ms = NBLK_FOREVER) :
    nblk_start tick s gpio pd_ms dr_ms sl prio = .error .out_of_bounds := by
  have h1 : ¬ pd_ms < NBLK_MINIMUM_PERIOD tick := by omega
  have h2 : ¬ pd_ms = 0 := by omega
  have h3 : ¬ (dr_ms % pd_ms ≠ 0 ∧ dr_ms ≠ NBLK_FOREVER) := by
    rintro ⟨ha, hb⟩
    rcases hdr with h | h
    · exact ha h
    · exact hb h
  unfold nblk_start
  rw [if_neg h1, if_neg h2, if_neg h3]
  simp only [idx_absent _ s.nblk_list hfree, ne_eq, not_true_eq_false, if_false]
  exact insert_full { s with smpr_list_modify := true } gpio pd_ms dr_ms sl prio hfree hlen

/-- C1: with 255 entries registered (255 accepted starts on distinct outputs), a
start for a further output meets the claimed acceptance condition, but the call
does not return true: the `uint8_t` counter `nblk_active` wraps to 0 and the new
entry is copied to `nblk_list[-1]`. -/
theorem full_registry_start_faults :
    nblk_run 1 nblk_init (fill_ops 0 255) = .ok (fill_state 255) ∧
    (NBLK_MINIMUM_PERIOD 1 ≤ 2000 ∧ (NBLK_FOREVER % 2000 = 0 ∨ NBLK_FOREVER = NBLK_FOREVER) ∧
      find_entry (fill_state 255).nblk_list 255 = none) ∧
    nblk_start 1 (fill_state 255) 255 2000 NBLK_FOREVER false 0 = .error .out_of_bounds ∧
    ¬ ∃ s1, nblk_start 1 (fill_state 255) 255 2000 NBLK_FOREVER false 0 = .ok (true, s1) := by
  have hfree : ∀ e ∈ (fill_state 255).nblk_list, e.gpio ≠ 255 :=
    fill_free 255 255 (by decide)
  have hfault : nblk_start 1 (fill_state 255) 255 2000 NBLK_FOREVER false 0 =
      .error .out_of_bounds :=
    nblk_start_full 1 (fill_state 255) 255 2000 NBLK_FOREVER false 0
      (by simp [fill_state]) hfree (by decide) (by decide) (Or.inr rfl)
  refine ⟨full_registry_reached, ⟨by decide, Or.inr rfl, find_entry_absent 255 _ hfree⟩,
    hfault, ?_⟩
  rintro ⟨s1, h⟩
  rw [hfault] at h
  cases h

/-! ## The group accept/reject rule -/

/-- Rounding up in exact arithmetic gives the least multiple of the period that
is at least the given time. -/
theorem ceil_multiple (r p : Nat) (hp : 0 < p) :
    ((r + p - 1) / p * p) % p = 0 ∧ r ≤ (r + p - 1) / p * p ∧ (r + p - 1) / p * p < r + p := by
  have h1 := Nat.div_add_mod (r + p - 1) p
  have h2 := Nat.mod_lt (r + p - 1) hp
  have h3 : p * ((r + p - 1) / p) = (r + p - 1) / p * p := Nat.mul_comm _ _
  refine ⟨Nat.mul_mod_left _ _, ?_, ?_⟩ <;> omega

/-- When the exact rounded-up value fits 32 bits, the code's rounding yields it. -/
theorem round_up32_exact (r p : Nat) (hp : 0 < p) (hr : r < 4294967296)
    (hfit : (r + p - 1) / p * p < 4294967296) : round_up32 r p = (r + p - 1) / p * p := by
  obtain ⟨hc1, hc2, hc3⟩ := ceil_multiple r p hp
  have hm : (r - r % p) % p = 0 := Nat.sub_mod_eq_zero_of_mod_eq (Nat.mod_mod r p).symm
  have hle : r % p ≤ r := Nat.mod_le r p
  have hlt : r % p < p := Nat.mod_lt r hp
  have hcond : r % p = 0 ∨ r - r % p + p < 4294967296 := by
    by_cases h0 : r % p = 0
    · exact Or.inl h0
    · right
      have hmul : (r - r % p + p) % p = 0 := by rw [Nat.add_mod_right]; exact hm
      have := multiple_ge (r - r % p + p) ((r + p - 1) / p * p) p r hmul hc1 (by omega) hc2
      omega
  obtain ⟨h1, h2, h3, _⟩ := round_up32_fits r p hp hr hcond
  have ha := multiple_ge (round_up32 r p) ((r + p - 1) / p * p) p r h1 hc1 h3 hc2
  have hb := multiple_ge ((r + p - 1) / p * p) (round_up32 r p) p r hc1 h1 hc3 h2
  omega

/-- For 32-bit arguments whose exact normalised duration fits 32 bits, lines
332-335 of `nblk_sync_start` compute exactly that duration. -/
theorem normalize_exact (pd_ms dr_ms : Nat) (hp : 0 < pd_ms) (hpd32 : pd_ms ≤ UINT32_MAX)
    (hdr32 : dr_ms ≤ UINT32_MAX) (hfit : normalised_duration pd_ms dr_ms ≤ UINT32_MAX) :
    sync_normalize_dr pd_ms dr_ms = .ok (normalised_duration pd_ms dr_ms) := by
  have hU : UINT32_MAX = 4294967295 := rfl
  have hF : NBLK_FOREVER = 4294967295 := rfl
  rw [hU] at hpd32 hdr32 hfit
  rw [normalize_eq pd_ms dr_ms hp]
  have hsub : (if dr_ms = NBLK_FOREVER then u32_sub dr_ms pd_ms else dr_ms) =
      (if dr_ms = NBLK_FOREVER then NBLK_FOREVER - pd_ms else dr_ms) := by
    by_cases h : dr_ms = NBLK_FOREVER
    · rw [if_pos h, if_pos h, h]
      unfold u32_sub
      rw [hF]; omega
    · rw [if_neg h, if_neg h]
  rw [hsub]
  have hr : (if dr_ms = NBLK_FOREVER then NBLK_FOREVER - pd_ms else dr_ms) < 4294967296 := by
    by_cases h : dr_ms = NBLK_FOREVER
    · rw [if_pos h, hF]; omega
    · rw [if_neg h]; omega
  unfold normalised_duration at hfit ⊢
  rw [round_up32_exact _ pd_ms hp hr (by omega)]

/-- With `dr_ms = NBLK_FOREVER` the exact normalised duration always fits. -/
theorem normalised_forever_fits (pd_ms : Nat) (hp : 0 < pd_ms) (hpd32 : pd_ms ≤ UINT32_MAX) :
    normalised_duration pd_ms NBLK_FOREVER ≤ UINT32_MAX := by
  have hU : UINT32_MAX = 4294967295 := rfl
  have hF : NBLK_FOREVER = 4294967295 := rfl
  rw [hU] at hpd32 ⊢
  unfold normalised_duration
  rw [if_pos rfl]
  obtain ⟨_, _, h3⟩ := ceil_multiple (NBLK_FOREVER - pd_ms) pd_ms hp
  rw [hF] at h3 ⊢
  omega

/-- C2 (as the code behaves): on a created group whose `deleting` flag is clear,
for 32-bit arguments, unless the call has to add a 256th member, and with a
rounded-up duration that fits 32 bits whenever the output has an entry of the
same priority, `nblk_sync_start` returns for every non-zero period,
and it returns true exactly when the period is at least `NBLK_MINIMUM_PERIOD`, is
an exact multiple of the group's `sync_tbase_ms`, and the output has no entry in
the group, or the new priority is higher than the entry's, or equal with the
normalised duration (the requested one rounded up to a multiple of the period,
`NBLK_FOREVER` first reduced by one period) above the entry's remaining time.
The requested duration enters the decision only through that comparison. -/
theorem nblk_sync_start_accept_iff (tick : Nat) (st : sync_state) (gpio : Int)
    (pd_ms dr_ms : Nat) (sl : Bool) (prio : Nat)
    (hmin : 0 < NBLK_MINIMUM_PERIOD tick)
    (hcreated : st.mgr.smpr_list_modify = true) (hlive : st.mgr.deleting = false)
    (htb : NBLK_MINIMUM_PERIOD tick ≤ st.mgr.sync_tbase_ms)
    (hinv : reg_inv st.mgr.nblk_list)
    (hpd32 : pd_ms ≤ UINT32_MAX) (hdr32 : dr_ms ≤ UINT32_MAX)
    (hfit : ∀ e, find_entry st.mgr.nblk_list gpio = some e → prio = e.priority →
      normalised_duration pd_ms dr_ms ≤ UINT32_MAX)
    (hroom : st.mgr.nblk_list.length < 255 ∨ find_entry st.mgr.nblk_list gpio ≠ none ∨
      pd_ms < NBLK_MINIMUM_PERIOD tick ∨ pd_ms % st.mgr.sync_tbase_ms ≠ 0) :
    (0 < pd_ms → ∃ r st1, nblk_sync_start tick st gpio pd_ms dr_ms sl prio = .ok (r, st1)) ∧
    ((∃ st1, nblk_sync_start tick st gpio pd_ms dr_ms sl prio = .ok (true, st1)) ↔
      (NBLK_MINIMUM_PERIOD tick ≤ pd_ms ∧ pd_ms % st.mgr.sync_tbase_ms = 0 ∧
        (find_entry st.mgr.nblk_list gpio = none ∨
          ∃ e, find_entry st.mgr.nblk_list gpio = some e ∧
            (e.priority < prio ∨
              (prio = e.priority ∧ e.remaining_ms < normalised_duration pd_ms dr_ms))))) := by
  by_cases hpd : 0 < pd_ms
  · obtain ⟨d, hd⟩ := normalize_ok pd_ms dr_ms hpd
    obtain ⟨r, st1, hrun, hiff⟩ := sync_start_decision tick st gpio pd_ms dr_ms d sl prio hpd hd
      hcreated hlive (by omega) hinv hroom
    have hexact : ∀ e, find_entry st.mgr.nblk_list gpio = some e → prio = e.priority →
        d = normalised_duration pd_ms dr_ms := by
      intro e hf hp
      have h1 := normalize_exact pd_ms dr_ms hpd hpd32 hdr32 (hfit e hf hp)
      rw [hd] at h1
      injection h1
    refine ⟨fun _ => ⟨r, st1, hrun⟩, ?_⟩
    constructor
    · rintro ⟨st2, h2⟩
      rw [hrun] at h2
      have hr : r = true := by
        injection h2 with h3
        exact congrArg Prod.fst h3
      obtain ⟨ha, hb, hc⟩ := hiff.mp hr
      refine ⟨ha, hb, ?_⟩
      rcases hc with hc | ⟨e, hf, hc | ⟨hp, hc⟩⟩
      · exact Or.inl hc
      · exact Or.inr ⟨e, hf, Or.inl hc⟩
      · exact Or.inr ⟨e, hf, Or.inr ⟨hp, by rw [← hexact e hf hp]; exact hc⟩⟩
    · rintro ⟨ha, hb, hc⟩
      have hr : r = true := by
        apply hiff.mpr
        refine ⟨ha, hb, ?_⟩
        rcases hc with hc | ⟨e, hf, hc | ⟨hp, hc⟩⟩
        · exact Or.inl hc
        · exact Or.inr ⟨e, hf, Or.inl hc⟩
        · exact Or.inr ⟨e, hf, Or.inr ⟨hp, by rw [hexact e hf hp]; exact hc⟩⟩
      rw [hr] at hrun
      exact ⟨st1, hrun⟩
  · have h0 : pd_ms = 0 := by omega
    subst h0
    refine ⟨fun h => absurd h hpd, ?_⟩
    rw [sync_start_zero_period tick st gpio dr_ms sl prio hcreated hlive]
    constructor
    · rintro ⟨_, h⟩; cases h
    · rintro ⟨h, _⟩; omega

theorem sync_finite_member_reached :
    sync_run 1 (nblk_sync_create_mgr 1 sync_zero 1000 true).2 [.start 21 2000 6000 false 0] =
      .ok finite_member_state := rfl

theorem nblk_sync_start_accept_iff_witness :
    (0 < NBLK_MINIMUM_PERIOD 1 ∧ finite_member_state.mgr.smpr_list_modify = true ∧
      finite_member_state.mgr.deleting = false ∧
      NBLK_MINIMUM_PERIOD 1 ≤ finite_member_state.mgr.sync_tbase_ms ∧
      reg_inv finite_member_state.mgr.nblk_list ∧
      4000 ≤ UINT32_MAX ∧ 5000 ≤ UINT32_MAX ∧ normalised_duration 4000 5000 = 8000 ∧
      (∀ e, find_entry finite_member_state.mgr.nblk_list 21 = some e → 0 = e.priority →
        normalised_duration 4000 5000 ≤ UINT32_MAX) ∧
      (finite_member_state.mgr.nblk_list.length < 255 ∨
        find_entry finite_member_state.mgr.nblk_list 21 ≠ none ∨
        4000 < NBLK_MINIMUM_PERIOD 1 ∨ 4000 % finite_member_state.mgr.sync_tbase_ms ≠ 0)) ∧
    ((0 < 4000 → ∃ r st1,
        nblk_sync_start 1 finite_member_state 21 4000 5000 false 0 = .ok (r, st1)) ∧
     ((∃ st1, nblk_sync_start 1 finite_member_state 21 4000 5000 false 0 = .ok (true, st1)) ↔
      (NBLK_MINIMUM_PERIOD 1 ≤ 4000 ∧ 4000 % finite_member_state.mgr.sync_tbase_ms = 0 ∧
        (find_entry finite_member_state.mgr.nblk_list 21 = none ∨
          ∃ e, find_entry finite_member_state.mgr.nblk_list 21 = some e ∧
            (e.priority < 0 ∨
              (0 = e.priority ∧ e.remaining_ms < normalised_duration 4000 5000)))))) :=
  ⟨⟨by decide, rfl, rfl, by decide, by simp [reg_inv, finite_member_state], by decide,
    by decide, by decide, fun _ _ _ => by decide, Or.inl (by decide)⟩,
   nblk_sync_start_accept_iff 1 finite_member_state 21 4000 5000 false 0
     (by decide) rfl rfl (by decide) (by simp [reg_inv, finite_member_state]) (by decide)
     (by decide) (fun _ _ _ => by decide) (Or.inl (by decide))⟩

/-- A group start that passes validation for an output without entry goes
straight to the insertion, with the duration the code normalised. -/
theorem sync_start_absent (tick : Nat) (st : sync_state) (gpio : Int) (pd_ms dr_ms : Nat)
    (sl : Bool) (prio : Nat) (hcreated : st.mgr.smpr_list_modify = true)
    (hlive : st.mgr.deleting = false) (hpd : 0 < pd_ms)
    (hmin : NBLK_MINIMUM_PERIOD tick ≤ pd_ms) (htb : 0 < st.mgr.sync_tbase_ms)
    (hmul : pd_ms % st.mgr.sync_tbase_ms = 0)
    (hfree : ∀ e ∈ st.mgr.nblk_list, e.gpio ≠ gpio) :
    nblk_sync_start tick st gpio pd_ms dr_ms sl prio =
      nblk_sync_start_insert st gpio pd_ms
        (round_up32 (if dr_ms = NBLK_FOREVER then u32_sub dr_ms pd_ms else dr_ms) pd_ms)
        sl prio := by
  have hs : ¬ st.mgr.smpr_list_modify = false := by rw [hcreated]; decide
  have hl : ¬ st.mgr.deleting = true := by rw [hlive]; decide
  have ht0 : ¬ st.mgr.sync_tbase_ms = 0 := by omega
  have h1 : ¬ pd_ms < NBLK_MINIMUM_PERIOD tick := by omega
  have h2 : ¬ pd_ms % st.mgr.sync_tbase_ms ≠ 0 := by omega
  have hidx : get_nblk_idx_in_list_s st.mgr gpio = UINT8_MAX := idx_absent gpio _ hfree
  unfold nblk_sync_start
  rw [if_neg hs, if_neg hl, normalize_eq pd_ms dr_ms hpd]
  simp only []
  rw [if_neg h1, if_neg ht0, if_neg h2, if_neg hs]
  simp only [hidx, ne_eq, not_true_eq_false, if_false]

/-- A valid group start for an output without entry on a group of 255 members:
the counter wraps and the copy lands outside the registry. -/
theorem sync_start_full (tick : Nat) (st : sync_state) (gpio : Int) (pd_ms dr_ms : Nat)
    (sl : Bool) (prio : Nat) (hcreated : st.mgr.smpr_list_modify = true)
    (hlive : st.mgr.deleting = false) (hpd : 0 < pd_ms)
    (hmin : NBLK_MINIMUM_PERIOD tick ≤ pd_ms) (htb : 0 < st.mgr.sync_tbase_ms)
    (hmul : pd_ms % st.mgr.sync_tbase_ms = 0)
    (hfree : ∀ e ∈ st.mgr.nblk_list, e.gpio ≠ gpio) (hlen : st.mgr.nblk_list.length = 255) :
    nblk_sync_start tick st gpio pd_ms dr_ms sl prio = .error .out_of_bounds := by
  have hidx : get_nblk_idx_in_list_s st.mgr gpio = UINT8_MAX := idx_absent gpio _ hfree
  have hmod : (st.mgr.nblk_list.length + 1) % 256 = 0 := by omega
  rw [sync_start_absent tick st gpio pd_ms dr_ms sl prio hcreated hlive hpd hmin htb hmul hfree]
  unfold nblk_sync_start_insert
  simp only [hlive, if_true, add_nblk_to_list_s, hidx, hmod]

theorem range_free (n : Nat) (l : List nblink_t)
    (hg : l.map (fun e => e.gpio) = (List.range' 0 n).map Int.ofNat) (g : Int)
    (hle : Int.ofNat n ≤ g) : ∀ e ∈ l, e.gpio ≠ g := by
  intro e he
  have hm : e.gpio ∈ l.map (fun e => e.gpio) := List.mem_map.mpr ⟨e, he, rfl⟩
  rw [hg] at hm
  obtain ⟨i, hi, hie⟩ := List.mem_map.mp hm
  have hlt : i < n := by
    have := List.mem_range'_1.mp hi
    omega
  have : Int.ofNat i < Int.ofNat n := Int.ofNat_lt.mpr hlt
  omega

theorem sync_fill_step (st : sync_state) (n : Nat) (hn : n < 255)
    (hg : st.mgr.nblk_list.map (fun e => e.gpio) = (List.range' 0 n).map Int.ofNat)
    (hper : ∀ e ∈ st.mgr.nblk_list, 0 < e.period_ms)
    (hcreated : st.mgr.smpr_list_modify = true) (hlive : st.mgr.deleting = false)
    (htb : st.mgr.sync_tbase_ms = 1000) :
    ∃ st1, nblk_sync_start 1 st (Int.ofNat n) 2000 NBLK_FOREVER false 0 = .ok (true, st1) ∧
      st1.mgr.nblk_list.map (fun e => e.gpio) = (List.range' 0 (n + 1)).map Int.ofNat ∧
      (∀ e ∈ st1.mgr.nblk_list, 0 < e.period_ms) ∧
      st1.mgr.smpr_list_modify = true ∧ st1.mgr.deleting = false ∧
      st1.mgr.sync_tbase_ms = 1000 := by
  have hfree := range_free n st.mgr.nblk_list hg (Int.ofNat n) (Int.le_refl _)
  have hlen : st.mgr.nblk_list.length < 255 := by
    have := congrArg List.length hg
    simp only [List.length_map, List.length_range'] at this
    omega
  rw [sync_start_absent 1 st (Int.ofNat n) 2000 NBLK_FOREVER false 0 hcreated hlive (by decide)
    (by decide) (by omega) (by rw [htb]) hfree]
  unfold nblk_sync_start_insert
  simp only [hlive, if_true]
  rw [add_s_absent st _ hfree hlen hper (show 0 < 2000 by decide)]
  refine ⟨_, rfl, ?_, ?_, hcreated, hlive, htb⟩
  · simp only [List.map_map, List.map_append, List.map_cons, List.map_nil,
      List.range'_concat, Nat.zero_add, Nat.one_mul]
    have hcomp : ((fun e : nblink_t => e.gpio) ∘ sync_entry_val st.mgr.sync_level) =
        (fun e : nblink_t => e.gpio) := by
      funext e; rfl
    rw [hcomp, hg]
    rfl
  · intro e he
    obtain ⟨x, hx, hxe⟩ := List.mem_map.mp he
    rw [← hxe]
    show 0 < x.period_ms
    rcases List.mem_append.mp hx with h1 | h1
    · exact hper x h1
    · rw [List.mem_singleton.mp h1]; exact (show 0 < 2000 by decide)

theorem sync_fill_run (k : Nat) : ∀ (n : Nat) (st : sync_state), n + k ≤ 255 →
    st.mgr.nblk_list.map (fun e => e.gpio) = (List.range' 0 n).map Int.ofNat →
    (∀ e ∈ st.mgr.nblk_list, 0 < e.period_ms) →
    st.mgr.smpr_list_modify = true → st.mgr.deleting = false →
    st.mgr.sync_tbase_ms = 1000 →
    ∃ st1, sync_run 1 st (fill_sync_ops n k) = .ok st1 ∧
      st1.mgr.nblk_list.map (fun e => e.gpio) = (List.range' 0 (n + k)).map Int.ofNat ∧
      (∀ e ∈ st1.mgr.nblk_list, 0 < e.period_ms) ∧
      st1.mgr.smpr_list_modify = true ∧ st1.mgr.deleting = false ∧
      st1.mgr.sync_tbase_ms = 1000 := by
  induction k with
  | zero =>
    intro n st _ hg hper hc hl ht
    exact ⟨st, rfl, hg, hper, hc, hl, ht⟩
  | succ k ih =>
    intro n st hle hg hper hc hl ht
    obtain ⟨st1, hstep, hg1, hper1, hc1, hl1, ht1⟩ :=
      sync_fill_step st n (by omega) hg hper hc hl ht
    obtain ⟨st2, hrun, hg2, hrest⟩ := ih (n + 1) st1 (by omega) hg1 hper1 hc1 hl1 ht1
    refine ⟨st2, ?_, ?_, hrest⟩
    · simp only [fill_sync_ops, List.range', List.map_cons, sync_run, sync_step, hstep]
      exact hrun
    · rw [hg2]
      congr 2
      omega

/-- C2: with 255 members in the group (255 accepted starts on distinct outputs
after a successful create), a start for a further output meets the claimed
acceptance condition, but the call does not return true: the `uint8_t` counter
`nblk_active` wraps to 0 and the new entry is copied to `nblk_list[-1]`. -/
theorem full_group_start_faults :
    ∃ st, sync_run 1 (nblk_sync_create_mgr 1 sync_zero 1000 true).2 (fill_sync_ops 0 255) =
        .ok st ∧
      (nblk_sync_create_mgr 1 sync_zero 1000 true).1 = true ∧
      st.mgr.smpr_list_modify = true ∧ st.mgr.deleting = false ∧
      st.mgr.nblk_list.length = 255 ∧
      (NBLK_MINIMUM_PERIOD 1 ≤ 2000 ∧ 2000 % st.mgr.sync_tbase_ms = 0 ∧
        find_entry st.mgr.nblk_list 255 = none) ∧
      nblk_sync_start 1 st 255 2000 NBLK_FOREVER false 0 = .error .out_of_bounds ∧
      ¬ ∃ st1, nblk_sync_start 1 st 255 2000 NBLK_FOREVER false 0 = .ok (true, st1) := by
  obtain ⟨st, hrun, hg, hper, hc, hl, ht⟩ :=
    sync_fill_run 255 0 (nblk_sync_create_mgr 1 sync_zero 1000 true).2 (by decide) rfl
      (by intro e he; cases he) rfl rfl rfl
  have hfree := range_free 255 st.mgr.nblk_list hg 255 (by decide)
  have hlen : st.mgr.nblk_list.length = 255 := by
    have := congrArg List.length hg
    simpa using this
  have hfault := sync_start_full 1 st 255 2000 NBLK_FOREVER false 0 hc hl (by decide)
    (by decide) (by omega) (by rw [ht]) hfree hlen
  refine ⟨st, hrun, rfl, hc, hl, hlen, ⟨by decide, by rw [ht], find_entry_absent 255 _ hfree⟩,
    hfault, ?_⟩
  rintro ⟨st1, h⟩
  rw [hfault] at h
  cases h

/-! ## One output among interleaved events -/

theorem writes_of_other (w : List (Int × Bool)) (g gpio : Int) (v : Bool) (h : g ≠ gpio) :
    writes_of ((g, v) :: w) gpio = writes_of w gpio := by
  simp [writes_of, List.filter_cons, h]

theorem writes_of_self (w : List (Int × Bool)) (gpio : Int) (v : Bool) :
    writes_of ((gpio, v) :: w) gpio = (gpio, v) :: writes_of w gpio := by
  simp [writes_of, List.filter_cons]

theorem find_entry_filter (l : List nblink_t) (g gpio : Int) (h : g ≠ gpio) :
    find_entry (l.filter (fun e => decide (e.gpio ≠ g))) gpio = find_entry l gpio := by
  induction l with
  | nil => rfl
  | cons x rest ih =>
    unfold find_entry at ih ⊢
    rw [List.filter_cons]
    by_cases hx : x.gpio = g
    · have hd : decide (x.gpio ≠ g) = false := by simp [hx]
      have hx2 : decide (x.gpio = gpio) = false := by simp [hx, h]
      rw [hd]
      simp only [Bool.false_eq_true, if_false]
      rw [List.find?_cons, hx2]
      exact ih
    · have hd : decide (x.gpio ≠ g) = true := by simp [hx]
      rw [hd]
      simp only [if_true]
      rw [List.find?_cons, List.find?_cons, ih]

theorem find_entry_append_other (l : List nblink_t) (e : nblink_t) (gpio : Int)
    (h : e.gpio ≠ gpio) : find_entry (l ++ [e]) gpio = find_entry l gpio := by
  unfold find_entry
  simp [List.find?_append, List.find?_cons, h]

theorem find_entry_replace_other (pre post : List nblink_t) (e e1 : nblink_t) (gpio : Int)
    (h : e.gpio ≠ gpio) (h1 : e1.gpio ≠ gpio) :
    find_entry (pre ++ e1 :: post) gpio = find_entry (pre ++ e :: post) gpio := by
  unfold find_entry
  simp [List.find?_append, List.find?_cons, h, h1]

theorem find_entry_erase_other (pre post : List nblink_t) (e : nblink_t) (gpio : Int)
    (h : e.gpio ≠ gpio) :
    find_entry (pre ++ post) gpio = find_entry (pre ++ e :: post) gpio := by
  unfold find_entry
  simp [List.find?_append, List.find?_cons, h]

/-- An event that addresses another output leaves the entry of an output and the
writes to it as they are. -/
theorem step_other_view (tick : Nat) (s s1 : nblk_state) (op : nblk_op) (gpio : Int)
    (hinv : reg_inv s.nblk_list) (hrun : nblk_step tick s op = .ok s1)
    (hop : nblk_op_gpio op ≠ gpio) :
    find_entry s1.nblk_list gpio = find_entry s.nblk_list gpio ∧
      writes_of s1.gpio_writes gpio = writes_of s.gpio_writes gpio := by
  cases op with
  | start g pd_ms dr_ms sl prio =>
    have hg : g ≠ gpio := hop
    simp only [nblk_step] at hrun
    split at hrun
    · cases hrun
    · rename_i r s2 heq
      injection hrun with h1
      subst h1
      cases r with
      | false =>
        obtain ⟨hl, hw, _⟩ := nblk_start_rejected tick s g pd_ms dr_ms sl prio s2 heq
        rw [hl, hw]
        exact ⟨rfl, rfl⟩
      | true =>
        obtain ⟨l, _, _, hfilt, hlist⟩ :=
          start_accept_shape tick s s2 g pd_ms dr_ms sl prio hinv heq
        obtain ⟨_, _, hw⟩ := start_accept_writes tick s s2 g pd_ms dr_ms sl prio hinv heq
        constructor
        · rw [hlist, find_entry_append_other l _ gpio hg, hfilt, find_entry_filter _ g gpio hg]
        · rcases hw with hw | ⟨e, _, _, hw⟩
          · rw [hw]
          · rw [hw, writes_of_other _ _ _ _ hg]
  | stop g sl =>
    have hg : g ≠ gpio := hop
    simp only [nblk_step] at hrun
    split at hrun
    · cases hrun
    · rename_i r s2 heq
      injection hrun with h1
      subst h1
      rcases stop_effect s s2 g sl r hinv heq with h | ⟨e, _, _, hl, hw⟩
      · rw [h]; exact ⟨rfl, rfl⟩
      · rw [hl, hw, find_entry_filter _ g gpio hg, writes_of_other _ _ _ _ hg,
          writes_of_other _ _ _ _ hg]
        exact ⟨rfl, rfl⟩
  | tick g =>
    have hg : g ≠ gpio := hop
    simp only [nblk_step] at hrun
    split at hrun
    · obtain ⟨pre, e, post, hl, he, _, h⟩ := cb_effect s s1 g hinv hrun
      have heg : e.gpio ≠ gpio := by rw [he]; exact hg
      rcases h with ⟨_, hl1, hw⟩ | ⟨_, hl1, hw⟩
      · rw [hl1, hw, hl, writes_of_other _ _ _ _ hg]
        exact ⟨find_entry_replace_other pre post e _ gpio heg heg, rfl⟩
      · rw [hl1, hw, hl, writes_of_other _ _ _ _ hg]
        exact ⟨find_entry_erase_other pre post e gpio heg, rfl⟩
    · injection hrun with h1
      subst h1
      exact ⟨rfl, rfl⟩

/-- A tick of the timer of an output acts on the entry of that output and on the
writes to it as `own_tick` describes. -/
theorem step_tick_view (tick : Nat) (s s1 : nblk_state) (gpio : Int)
    (hinv : reg_inv s.nblk_list) (hrun : nblk_step tick s (.tick gpio) = .ok s1) :
    (find_entry s1.nblk_list gpio, writes_of s1.gpio_writes gpio) =
      own_tick gpio (find_entry s.nblk_list gpio, writes_of s.gpio_writes gpio) := by
  simp only [nblk_step] at hrun
  split at hrun
  · obtain ⟨pre, e, post, hl, he, hfree, h⟩ := cb_effect s s1 gpio hinv hrun
    have hpre : ∀ x ∈ pre, x.gpio ≠ gpio := fun x hx => hfree x (List.mem_append_left _ hx)
    have hfind : find_entry s.nblk_list gpio = some e := by
      rw [hl]; exact find_entry_split gpio pre e post hpre he
    rw [hfind]
    rcases h with ⟨hc, hl1, hw⟩ | ⟨hc, hl1, hw⟩
    · have hl2 : s1.nblk_list = pre ++ nblk_cb_entry e :: post := hl1
      simp only [own_tick, if_pos hc]
      rw [hl2, hw, writes_of_self]
      rw [find_entry_split gpio pre (nblk_cb_entry e) post hpre he]
    · simp only [own_tick, if_neg hc]
      rw [hl1, hw, writes_of_self, find_entry_absent gpio _ hfree]
  · rename_i hnb
    injection hrun with h1
    subst h1
    have hfree := not_blinking_free s gpio hinv.2.1 hnb
    rw [find_entry_absent gpio _ hfree]
    rfl

theorem own_ticks_succ (gpio : Int) (n : Nat) (v : Option nblink_t × List (Int × Bool)) :
    own_ticks gpio (n + 1) v = own_tick gpio (own_ticks gpio n v) := by
  induction n generalizing v with
  | zero => rfl
  | succ m ih =>
    show own_ticks gpio (m + 1) (own_tick gpio v) = _
    rw [ih (own_tick gpio v)]
    rfl

/-- Events that include no `nblk_start` or `nblk_stop` on an output act on its
entry and on the writes to it as the ticks of its timer alone. -/
theorem run_view (tick : Nat) (gpio : Int) (ops : List nblk_op) :
    ∀ s sn : nblk_state, reg_inv s.nblk_list →
      (∀ op ∈ ops, nblk_op_touches gpio op = false) →
      nblk_run tick s ops = .ok sn →
      (find_entry sn.nblk_list gpio, writes_of sn.gpio_writes gpio) =
        own_ticks gpio (tick_count gpio ops)
          (find_entry s.nblk_list gpio, writes_of s.gpio_writes gpio) := by
  induction ops with
  | nil =>
    intro s sn _ _ hrun
    simp only [nblk_run] at hrun
    injection hrun with h1
    subst h1
    rfl
  | cons op rest ih =>
    intro s sn hinv hfree hrun
    simp only [nblk_run] at hrun
    split at hrun
    · cases hrun
    · rename_i s2 heq
      have hinv2 := nblk_step_inv tick s s2 op hinv heq
      have hrest := ih s2 sn hinv2 (fun o ho => hfree o (List.mem_cons_of_mem _ ho)) hrun
      have hop := hfree op (List.mem_cons_self _ _)
      rw [hrest]
      by_cases hg : nblk_op_gpio op = gpio
      · cases op with
        | start g pd_ms dr_ms sl prio =>
          exfalso
          simp only [nblk_op_touches, decide_eq_false_iff_not] at hop
          exact hop hg
        | stop g sl =>
          exfalso
          simp only [nblk_op_touches, decide_eq_false_iff_not] at hop
          exact hop hg
        | tick g =>
          have hg' : g = gpio := hg
          subst hg'
          simp only [tick_count, if_true]
          rw [Nat.add_comm]
          show _ = own_ticks g (tick_count g rest) (own_tick g _)
          rw [step_tick_view tick s s2 g hinv heq]
      · obtain ⟨h1, h2⟩ := step_other_view tick s s2 op gpio hinv heq hg
        rw [h1, h2]
        cases op with
        | start g pd_ms dr_ms sl prio => rfl
        | stop g sl => rfl
        | tick g =>
          have hg' : ¬ g = gpio := hg
          simp only [tick_count, if_neg hg', Nat.zero_add]

theorem start_count_cons (op : nblk_op) (ops : List nblk_op) :
    start_count (op :: ops) = start_count [op] + start_count ops := by
  cases op <;> simp [start_count]

/-- On a registry with room `nblk_start` returns. -/
theorem nblk_start_returns (tick : Nat) (s : nblk_state) (gpio : Int) (pd_ms dr_ms : Nat)
    (sl : Bool) (prio : Nat) (hmin : 0 < NBLK_MINIMUM_PERIOD tick)
    (hroom : s.nblk_list.length < 255) :
    ∃ r s1, nblk_start tick s gpio pd_ms dr_ms sl prio = .ok (r, s1) := by
  have hlen : s.nblk_list.length ≤ 255 := Nat.le_of_lt hroom
  unfold nblk_start
  by_cases h1 : pd_ms < NBLK_MINIMUM_PERIOD tick
  · exact ⟨false, s, by simp [h1]⟩
  have hpd : pd_ms ≠ 0 := by omega
  simp only [h1, if_false, hpd]
  by_cases h2 : dr_ms % pd_ms ≠ 0 ∧ dr_ms ≠ NBLK_FOREVER
  · exact ⟨false, s, by rw [if_pos h2]⟩
  rw [if_neg h2]
  rcases registry_split gpio s.nblk_list with h | ⟨pre, e, post, hl, hpre, he⟩
  · obtain ⟨s1, hs1⟩ :=
      insert_ok { s with smpr_list_modify := true } gpio pd_ms dr_ms sl prio hroom
    refine ⟨true, s1, ?_⟩
    simp only [idx_absent gpio s.nblk_list h, ne_eq, not_true_eq_false, if_false]
    exact hs1
  · have hidx : get_nblk_idx_in_list s.nblk_list gpio = pre.length := by
      rw [hl]; exact idx_split gpio pre e post hpre he (hl ▸ hlen)
    have hlt : pre.length ≠ UINT8_MAX := by
      rw [hl] at hlen
      simp only [List.length_append, List.length_cons] at hlen
      unfold UINT8_MAX
      omega
    have hget : s.nblk_list[pre.length]? = some e := by rw [hl]; exact split_get pre e post
    have hdel := del_split { s with smpr_list_modify := true } gpio pre e post hl hpre he hlen
    have hlen2 : (pre ++ post).length < 255 := by
      rw [hl] at hlen
      simp only [List.length_append, List.length_cons] at hlen
      simp only [List.length_append]
      omega
    obtain ⟨s1, hs1⟩ := insert_ok
      { s with smpr_list_modify := true,
               gpio_writes := gpio_set_level s.gpio_writes gpio e.stop_level,
               nblk_list := pre ++ post } gpio pd_ms dr_ms sl prio hlen2
    simp only [hidx, hlt, ne_eq, not_false_eq_true, if_true, hget, hdel]
    by_cases h5 : prio > e.priority
    · exact ⟨true, s1, by rw [if_pos h5]; exact hs1⟩
    · by_cases h6 : prio = e.priority ∧ dr_ms > e.remaining_ms
      · exact ⟨true, s1, by rw [if_neg h5, if_pos h6]; exact hs1⟩
      · exact ⟨false, { s with smpr_list_modify := true }, by rw [if_neg h5, if_neg h6]⟩

/-- One event returns on a well-formed registry that has room for the entry a
start may add, and only a start can make the registry longer. -/
theorem nblk_step_total (tick : Nat) (s : nblk_state) (op : nblk_op)
    (hinv : reg_inv s.nblk_list) (hmin : 0 < NBLK_MINIMUM_PERIOD tick)
    (hroom : s.nblk_list.length + start_count [op] ≤ 255) :
    ∃ s1, nblk_step tick s op = .ok s1 ∧
      s1.nblk_list.length ≤ s.nblk_list.length + start_count [op] := by
  cases op with
  | start g pd_ms dr_ms sl prio =>
    have hlt : s.nblk_list.length < 255 := by
      simp only [start_count] at hroom
      omega
    obtain ⟨r, s1, hrun⟩ := nblk_start_returns tick s g pd_ms dr_ms sl prio hmin hlt
    refine ⟨s1, by simp only [nblk_step, hrun], ?_⟩
    cases r with
    | false =>
      rw [(nblk_start_rejected tick s g pd_ms dr_ms sl prio s1 hrun).1]
      omega
    | true =>
      obtain ⟨l, _, _, hfilt, hlist⟩ :=
        start_accept_shape tick s s1 g pd_ms dr_ms sl prio hinv hrun
      have hle := List.length_filter_le (fun e : nblink_t => decide (e.gpio ≠ g)) s.nblk_list
      rw [hlist, List.length_append, hfilt]
      simp only [List.length_cons, List.length_nil, start_count]
      omega
  | stop g sl =>
    have hex : ∃ r s1, nblk_stop s g sl = .ok (r, s1) := by
      rcases registry_split g s.nblk_list with h | ⟨pre, e, post, hl, hpre, he⟩
      · exact ⟨_, _, nblk_stop_absent s g sl h⟩
      · by_cases hm : s.smpr_list_modify = true
        · exact ⟨_, _, nblk_stop_split s g sl pre e post hl hpre he hinv.2.1 hm⟩
        · have hm' : s.smpr_list_modify = false := by
            cases hb : s.smpr_list_modify
            · rfl
            · exact absurd hb hm
          refine ⟨false, s, ?_⟩
          unfold nblk_stop
          rw [if_pos hm']
    obtain ⟨r, s1, hrun⟩ := hex
    refine ⟨s1, by simp only [nblk_step, hrun], ?_⟩
    rcases stop_effect s s1 g sl r hinv hrun with h | ⟨_, _, _, hl, _⟩
    · rw [h]; omega
    · have hle := List.length_filter_le (fun e : nblink_t => decide (e.gpio ≠ g)) s.nblk_list
      rw [hl]
      omega
  | tick g =>
    simp only [nblk_step]
    by_cases hb : nblk_is_blinking s g = true
    · rw [if_pos hb]
      have hex : ∃ s1, nblk_cb s g = .ok s1 := by
        rcases registry_split g s.nblk_list with h | ⟨pre, e, post, hl, hpre, he⟩
        · exfalso
          unfold nblk_is_blinking at hb
          rw [idx_absent g s.nblk_list h] at hb
          simp at hb
        · by_cases hc : e.period_ms / 2 < e.remaining_ms
          · exact ⟨_, nblk_cb_toggle s g pre e post hl hpre he hinv.2.1 hc⟩
          · exact ⟨_, nblk_cb_expire s g pre e post hl hpre he hinv.2.1 hc⟩
      obtain ⟨s1, hrun⟩ := hex
      refine ⟨s1, hrun, ?_⟩
      obtain ⟨pre, e, post, hl, _, _, h⟩ := cb_effect s s1 g hinv hrun
      rcases h with ⟨_, hl1, _⟩ | ⟨_, hl1, _⟩
      · rw [hl1, hl]
        simp only [List.length_append, List.length_cons]
        omega
      · rw [hl1, hl]
        simp only [List.length_append, List.length_cons]
        omega
    · rw [if_neg hb]
      exact ⟨s, rfl, by omega⟩

/-- A sequence of events returns when the registry has room for one entry per
`nblk_start` call in it. -/
theorem nblk_run_total (tick : Nat) (ops : List nblk_op) :
    ∀ s : nblk_state, reg_inv s.nblk_list → 0 < NBLK_MINIMUM_PERIOD tick →
      s.nblk_list.length + start_count ops ≤ 255 →
      ∃ sn, nblk_run tick s ops = .ok sn := by
  induction ops with
  | nil => intro s _ _ _; exact ⟨s, rfl⟩
  | cons op rest ih =>
    intro s hinv hmin hcap
    rw [start_count_cons] at hcap
    obtain ⟨s1, hstep, hlen⟩ := nblk_step_total tick s op hinv hmin (by omega)
    obtain ⟨sn, hrun⟩ := ih s1 (nblk_step_inv tick s s1 op hinv hstep) hmin (by omega)
    exact ⟨sn, by simp only [nblk_run, hstep, hrun]⟩

/-- The entry and the writes after `n` ticks of an entry that starts at level 0
and does not expire during these ticks: `r j` is its remaining time after `j`
ticks. -/
theorem own_ticks_toggle (gpio : Int) (e : nblink_t) (w : List (Int × Bool)) (r : Nat → Nat)
    (n : Nat) (hlvl : e.level = false) (h0 : r 0 = e.remaining_ms)
    (hstep : ∀ j, j < n → e.period_ms / 2 < r j ∧
      r (j + 1) = if r j ≠ NBLK_FOREVER then u32_sub (r j) (e.period_ms / 2) else r j) :
    own_ticks gpio n (some e, w) =
      (some { e with remaining_ms := r n, level := decide (n % 2 = 1) },
        toggle_writes gpio n ++ w) := by
  induction n with
  | zero =>
    cases e
    simp only at hlvl h0
    simp [own_ticks, toggle_writes, hlvl, h0]
  | succ m ih =>
    have hprev := ih (fun j hj => hstep j (Nat.lt_succ_of_lt hj))
    obtain ⟨hc, hr⟩ := hstep m (Nat.lt_succ_self m)
    rw [own_ticks_succ, hprev]
    have hc' : ({ e with remaining_ms := r m, level := decide (m % 2 = 1) } : nblink_t).period_ms
        / 2 < ({ e with remaining_ms := r m, level := decide (m % 2 = 1) } : nblink_t).remaining_ms :=
      hc
    simp only [own_tick, if_pos hc', nblk_cb_entry, ← hr]
    have hpar : (if decide (m % 2 = 1) = true then false else true) = decide ((m + 1) % 2 = 1) := by
      rcases Nat.mod_two_eq_zero_or_one m with h | h
      · have h2 : (m + 1) % 2 = 1 := by omega
        simp [h, h2]
      · have h2 : (m + 1) % 2 = 0 := by omega
        simp [h, h2]
    have hpar2 : decide (m % 2 = 0) = decide ((m + 1) % 2 = 1) := by
      rcases Nat.mod_two_eq_zero_or_one m with h | h
      · have h2 : (m + 1) % 2 = 1 := by omega
        simp [h, h2]
      · have h2 : (m + 1) % 2 = 0 := by omega
        simp [h, h2]
    simp only [hpar, toggle_writes, hpar2, List.cons_append]

theorem find_entry_blinking (s : nblk_state) (gpio : Int) (e : nblink_t)
    (hlen : s.nblk_list.length ≤ 255) (h : find_entry s.nblk_list gpio = some e) :
    nblk_is_blinking s gpio = true := by
  by_contra hnb
  have hfree := not_blinking_free s gpio hlen hnb
  rw [find_entry_absent gpio _ hfree] at h
  cases h

theorem find_entry_none_idle (s : nblk_state) (gpio : Int)
    (h : find_entry s.nblk_list gpio = none) : nblk_is_blinking s gpio = false := by
  rcases registry_split gpio s.nblk_list with h1 | ⟨pre, e, post, hl, hpre, he⟩
  · unfold nblk_is_blinking
    rw [idx_absent gpio s.nblk_list h1]
    simp
  · rw [hl, find_entry_split gpio pre e post hpre he] at h
    cases h

/-- The view of the started output right after an accepted `nblk_start`. -/
theorem start_accept_view (tick : Nat) (s s1 : nblk_state) (gpio : Int) (pd_ms dr_ms : Nat)
    (sl : Bool) (prio : Nat) (hinv : reg_inv s.nblk_list)
    (hrun : nblk_start tick s gpio pd_ms dr_ms sl prio = .ok (true, s1)) :
    reg_inv s1.nblk_list ∧
    find_entry s1.nblk_list gpio =
      some { gpio := gpio, period_ms := pd_ms, remaining_ms := dr_ms, level := false,
             stop_level := sl, priority := prio, tmr_blinker := some ((pd_ms / 2) * 1000) } := by
  obtain ⟨l, hfree, _, _, hlist⟩ :=
    start_accept_shape tick s s1 gpio pd_ms dr_ms sl prio hinv hrun
  refine ⟨start_inv tick s s1 gpio pd_ms dr_ms sl prio true hinv hrun, ?_⟩
  rw [hlist]
  exact find_entry_split gpio l _ [] hfree rfl

/-- C11: after an accepted `nblk_start` with `dr_ms = NBLK_FOREVER` (32-bit
period), let any sequence of events follow that contains no `nblk_start` and no
`nblk_stop` on that output: starts, stops and ticks of other outputs, and `n`
ticks of its own timer, in any order.  The sequence returns whenever the registry
has room for the entries the other starts add, and whenever it returns the entry
is still in the registry with `remaining_ms = NBLK_FOREVER`, its level is `n`
toggles away from 0, and the writes to its output since the start are exactly
the `n` toggles. -/
theorem forever_never_expires (tick : Nat) (s s1 : nblk_state) (gpio : Int) (pd_ms : Nat)
    (sl : Bool) (prio : Nat) (ops : List nblk_op) (hinv : reg_inv s.nblk_list)
    (hpd : pd_ms ≤ UINT32_MAX)
    (hrun : nblk_start tick s gpio pd_ms NBLK_FOREVER sl prio = .ok (true, s1))
    (hfree : ∀ op ∈ ops, nblk_op_touches gpio op = false) :
    (0 < NBLK_MINIMUM_PERIOD tick → s1.nblk_list.length + start_count ops ≤ 255 →
      ∃ sn, nblk_run tick s1 ops = .ok sn) ∧
    ∀ sn, nblk_run tick s1 ops = .ok sn →
      find_entry sn.nblk_list gpio =
        some { gpio := gpio, period_ms := pd_ms, remaining_ms := NBLK_FOREVER,
               level := decide (tick_count gpio ops % 2 = 1), stop_level := sl,
               priority := prio, tmr_blinker := some ((pd_ms / 2) * 1000) } ∧
      nblk_is_blinking sn gpio = true ∧
      writes_of sn.gpio_writes gpio =
        toggle_writes gpio (tick_count gpio ops) ++ writes_of s1.gpio_writes gpio := by
  obtain ⟨hinv1, hfind⟩ := start_accept_view tick s s1 gpio pd_ms NBLK_FOREVER sl prio hinv hrun
  constructor
  · intro hmin hcap
    exact nblk_run_total tick ops s1 hinv1 hmin hcap
  · intro sn hsn
    have hF : NBLK_FOREVER = 4294967295 := rfl
    have hU : UINT32_MAX = 4294967295 := rfl
    have hview := run_view tick gpio ops s1 sn hinv1 hfree hsn
    rw [hfind, own_ticks_toggle gpio _ _ (fun _ => NBLK_FOREVER) (tick_count gpio ops) rfl rfl
      (by
        intro j _
        refine ⟨?_, by simp⟩
        show pd_ms / 2 < NBLK_FOREVER
        rw [hF]; rw [hU] at hpd; omega)] at hview
    have h1 := congrArg Prod.fst hview
    have h2 := congrArg Prod.snd hview
    simp only at h1 h2
    have hinvn := nblk_run_inv tick ops s1 sn hinv1 hsn
    exact ⟨h1, find_entry_blinking sn gpio _ hinvn.2.1 h1, h2⟩

theorem forever_never_expires_witness :
    (reg_inv nblk_init.nblk_list ∧ 2000 ≤ UINT32_MAX ∧
      nblk_start 1 nblk_init 21 2000 NBLK_FOREVER false 0 =
        .ok (true, { smpr_list_modify := true,
                     nblk_list := [{ gpio := 21, period_ms := 2000,
                                     remaining_ms := NBLK_FOREVER, level := false,
                                     stop_level := false, priority := 0,
                                     tmr_blinker := some 1000000 }],
                     gpio_writes := [] }) ∧
      ∀ op ∈ [nblk_op.tick 21, .start 22 2000 NBLK_FOREVER false 0, .tick 22, .tick 21,
               .start 23 3000 NBLK_FOREVER false 0, .stop 22 true, .tick 21],
        nblk_op_touches 21 op = false) ∧
    ∃ sn, nblk_run 1
        { smpr_list_modify := true,
          nblk_list := [{ gpio := 21, period_ms := 2000, remaining_ms := NBLK_FOREVER,
                          level := false, stop_level := false, priority := 0,
                          tmr_blinker := some 1000000 }],
          gpio_writes := [] }
        [.tick 21, .start 22 2000 NBLK_FOREVER false 0, .tick 22, .tick 21,
         .start 23 3000 NBLK_FOREVER false 0, .stop 22 true, .tick 21] = .ok sn ∧
      find_entry sn.nblk_list 21 =
        some { gpio := 21, period_ms := 2000, remaining_ms := NBLK_FOREVER,
               level := true, stop_level := false, priority := 0,
               tmr_blinker := some 1000000 } ∧
      writes_of sn.gpio_writes 21 = [(21, true), (21, false), (21, true)] := by
  have hfree : ∀ op ∈ [nblk_op.tick 21, .start 22 2000 NBLK_FOREVER false 0, .tick 22, .tick 21,
      .start 23 3000 NBLK_FOREVER false 0, .stop 22 true, .tick 21],
      nblk_op_touches 21 op = false := by decide
  have h := forever_never_expires 1 nblk_init _ 21 2000 false 0
    [.tick 21, .start 22 2000 NBLK_FOREVER false 0, .tick 22, .tick 21,
     .start 23 3000 NBLK_FOREVER false 0, .stop 22 true, .tick 21]
    (by simp [reg_inv, nblk_init]) (by decide) rfl hfree
  obtain ⟨sn, hsn⟩ := h.1 (by decide) (by decide)
  obtain ⟨h1, _, h3⟩ := h.2 sn hsn
  exact ⟨⟨by simp [reg_inv, nblk_init], by decide, rfl, hfree⟩, sn, hsn, h1, h3⟩

/-- C18: after an accepted `nblk_start` with an even period and
`dr_ms = k * pd_ms` (`k ≥ 1`, `k * pd_ms ≤ UINT32_MAX`), let any sequence of
events follow that contains no `nblk_start` and no `nblk_stop` on that output:
starts, stops and ticks of other outputs, and `j` ticks of its own timer, in any
order.  The sequence returns whenever the registry has room for the entries the
other starts add.  Whenever it returns and `j ≤ 2k - 1`, the entry is in the
registry with `remaining_ms = k * pd_ms - j * (pd_ms / 2)` (exact, no
wrap-around), its level is `j` toggles away from 0 and the writes to its output
since the start are exactly the `j` toggles; when `j = 2k`, the entry is gone and
the writes are the `2k - 1` toggles followed by the stop level. -/
theorem exact_expiry (tick : Nat) (s s1 : nblk_state) (gpio : Int) (pd_ms k : Nat) (sl : Bool)
    (prio : Nat) (ops : List nblk_op) (hinv : reg_inv s.nblk_list)
    (hmin : 0 < NBLK_MINIMUM_PERIOD tick)
    (heven : pd_ms % 2 = 0) (hk : 1 ≤ k) (hfit : k * pd_ms ≤ UINT32_MAX)
    (hrun : nblk_start tick s gpio pd_ms (k * pd_ms) sl prio = .ok (true, s1))
    (hfree : ∀ op ∈ ops, nblk_op_touches gpio op = false) :
    (s1.nblk_list.length + start_count ops ≤ 255 → ∃ sn, nblk_run tick s1 ops = .ok sn) ∧
    ∀ sn, nblk_run tick s1 ops = .ok sn →
      (tick_count gpio ops ≤ 2 * k - 1 →
        tick_count gpio ops * (pd_ms / 2) + pd_ms / 2 ≤ k * pd_ms ∧
        find_entry sn.nblk_list gpio =
          some { gpio := gpio, period_ms := pd_ms,
                 remaining_ms := k * pd_ms - tick_count gpio ops * (pd_ms / 2),
                 level := decide (tick_count gpio ops % 2 = 1), stop_level := sl,
                 priority := prio, tmr_blinker := some ((pd_ms / 2) * 1000) } ∧
        nblk_is_blinking sn gpio = true ∧
        writes_of sn.gpio_writes gpio =
          toggle_writes gpio (tick_count gpio ops) ++ writes_of s1.gpio_writes gpio) ∧
      (tick_count gpio ops = 2 * k →
        find_entry sn.nblk_list gpio = none ∧ nblk_is_blinking sn gpio = false ∧
        writes_of sn.gpio_writes gpio =
          (gpio, sl) :: (toggle_writes gpio (2 * k - 1) ++ writes_of s1.gpio_writes gpio)) := by
  obtain ⟨hinv1, hfind⟩ := start_accept_view tick s s1 gpio pd_ms (k * pd_ms) sl prio hinv hrun
  have hge := start_accept_period tick s s1 gpio pd_ms (k * pd_ms) sl prio hrun
  have h2 := min_period_ge_two tick hmin
  have hF : NBLK_FOREVER = 4294967295 := rfl
  have hU : UINT32_MAX = 4294967295 := rfl
  rw [hU] at hfit
  have hD : k * pd_ms = (2 * k) * (pd_ms / 2) := by
    have : pd_ms = 2 * (pd_ms / 2) := by omega
    calc k * pd_ms = k * (2 * (pd_ms / 2)) := by rw [← this]
      _ = (2 * k) * (pd_ms / 2) := by ring
  have hbound : ∀ j, j ≤ 2 * k - 1 → j * (pd_ms / 2) + pd_ms / 2 ≤ k * pd_ms := by
    intro j hj
    have h1 : (j + 1) * (pd_ms / 2) ≤ (2 * k) * (pd_ms / 2) :=
      Nat.mul_le_mul_right _ (by omega)
    rw [Nat.add_mul, Nat.one_mul] at h1
    rw [hD]; exact h1
  have hbound2 : ∀ j, j < 2 * k - 1 → j * (pd_ms / 2) + 2 * (pd_ms / 2) ≤ k * pd_ms := by
    intro j hj
    have h1 : (j + 2) * (pd_ms / 2) ≤ (2 * k) * (pd_ms / 2) :=
      Nat.mul_le_mul_right _ (by omega)
    rw [Nat.add_mul] at h1
    rw [hD]; exact h1
  have hticks : ∀ (j : Nat) (w : List (Int × Bool)), j ≤ 2 * k - 1 →
      own_ticks gpio j
        (some { gpio := gpio, period_ms := pd_ms, remaining_ms := k * pd_ms, level := false,
                stop_level := sl, priority := prio,
                tmr_blinker := some ((pd_ms / 2) * 1000) }, w) =
        (some { gpio := gpio, period_ms := pd_ms,
                remaining_ms := k * pd_ms - j * (pd_ms / 2),
                level := decide (j % 2 = 1), stop_level := sl, priority := prio,
                tmr_blinker := some ((pd_ms / 2) * 1000) },
          toggle_writes gpio j ++ w) := by
    intro j w hj
    refine own_ticks_toggle gpio _ w (fun i => k * pd_ms - i * (pd_ms / 2)) j rfl (by simp) ?_
    intro i hi
    have hb := hbound2 i (by omega)
    have hsucc : (i + 1) * (pd_ms / 2) = i * (pd_ms / 2) + pd_ms / 2 := by
      rw [Nat.add_mul, Nat.one_mul]
    show pd_ms / 2 < k * pd_ms - i * (pd_ms / 2) ∧
      k * pd_ms - (i + 1) * (pd_ms / 2) =
        if k * pd_ms - i * (pd_ms / 2) ≠ NBLK_FOREVER
        then u32_sub (k * pd_ms - i * (pd_ms / 2)) (pd_ms / 2)
        else k * pd_ms - i * (pd_ms / 2)
    have hne : k * pd_ms - i * (pd_ms / 2) ≠ NBLK_FOREVER := by
      rw [hF]
      intro hcontra
      have : k * pd_ms % 2 = 0 := by
        rw [hD, Nat.mul_assoc]; exact Nat.mul_mod_right _ _
      by_cases hi0 : i * (pd_ms / 2) = 0
      · omega
      · omega
    rw [if_pos hne, hsucc]
    unfold u32_sub
    constructor
    · omega
    · omega
  constructor
  · intro hcap
    exact nblk_run_total tick ops s1 hinv1 hmin hcap
  · intro sn hsn
    have hview := run_view tick gpio ops s1 sn hinv1 hfree hsn
    have hinvn := nblk_run_inv tick ops s1 sn hinv1 hsn
    rw [hfind] at hview
    constructor
    · intro hj
      rw [hticks _ _ hj] at hview
      have h1 := congrArg Prod.fst hview
      have h3 := congrArg Prod.snd hview
      simp only at h1 h3
      exact ⟨hbound _ hj, h1, find_entry_blinking sn gpio _ hinvn.2.1 h1, h3⟩
    · intro hj
      have h2k : 2 * k = (2 * k - 1) + 1 := by omega
      have hrem : k * pd_ms - (2 * k - 1) * (pd_ms / 2) = pd_ms / 2 := by
        have h1 : (2 * k - 1 + 1) * (pd_ms / 2) = (2 * k) * (pd_ms / 2) := by rw [← h2k]
        rw [Nat.add_mul, Nat.one_mul] at h1
        rw [hD]; omega
      rw [hj, h2k, own_ticks_succ, hticks _ _ (Nat.le_refl _)] at hview
      have hc : ¬ pd_ms / 2 < k * pd_ms - (2 * k - 1) * (pd_ms / 2) := by rw [hrem]; omega
      simp only [own_tick, if_neg hc] at hview
      have h1 := congrArg Prod.fst hview
      have h3 := congrArg Prod.snd hview
      simp only at h1 h3
      exact ⟨h1, find_entry_none_idle sn gpio h1, h3⟩

theorem exact_expiry_witness :
    (reg_inv nblk_init.nblk_list ∧ 0 < NBLK_MINIMUM_PERIOD 1 ∧ 2000 % 2 = 0 ∧ 1 ≤ 3 ∧
      3 * 2000 ≤ UINT32_MAX ∧
      nblk_start 1 nblk_init 21 2000 (3 * 2000) true 0 =
        .ok (true, { smpr_list_modify := true,
                     nblk_list := [{ gpio := 21, period_ms := 2000, remaining_ms := 6000,
                                     level := false, stop_level := true, priority := 0,
                                     tmr_blinker := some 1000000 }],
                     gpio_writes := [] }) ∧
      ∀ op ∈ [nblk_op.tick 21, .start 22 2000 NBLK_FOREVER false 0, .tick 21, .tick 22,
               .tick 21, .tick 21, .stop 22 true, .tick 21, .tick 21],
        nblk_op_touches 21 op = false) ∧
    ∃ sn, nblk_run 1
        { smpr_list_modify := true,
          nblk_list := [{ gpio := 21, period_ms := 2000, remaining_ms := 6000,
                          level := false, stop_level := true, priority := 0,
                          tmr_blinker := some 1000000 }],
          gpio_writes := [] }
        [.tick 21, .start 22 2000 NBLK_FOREVER false 0, .tick 21, .tick 22, .tick 21, .tick 21,
         .stop 22 true, .tick 21, .tick 21] = .ok sn ∧
      find_entry sn.nblk_list 21 = none ∧
      writes_of sn.gpio_writes 21 =
        [(21, true), (21, true), (21, false), (21, true), (21, false), (21, true)] := by
  have hfree : ∀ op ∈ [nblk_op.tick 21, .start 22 2000 NBLK_FOREVER false 0, .tick 21,
      .tick 22, .tick 21, .tick 21, .stop 22 true, .tick 21, .tick 21],
      nblk_op_touches 21 op = false := by decide
  have h := exact_expiry 1 nblk_init _ 21 2000 3 true 0
    [.tick 21, .start 22 2000 NBLK_FOREVER false 0, .tick 21, .tick 22, .tick 21, .tick 21,
     .stop 22 true, .tick 21, .tick 21]
    (by simp [reg_inv, nblk_init]) (by decide) (by decide) (by decide) (by decide) rfl hfree
  obtain ⟨sn, hsn⟩ := h.1 (by decide)
  obtain ⟨h1, _, h3⟩ := (h.2 sn hsn).2 rfl
  exact ⟨⟨by simp [reg_inv, nblk_init], by decide, by decide, by decide, by decide, rfl, hfree⟩,
    sn, hsn, h1, h3⟩

/-! ## Output levels of the independent blinker -/

theorem find_entry_none_free (l : List nblink_t) (gpio : Int) (h : find_entry l gpio = none) :
    ∀ e ∈ l, e.gpio ≠ gpio := by
  rcases registry_split gpio l with h1 | ⟨pre, e, post, hl, hpre, he⟩
  · exact h1
  · rw [hl, find_entry_split gpio pre e post hpre he] at h
    cases h

/-- What an accepted `nblk_start` writes: nothing when the output had no entry,
the stop level of the replaced entry otherwise. -/
theorem start_accept_writes_exact (tick : Nat) (s s1 : nblk_state) (gpio : Int)
    (pd_ms dr_ms : Nat) (sl : Bool) (prio : Nat) (hinv : reg_inv s.nblk_list)
    (hrun : nblk_start tick s gpio pd_ms dr_ms sl prio = .ok (true, s1)) :
    s1.gpio_writes =
      match find_entry s.nblk_list gpio with
      | none => s.gpio_writes
      | some e => (gpio, e.stop_level) :: s.gpio_writes := by
  obtain ⟨hnd, hlen, _⟩ := hinv
  unfold nblk_start at hrun
  by_cases h1 : pd_ms < NBLK_MINIMUM_PERIOD tick
  · rw [if_pos h1] at hrun; cases hrun
  rw [if_neg h1] at hrun
  by_cases h0 : pd_ms = 0
  · rw [if_pos h0] at hrun; cases hrun
  rw [if_neg h0] at hrun
  by_cases h2 : dr_ms % pd_ms ≠ 0 ∧ dr_ms ≠ NBLK_FOREVER
  · rw [if_pos h2] at hrun; cases hrun
  rw [if_neg h2] at hrun
  simp only [] at hrun
  rcases registry_split gpio s.nblk_list with h | ⟨pre, e, post, hl, hpre, he⟩
  · rw [idx_absent gpio s.nblk_list h] at hrun
    simp only [ne_eq, not_true_eq_false, if_false] at hrun
    rw [find_entry_absent gpio s.nblk_list h]
    exact insert_writes { s with smpr_list_modify := true } s1 gpio pd_ms dr_ms sl prio true hrun
  · have hidx : get_nblk_idx_in_list s.nblk_list gpio = pre.length := by
      rw [hl]; exact idx_split gpio pre e post hpre he (hl ▸ hlen)
    have hlt : pre.length ≠ UINT8_MAX := by
      rw [hl] at hlen
      simp only [List.length_append, List.length_cons] at hlen
      unfold UINT8_MAX
      omega
    have hget : s.nblk_list[pre.length]? = some e := by rw [hl]; exact split_get pre e post
    have hdel := del_split { s with smpr_list_modify := true } gpio pre e post hl hpre he hlen
    have hfind : find_entry s.nblk_list gpio = some e := by
      rw [hl]; exact find_entry_split gpio pre e post hpre he
    simp only [hidx, hlt, ne_eq, not_false_eq_true, if_true, hget, hdel] at hrun
    rw [hfind]
    have hfin : ∀ h : nblk_start_insert
        { s with smpr_list_modify := true,
                 gpio_writes := gpio_set_level s.gpio_writes gpio e.stop_level,
                 nblk_list := pre ++ post } gpio pd_ms dr_ms sl prio = .ok (true, s1),
        s1.gpio_writes = (gpio, e.stop_level) :: s.gpio_writes := by
      intro h
      exact insert_writes _ s1 gpio pd_ms dr_ms sl prio true h
    by_cases h5 : prio > e.priority
    · rw [if_pos h5] at hrun
      exact hfin hrun
    · rw [if_neg h5] at hrun
      by_cases h6 : prio = e.priority ∧ dr_ms > e.remaining_ms
      · rw [if_pos h6] at hrun
        exact hfin hrun
      · rw [if_neg h6] at hrun; cases hrun

/-- One event keeps every ticked entry's output at its level and every entry
that still waits for its first tick at level 0. -/
theorem fresh_step_inv (tick : Nat) (s s1 : nblk_state) (op : nblk_op) (F : Int → Bool)
    (hinv : reg_inv s.nblk_list)
    (hk : ∀ e ∈ s.nblk_list, (F e.gpio = false → level_ok s.gpio_writes e) ∧
      (F e.gpio = true → e.level = false))
    (hrun : nblk_step tick s op = .ok s1) :
    ∀ e ∈ s1.nblk_list,
      (fresh_step tick s e.gpio (F e.gpio) op = false → level_ok s1.gpio_writes e) ∧
      (fresh_step tick s e.gpio (F e.gpio) op = true → e.level = false) := by
  intro e1 he1
  cases op with
  | start gpio pd_ms dr_ms sl prio =>
    simp only [nblk_step] at hrun
    split at hrun
    · cases hrun
    · rename_i r s2 heq
      injection hrun with h1
      subst h1
      cases r with
      | false =>
        obtain ⟨hl, hw, _⟩ := nblk_start_rejected tick s gpio pd_ms dr_ms sl prio s2 heq
        have hflag : fresh_step tick s e1.gpio (F e1.gpio) (.start gpio pd_ms dr_ms sl prio) =
            F e1.gpio := by
          simp only [fresh_step, heq]
          split <;> rfl
        rw [hflag, hw]
        rw [hl] at he1
        exact hk e1 he1
      | true =>
        obtain ⟨l, hfree, _, hfilt, hlist⟩ :=
          start_accept_shape tick s s2 gpio pd_ms dr_ms sl prio hinv heq
        obtain ⟨_, _, hw⟩ := start_accept_writes tick s s2 gpio pd_ms dr_ms sl prio hinv heq
        rw [hlist] at he1
        rcases List.mem_append.mp he1 with h2 | h2
        · have hg : ¬ gpio = e1.gpio := fun h => hfree e1 h2 h.symm
          have hflag : fresh_step tick s e1.gpio (F e1.gpio) (.start gpio pd_ms dr_ms sl prio) =
              F e1.gpio := by
            simp only [fresh_step, if_neg hg]
          rw [hflag]
          rw [hfilt] at h2
          have hmem := (List.mem_filter.mp h2).1
          rcases hw with hw | ⟨e, _, _, hw⟩
          · rw [hw]; exact hk e1 hmem
          · rw [hw, level_ok_other _ _ _ _ (fun h => hg h.symm)]
            exact hk e1 hmem
        · have he : e1 = _ := List.mem_singleton.mp h2
          have hg : gpio = e1.gpio := by rw [he]
          have hflag : fresh_step tick s e1.gpio (F e1.gpio) (.start gpio pd_ms dr_ms sl prio) =
              true := by
            simp only [fresh_step, if_pos hg, heq]
          rw [hflag]
          refine ⟨fun h => absurd h (by decide), fun _ => ?_⟩
          rw [he]
  | stop gpio sl =>
    simp only [nblk_step] at hrun
    split at hrun
    · cases hrun
    · rename_i r s2 heq
      injection hrun with h1
      subst h1
      simp only [fresh_step]
      rcases stop_effect s s2 gpio sl r hinv heq with h | ⟨e, _, _, hl, hw⟩
      · rw [h] at he1 ⊢; exact hk e1 he1
      · rw [hl] at he1
        obtain ⟨hmem, hne⟩ := List.mem_filter.mp he1
        have hne' : e1.gpio ≠ gpio := by simpa using hne
        rw [hw, level_ok_other _ _ _ _ hne', level_ok_other _ _ _ _ hne']
        exact hk e1 hmem
  | tick gpio =>
    simp only [nblk_step] at hrun
    simp only [fresh_step]
    split at hrun
    · obtain ⟨pre, e, post, hl, he, hfree, h⟩ := cb_effect s s1 gpio hinv hrun
      have hrest : ∀ x ∈ pre ++ post, x ∈ s.nblk_list := by
        intro x hx
        rw [hl]
        rcases List.mem_append.mp hx with h2 | h2
        · exact List.mem_append_left _ h2
        · exact List.mem_append_right _ (List.mem_cons_of_mem _ h2)
      rcases h with ⟨_, hl1, hw⟩ | ⟨_, hl1, hw⟩
      · rw [hl1] at he1
        have hcase : e1 ∈ pre ++ post ∨ e1 = nblk_cb_entry e := by
          rcases List.mem_append.mp he1 with h2 | h2
          · exact Or.inl (List.mem_append_left _ h2)
          · rcases List.mem_cons.mp h2 with h3 | h3
            · exact Or.inr h3
            · exact Or.inl (List.mem_append_right _ h3)
        rcases hcase with h2 | h2
        · have hne := hfree e1 h2
          rw [if_neg (fun h => hne h.symm), hw, level_ok_other _ _ _ _ hne]
          exact hk e1 (hrest e1 h2)
        · have hg : gpio = e1.gpio := by rw [h2]; exact he.symm
          rw [if_pos hg]
          refine ⟨fun _ => ?_, fun h => by cases h⟩
          rw [hw, h2]
          unfold level_ok
          show gpio_get_level ((gpio, _) :: s.gpio_writes) e.gpio = _
          rw [he]
          simp [gpio_get_level, nblk_cb_entry]
      · rw [hl1] at he1
        have hne := hfree e1 he1
        rw [if_neg (fun h => hne h.symm), hw, level_ok_other _ _ _ _ hne]
        exact hk e1 (hrest e1 he1)
    · rename_i hnb
      injection hrun with h1
      subst h1
      have hne := not_blinking_free s gpio hinv.2.1 hnb e1 he1
      rw [if_neg (fun h => hne h.symm)]
      exact hk e1 he1

theorem fresh_run_inv (tick : Nat) (ops : List nblk_op) :
    ∀ (s s1 : nblk_state) (F : Int → Bool), reg_inv s.nblk_list →
      (∀ e ∈ s.nblk_list, (F e.gpio = false → level_ok s.gpio_writes e) ∧
        (F e.gpio = true → e.level = false)) →
      nblk_run tick s ops = .ok s1 →
      ∀ e ∈ s1.nblk_list,
        (fresh_run tick e.gpio s (F e.gpio) ops = false → level_ok s1.gpio_writes e) ∧
        (fresh_run tick e.gpio s (F e.gpio) ops = true → e.level = false) := by
  induction ops with
  | nil =>
    intro s s1 F _ hk hrun
    simp only [nblk_run] at hrun
    injection hrun with h1
    subst h1
    exact hk
  | cons op rest ih =>
    intro s s1 F hinv hk hrun
    simp only [nblk_run] at hrun
    split at hrun
    · cases hrun
    · rename_i s2 heq
      intro e he
      have h := ih s2 s1 (fun g => fresh_step tick s g (F g) op)
        (nblk_step_inv tick s s2 op hinv heq) (fresh_step_inv tick s s2 op F hinv hk heq) hrun e he
      simp only [fresh_run, heq]
      exact h

/-- C13 (as the code behaves): in every state a group reaches after a successful
`nblk_sync_create_mgr` every member's output is at the member's `level`.  In
every state the independent blinker reaches from the idle state the same holds
for every entry whose timer has ticked since the accepted `nblk_start` that
created it; an entry that still waits for its first tick has level 0.  An
accepted `nblk_start` leaves the new entry at level 0 and the output at its
previous value, or at the stop level of the entry it replaced. -/
theorem level_consistency (tick : Nat) :
    (∀ (st0 : sync_state) (tbase_ms : Nat) (lvl : Bool) (ops : List sync_op) (st : sync_state),
      (nblk_sync_create_mgr tick st0 tbase_ms lvl).1 = true →
      sync_run tick (nblk_sync_create_mgr tick st0 tbase_ms lvl).2 ops = .ok st →
      ∀ e ∈ st.mgr.nblk_list, level_ok st.gpio_writes e) ∧
    (∀ (ops : List nblk_op) (s : nblk_state), nblk_run tick nblk_init ops = .ok s →
      ∀ e ∈ s.nblk_list,
        (awaits_first_tick tick ops e.gpio = false → level_ok s.gpio_writes e) ∧
        (awaits_first_tick tick ops e.gpio = true → e.level = false)) ∧
    (∀ (s s1 : nblk_state) (gpio : Int) (pd_ms dr_ms : Nat) (sl : Bool) (prio : Nat),
      reg_inv s.nblk_list →
      nblk_start tick s gpio pd_ms dr_ms sl prio = .ok (true, s1) →
      (∃ e1, find_entry s1.nblk_list gpio = some e1 ∧ e1.level = false) ∧
      gpio_get_level s1.gpio_writes gpio =
        match find_entry s.nblk_list gpio with
        | none => gpio_get_level s.gpio_writes gpio
        | some e => some e.stop_level) := by
  refine ⟨?_, ?_, ?_⟩
  · intro st0 tbase_ms lvl ops st hc hrun
    exact (sync_run_inv tick ops _ st (create_inv tick st0 tbase_ms lvl hc) hrun).2
  · intro ops s hrun
    apply fresh_run_inv tick ops nblk_init s (fun _ => false) reg_inv_nil ?_ hrun
    intro e he
    cases he
  · intro s s1 gpio pd_ms dr_ms sl prio hinv hrun
    obtain ⟨_, hfind⟩ := start_accept_view tick s s1 gpio pd_ms dr_ms sl prio hinv hrun
    refine ⟨⟨_, hfind, rfl⟩, ?_⟩
    rw [start_accept_writes_exact tick s s1 gpio pd_ms dr_ms sl prio hinv hrun]
    cases hf : find_entry s.nblk_list gpio with
    | none => rfl
    | some e => simp [gpio_get_level]

theorem level_consistency_witness :
    ((nblk_sync_create_mgr 1 sync_zero 1000 true).1 = true ∧
      sync_run 1 (nblk_sync_create_mgr 1 sync_zero 1000 true).2
        [.start 21 2000 NBLK_FOREVER false 0] = .ok example_with_sync_state ∧
      nblk_run 1 nblk_init
        [.start 21 2000 60000 true 1, .tick 21, .start 21 250 10000 false 0] =
        .ok { smpr_list_modify := true,
              nblk_list := [{ gpio := 21, period_ms := 2000, remaining_ms := 59000,
                              level := true, stop_level := true, priority := 1,
                              tmr_blinker := some 1000000 }],
              gpio_writes := [(21, true)] } ∧
      awaits_first_tick 1
        [.start 21 2000 60000 true 1, .tick 21, .start 21 250 10000 false 0] 21 = false ∧
      reg_inv example_blink_params_state.nblk_list ∧
      nblk_start 1 example_blink_params_state 21 500 30000 true 2 =
        .ok (true, { smpr_list_modify := true,
                     nblk_list := [{ gpio := 21, period_ms := 500, remaining_ms := 30000,
                                     level := false, stop_level := true, priority := 2,
                                     tmr_blinker := some 250000 }],
                     gpio_writes := (21, false) :: example_blink_params_state.gpio_writes })) ∧
    (∀ e ∈ example_with_sync_state.mgr.nblk_list,
      level_ok example_with_sync_state.gpio_writes e) ∧
    level_ok [(21, true)]
      { gpio := 21, period_ms := 2000, remaining_ms := 59000, level := true,
        stop_level := true, priority := 1, tmr_blinker := some 1000000 } ∧
    gpio_get_level ((21, false) :: example_blink_params_state.gpio_writes) 21 = some false := by
  have hinv : reg_inv example_blink_params_state.nblk_list := by
    simp [reg_inv, example_blink_params_state]
  refine ⟨⟨rfl, rfl, rfl, rfl, hinv, rfl⟩,
    (level_consistency 1).1 sync_zero 1000 true [.start 21 2000 NBLK_FOREVER false 0]
      example_with_sync_state rfl rfl, ?_, ?_⟩
  · exact ((level_consistency 1).2.1
      [.start 21 2000 60000 true 1, .tick 21, .start 21 250 10000 false 0]
      { smpr_list_modify := true,
        nblk_list := [{ gpio := 21, period_ms := 2000, remaining_ms := 59000,
                        level := true, stop_level := true, priority := 1,
                        tmr_blinker := some 1000000 }],
        gpio_writes := [(21, true)] } rfl _ (List.mem_cons_self _ _)).1 rfl
  · exact ((level_consistency 1).2.2 example_blink_params_state
      { smpr_list_modify := true,
        nblk_list := [{ gpio := 21, period_ms := 500, remaining_ms := 30000,
                        level := false, stop_level := true, priority := 2,
                        tmr_blinker := some 250000 }],
        gpio_writes := (21, false) :: example_blink_params_state.gpio_writes }
      21 500 30000 true 2 hinv rfl).2

end Nblink
